import Mathlib

/-!
# Broadband compressor DSP core: embedding and verified properties

The C++ sources under `Source/DSP` and `Source/PluginProcessor.cpp` compute on `float`.
Here a `float` is a value of `FloatX α`: a number of an ordered field `α` (exact
arithmetic, no rounding) or one of the IEEE-754 special values `-inf`, `+inf`, `NaN`.
The two signed zeros are identified.  A `size_t` is a natural number, with the wrap-around
modulo `2^64` written out where the source adds or subtracts.
The functions are executable for `α = ℚ`; statements about limits and about
`pow`/`log10`/`exp` are made for `α = ℝ`.
The section `Binary32` has the curve, the hold length and the envelope loops once more
with the result of every operation rounded to binary32, as the compiled code computes
them; where a property of the exact functions fails there, it is stated for the exact
functions, "over the reals", next to the binary32 evaluation that differs.
-/

namespace DSP

/-! ## Idealised `float` -/

/-- Idealised `float`: a finite number, an infinity, or NaN. -/
inductive FloatX (α : Type) where
  | nan : FloatX α
  | negInf : FloatX α
  | fin (x : α) : FloatX α
  | posInf : FloatX α
  deriving DecidableEq, Repr

namespace FloatX

variable {α : Type} [LinearOrderedField α]

/-- Unary minus. -/
def neg : FloatX α → FloatX α
  | nan => nan
  | negInf => posInf
  | fin x => fin (-x)
  | posInf => negInf

/-- Addition; `inf + (-inf)` is NaN. -/
def add : FloatX α → FloatX α → FloatX α
  | nan, _ => nan
  | negInf, nan => nan
  | negInf, negInf => negInf
  | negInf, fin _ => negInf
  | negInf, posInf => nan
  | fin _, nan => nan
  | fin _, negInf => negInf
  | fin x, fin y => fin (x + y)
  | fin _, posInf => posInf
  | posInf, nan => nan
  | posInf, negInf => nan
  | posInf, fin _ => posInf
  | posInf, posInf => posInf

/-- Subtraction, `a - b = a + (-b)`. -/
def sub (a b : FloatX α) : FloatX α := add a (neg b)

/-- The infinity with the sign of `x`, NaN for `x = 0` (the value of `x * inf`). -/
def signedInf (x : α) : FloatX α :=
  if 0 < x then posInf else if x < 0 then negInf else nan

/-- Multiplication; `0 * inf` is NaN. -/
def mul : FloatX α → FloatX α → FloatX α
  | nan, _ => nan
  | negInf, nan => nan
  | negInf, negInf => posInf
  | negInf, fin y => signedInf (-y)
  | negInf, posInf => negInf
  | fin _, nan => nan
  | fin x, negInf => signedInf (-x)
  | fin x, fin y => fin (x * y)
  | fin x, posInf => signedInf x
  | posInf, nan => nan
  | posInf, negInf => negInf
  | posInf, fin y => signedInf y
  | posInf, posInf => posInf

/-- Division; `0 / 0` and `inf / inf` are NaN, `x / 0` is an infinity with the sign of `x`
(the divisor zero counts as `+0`), and a finite number over an infinity is `0`. -/
def div : FloatX α → FloatX α → FloatX α
  | nan, _ => nan
  | negInf, nan => nan
  | negInf, negInf => nan
  | negInf, fin y => if y < 0 then posInf else negInf
  | negInf, posInf => nan
  | fin _, nan => nan
  | fin _, negInf => fin 0
  | fin x, fin y => if y = 0 then signedInf x else fin (x / y)
  | fin _, posInf => fin 0
  | posInf, nan => nan
  | posInf, negInf => nan
  | posInf, fin y => if y < 0 then negInf else posInf
  | posInf, posInf => nan

/-- Absolute value, `std::fabs`. -/
def fabs : FloatX α → FloatX α
  | nan => nan
  | negInf => posInf
  | fin x => fin |x|
  | posInf => posInf

/-- Comparison `a <= b`; false as soon as one side is NaN. -/
def leB : FloatX α → FloatX α → Bool
  | nan, _ => false
  | negInf, nan => false
  | negInf, negInf => true
  | negInf, fin _ => true
  | negInf, posInf => true
  | fin _, nan => false
  | fin _, negInf => false
  | fin x, fin y => decide (x ≤ y)
  | fin _, posInf => true
  | posInf, nan => false
  | posInf, negInf => false
  | posInf, fin _ => false
  | posInf, posInf => true

/-- Comparison `a < b`; false as soon as one side is NaN. -/
def ltB : FloatX α → FloatX α → Bool
  | nan, _ => false
  | negInf, nan => false
  | negInf, negInf => false
  | negInf, fin _ => true
  | negInf, posInf => true
  | fin _, nan => false
  | fin _, negInf => false
  | fin x, fin y => decide (x < y)
  | fin _, posInf => true
  | posInf, _ => false

/-- Comparison `a == b`; NaN is equal to nothing, itself included. -/
def eqB : FloatX α → FloatX α → Bool
  | negInf, negInf => true
  | fin x, fin y => decide (x = y)
  | posInf, posInf => true
  | _, _ => false

instance : Neg (FloatX α) := ⟨neg⟩
instance : Add (FloatX α) := ⟨add⟩
instance : Sub (FloatX α) := ⟨sub⟩
instance : Mul (FloatX α) := ⟨mul⟩
instance : Div (FloatX α) := ⟨div⟩
instance : LE (FloatX α) := ⟨fun a b => leB a b = true⟩
instance : LT (FloatX α) := ⟨fun a b => ltB a b = true⟩
instance (a b : FloatX α) : Decidable (a ≤ b) := inferInstanceAs (Decidable (leB a b = true))
instance (a b : FloatX α) : Decidable (a < b) := inferInstanceAs (Decidable (ltB a b = true))

/-- True of the finite values only. -/
def IsFinite : FloatX α → Prop
  | fin _ => True
  | _ => False

end FloatX

open FloatX

variable {α : Type} [LinearOrderedField α]

/-! ## `Utilities.h` -/

/-- The `positiveInfinity<float>()` of the source (`float` has an infinity). -/
def positiveInfinity : FloatX α := posInf

/-- The `negativeInfinity<float>()` of the source. -/
def negativeInfinity : FloatX α := negInf

/-- The three `<cmath>` functions the sources call, on finite arguments:
`pow10 y` is `std::pow(10.0f, y)`, `log10 x` is `std::log10(x)` for `x > 0`,
`exp y` is `std::exp(y)`. -/
structure CMath (α : Type) where
  pow10 : α → α
  log10 : α → α
  exp : α → α

/-- The call `std::pow(10.0f, y)` on a `float`. -/
def CMath.powTen (m : CMath α) : FloatX α → FloatX α
  | nan => nan
  | negInf => fin 0
  | fin y => fin (m.pow10 y)
  | posInf => posInf

/-- The call `std::log10(x)` on a `float`: NaN below zero, `-inf` at zero. -/
def CMath.logTen (m : CMath α) : FloatX α → FloatX α
  | nan => nan
  | negInf => nan
  | fin x => if x < 0 then nan else if x = 0 then negInf else fin (m.log10 x)
  | posInf => posInf

/-- The call `std::exp(y)` on a `float`. -/
def CMath.expX (m : CMath α) : FloatX α → FloatX α
  | nan => nan
  | negInf => fin 0
  | fin y => fin (m.exp y)
  | posInf => posInf

/-- The `<cmath>` functions over the real numbers. -/
noncomputable def realMath : CMath ℝ where
  pow10 := fun y => (10 : ℝ) ^ y
  log10 := fun x => Real.logb 10 x
  exp := Real.exp

/-- Convert decibels to linear magnitude (`db2Mag`). -/
def db2Mag (m : CMath α) (db : FloatX α) : FloatX α :=
  if eqB db negativeInfinity then fin 0
  else if eqB db positiveInfinity then positiveInfinity
  else m.powTen (db / fin 20)

/-- Convert linear magnitude to decibels (`mag2Db`). -/
def mag2Db (m : CMath α) (mag : FloatX α) : FloatX α :=
  let mag := if mag < fin 0 then fabs mag else mag
  if eqB mag (fin 0) then negativeInfinity
  else if eqB mag positiveInfinity then positiveInfinity
  else fin 20 * m.logTen mag

/-- Convert a time constant in seconds to a one-pole filter coefficient
(`timeConstantToCoefficient`). -/
def timeConstantToCoefficient (m : CMath α) (timeConstantSec sampleRateHz : FloatX α) :
    FloatX α :=
  let sampleRateHz := if sampleRateHz ≤ fin 0 then fabs sampleRateHz else sampleRateHz
  let timeConstantSec := if timeConstantSec < fin 0 then fabs timeConstantSec else timeConstantSec
  if timeConstantSec ≤ fin 0 then fin 1
  else if eqB sampleRateHz (fin 0) || eqB timeConstantSec positiveInfinity then fin 0
  else fin 1 - m.expX (-(fin 1) / (timeConstantSec * sampleRateHz))

/-! ## `CompressionCurve.h` -/

/-- The data members of `CompressionCurve`, with their default initialisers. -/
structure CompressionCurve (α : Type) [LinearOrderedField α] where
  makeupGain_ : FloatX α := fin 1
  thresholdDb_ : FloatX α := fin 0
  kneeWidthDb_ : FloatX α := fin 0
  compressionRatio_ : FloatX α := fin 1

namespace CompressionCurve

/-- Setter `setMakeupGainDb`. -/
def setMakeupGainDb (m : CMath α) (c : CompressionCurve α) (makeupGainDb : FloatX α) :
    CompressionCurve α :=
  { c with makeupGain_ := db2Mag m makeupGainDb }

/-- Setter `setThresholdDb`. -/
def setThresholdDb (c : CompressionCurve α) (thresholdDb : FloatX α) : CompressionCurve α :=
  { c with thresholdDb_ := thresholdDb }

/-- Setter `setKneeWidthDb`: stores only when `kneeWidthDb >= 0`. -/
def setKneeWidthDb (c : CompressionCurve α) (kneeWidthDb : FloatX α) : CompressionCurve α :=
  if kneeWidthDb ≥ fin 0 then { c with kneeWidthDb_ := kneeWidthDb } else c

/-- Setter `setCompressionRatio`: stores only when `ratio >= 1`. -/
def setCompressionRatio (c : CompressionCurve α) (ratio : FloatX α) : CompressionCurve α :=
  if ratio ≥ fin 1 then { c with compressionRatio_ := ratio } else c

/-- The value assigned to `outLevelDb` in the in-knee branch of
`calculateCompressionGainDb` (the quadratic soft knee). -/
def kneeOutLevelDb (c : CompressionCurve α) (inLevelDb : FloatX α) : FloatX α :=
  let temp := inLevelDb - c.thresholdDb_ + c.kneeWidthDb_ / fin 2
  if eqB c.compressionRatio_ positiveInfinity then
    inLevelDb + ((-temp) * temp / (fin 2 * c.kneeWidthDb_))
  else
    inLevelDb + (fin 1 / c.compressionRatio_ - fin 1) * temp * temp / (fin 2 * c.kneeWidthDb_)

/-- The value assigned to `outLevelDb` in the above-knee branch of
`calculateCompressionGainDb` (full compression). -/
def aboveKneeOutLevelDb (c : CompressionCurve α) (inLevelDb : FloatX α) : FloatX α :=
  if eqB c.compressionRatio_ positiveInfinity then c.thresholdDb_
  else c.thresholdDb_ + (inLevelDb - c.thresholdDb_) / c.compressionRatio_

/-- The compression gain in dB for an input level in dB (`calculateCompressionGainDb`).
Every operation is exact here; `Binary32.calculateCompressionGainDb` is the same method
with every result rounded to binary32. -/
def calculateCompressionGainDb (c : CompressionCurve α) (inLevelDb : FloatX α) : FloatX α :=
  if eqB inLevelDb negativeInfinity then fin 0
  else
    let outLevelDb :=
      if fin 2 * (inLevelDb - c.thresholdDb_) ≤ -c.kneeWidthDb_ then inLevelDb
      else if fin 2 * fabs (inLevelDb - c.thresholdDb_) < c.kneeWidthDb_ then
        kneeOutLevelDb c inLevelDb
      else aboveKneeOutLevelDb c inLevelDb
    outLevelDb - inLevelDb

/-- The output level in dB for an input level in dB (`calculateOutputLevelDb`), in exact
arithmetic; `Binary32.calculateOutputLevelDb` rounds every result to binary32. -/
def calculateOutputLevelDb (c : CompressionCurve α) (inLevelDb : FloatX α) : FloatX α :=
  inLevelDb + calculateCompressionGainDb c inLevelDb

end CompressionCurve

namespace CompressionCurve

end CompressionCurve

/-! ## `LevelEstimator.h` -/

/-- The conversion `static_cast<size_t>(x)` of a `float`: a finite value `>= 0` is
truncated toward zero.  C++ leaves the conversion undefined for NaN, for the infinities
and for values `<= -1`; those give `0` here.  A `size_t` is a natural number. -/
def toSizeT [FloorRing α] : FloatX α → Nat
  | fin x => ⌊x⌋₊
  | _ => 0

/-- The envelope memory of one channel, `LevelEstimator::State`. -/
structure LevelEstimator.State (α : Type) [LinearOrderedField α] where
  levelEstimate : FloatX α := fin 0
  holdCount : Nat := 0

/-- The method `State::reset`. -/
def LevelEstimator.State.reset (_state : LevelEstimator.State α) : LevelEstimator.State α :=
  { levelEstimate := fin 0, holdCount := 0 }

/-- The data members of `LevelEstimator`, with their default initialisers. -/
structure LevelEstimator (α : Type) [LinearOrderedField α] where
  sampleRateHz_ : FloatX α := fin 44100
  attackTimeSec_ : FloatX α := fin 0
  releaseTimeSec_ : FloatX α := fin (1 / 10)
  holdTimeSec_ : FloatX α := fin 0
  attackCoefficient_ : FloatX α := fin 1
  releaseCoefficient_ : FloatX α := fin 1
  holdTimeSamples_ : Nat := 0

namespace LevelEstimator

/-- The private method `updateCoefficients`, in exact arithmetic;
`Binary32.updateCoefficients` rounds every result to binary32. -/
def updateCoefficients [FloorRing α] (m : CMath α) (le : LevelEstimator α) : LevelEstimator α :=
  { le with
    attackCoefficient_ := timeConstantToCoefficient m le.attackTimeSec_ le.sampleRateHz_
    releaseCoefficient_ := timeConstantToCoefficient m le.releaseTimeSec_ le.sampleRateHz_
    holdTimeSamples_ := toSizeT (le.holdTimeSec_ * le.sampleRateHz_) }

/-- Setter `setSampleRate`: ignores a rate `<= 0`, recomputes the coefficients when the
rate changes. -/
def setSampleRate [FloorRing α] (m : CMath α) (le : LevelEstimator α)
    (sampleRateHz : FloatX α) : LevelEstimator α :=
  if sampleRateHz ≤ fin 0 then le
  else if !(eqB sampleRateHz le.sampleRateHz_) then
    updateCoefficients m { le with sampleRateHz_ := sampleRateHz }
  else le

/-- Setter `setAttackTimeMs`. -/
def setAttackTimeMs (m : CMath α) (le : LevelEstimator α) (attackTimeMs : FloatX α) :
    LevelEstimator α :=
  if attackTimeMs < fin 0 then le
  else
    let attackTimeSec := attackTimeMs / fin 1000
    { le with
      attackTimeSec_ := attackTimeSec
      attackCoefficient_ := timeConstantToCoefficient m attackTimeSec le.sampleRateHz_ }

/-- Setter `setReleaseTimeMs`. -/
def setReleaseTimeMs (m : CMath α) (le : LevelEstimator α) (releaseTimeMs : FloatX α) :
    LevelEstimator α :=
  if releaseTimeMs < fin 0 then le
  else
    let releaseTimeSec := releaseTimeMs / fin 1000
    { le with
      releaseTimeSec_ := releaseTimeSec
      releaseCoefficient_ := timeConstantToCoefficient m releaseTimeSec le.sampleRateHz_ }

/-- Setter `setHoldTimeMs`, in exact arithmetic; `Binary32.setHoldTimeMs` rounds the
quotient and the product to binary32 before the conversion. -/
def setHoldTimeMs [FloorRing α] (le : LevelEstimator α) (holdTimeMs : FloatX α) :
    LevelEstimator α :=
  if holdTimeMs < fin 0 then le
  else
    let holdTimeSec := holdTimeMs / fin 1000
    { le with
      holdTimeSec_ := holdTimeSec
      holdTimeSamples_ := toSizeT (holdTimeSec * le.sampleRateHz_) }

/-- The method `estimateLevel`: the list `input` is the `numSamples` input samples; the
result is the `numSamples` values written to `levelOutput` and the state after the loop.
The arithmetic is exact; `Binary32.estimateLevel` rounds every result to binary32. -/
def estimateLevel (le : LevelEstimator α) :
    List (FloatX α) → State α → List (FloatX α) × State α
  | [], state => ([], state)
  | x :: input, state =>
    let level := fabs x
    let state : State α :=
      if level > state.levelEstimate then
        { levelEstimate :=
            state.levelEstimate + (level - state.levelEstimate) * le.attackCoefficient_
          holdCount := 0 }
      else if state.holdCount < le.holdTimeSamples_ then
        { state with holdCount := state.holdCount + 1 }
      else
        { state with
          levelEstimate :=
            state.levelEstimate + (level - state.levelEstimate) * le.releaseCoefficient_ }
    let rest := estimateLevel le input state
    (state.levelEstimate :: rest.1, rest.2)

/-- The method `estimateLevelLinked`: `input` is the `numSamples` input samples and
`levelOutput` the buffer as it is before the call (at least `numSamples` long); the result
is the buffer after the call and the state after the loop.  The arithmetic is exact;
`Binary32.estimateLevelLinked` rounds every result to binary32. -/
def estimateLevelLinked (le : LevelEstimator α) :
    List (FloatX α) → List (FloatX α) → State α → Bool → List (FloatX α) × State α
  | x :: input, y :: levelOutput, state, linked =>
    let level := fabs x
    let state : State α :=
      if level > state.levelEstimate then
        { levelEstimate :=
            state.levelEstimate + (level - state.levelEstimate) * le.attackCoefficient_
          holdCount := 0 }
      else if state.holdCount < le.holdTimeSamples_ then
        { state with holdCount := state.holdCount + 1 }
      else
        { state with
          levelEstimate :=
            state.levelEstimate + (level - state.levelEstimate) * le.releaseCoefficient_ }
    let level := state.levelEstimate
    let written := if linked then (if level > y then level else y) else level
    let rest := estimateLevelLinked le input levelOutput state linked
    (written :: rest.1, rest.2)
  | _, levelOutput, state, _ => (levelOutput, state)

/-- The envelope step in the words of the specification: attack when `|sample|` exceeds
the estimate (and the hold counter restarts), else hold while the counter is below
`holdSamples`, else release. -/
def specStep (attackCoeff releaseCoeff : FloatX α) (holdSamples : Nat)
    (e : FloatX α) (h : Nat) (sample : FloatX α) : FloatX α × Nat :=
  if fabs sample > e then (e + (fabs sample - e) * attackCoeff, 0)
  else if h < holdSamples then (e, h + 1)
  else (e + (fabs sample - e) * releaseCoeff, h)

end LevelEstimator

namespace LevelEstimator

/-- The envelope step on real numbers: the step of `estimateLevel` from the estimate
`p.1` and hold counter `p.2` on the finite sample `x`, with the finite coefficients `a`
(attack) and `r` (release) and the hold length `H`. -/
def envelopeStep (a r : α) (H : Nat) (p : α × Nat) (x : α) : α × Nat :=
  if p.1 < |x| then (p.1 + (|x| - p.1) * a, 0)
  else if p.2 < H then (p.1, p.2 + 1)
  else (p.1 + (|x| - p.1) * r, p.2)

/-- The envelope loop on real numbers: the estimates after each sample of the list, and
the final estimate and hold counter. -/
def envelopeRun (a r : α) (H : Nat) : List α → α × Nat → List α × (α × Nat)
  | [], p => ([], p)
  | x :: xs, p =>
    let q := envelopeStep a r H p x
    let rest := envelopeRun a r H xs q
    (q.1 :: rest.1, rest.2)

end LevelEstimator

/-- Rounding of a number `>= 0` to the nearest integer, halves upward, as `round` in the
specification's `holdSamples = round(holdTimeSec × sampleRate)`. -/
def roundNearest [FloorRing α] (x : α) : Nat := ⌊x + 1 / 2⌋₊

/-! ## `DelayLine.h` -/

/-- The number of values of a `size_t` (64 bits). -/
def sizeModulus : Nat := 2 ^ 64

/-- The data members of `DelayLine`, with their default initialisers; `buffer_` is the
`std::vector<float>`. -/
structure DelayLine (α : Type) where
  buffer_ : List (FloatX α) := []
  writeIndex_ : Nat := 0
  delay_ : Nat := 0
  maxDelay_ : Nat := 0

namespace DelayLine

/-- The call `buffer_.resize(n, value)` of `std::vector`: keeps the first `n` elements and
appends copies of `value` up to the length `n`. -/
def resize {β : Type} (buffer : List β) (n : Nat) (value : β) : List β :=
  buffer.take n ++ List.replicate (n - buffer.length) value

/-- The method `reset`: zero the buffer, rewind the write cursor. -/
def reset (d : DelayLine α) : DelayLine α :=
  { d with buffer_ := List.replicate d.buffer_.length (fin 0), writeIndex_ := 0 }

/-- The method `prepare`.  The sum `maxDelaySamples + 1` is a `size_t` and wraps to `0` for
the largest `size_t`. -/
def prepare (d : DelayLine α) (maxDelaySamples : Nat) : DelayLine α :=
  reset { d with
    maxDelay_ := maxDelaySamples
    buffer_ := resize d.buffer_ ((maxDelaySamples + 1) % sizeModulus) (fin 0) }

/-- The method `setDelay`. -/
def setDelay (d : DelayLine α) (delaySamples : Nat) : DelayLine α :=
  { d with delay_ := min delaySamples d.maxDelay_ }

/-- The read index computed by `processSample`,
`(writeIndex_ + buffer_.size() - delay_) % buffer_.size()`, in `size_t` arithmetic: the
sum and the difference wrap modulo `2^64`. -/
def readIndex (d : DelayLine α) : Nat :=
  ((d.writeIndex_ + d.buffer_.length + (sizeModulus - d.delay_ % sizeModulus)) % sizeModulus)
    % d.buffer_.length

/-- The method `processSample`: the delayed sample and the delay line after the call. -/
def processSample (d : DelayLine α) (input : FloatX α) : FloatX α × DelayLine α :=
  let buffer := d.buffer_.set d.writeIndex_ input
  let output := buffer.getD (readIndex { d with buffer_ := buffer }) (fin 0)
  (output, { d with buffer_ := buffer, writeIndex_ := (d.writeIndex_ + 1) % buffer.length })

/-- The method `process`: `processSample` on each sample of `input` in order. -/
def process (d : DelayLine α) : List (FloatX α) → List (FloatX α) × DelayLine α
  | [] => ([], d)
  | x :: input =>
    let r := processSample d x
    let rest := process r.2 input
    (r.1 :: rest.1, rest.2)

/-- The constructor `DelayLine(size_t maxDelaySamples)`: `maxDelay_` from the argument, a
buffer of `maxDelaySamples + 1` zeros (the sum is a `size_t`), the other members at their
default initialisers. -/
def construct (maxDelaySamples : Nat) : DelayLine α :=
  { maxDelay_ := maxDelaySamples
    buffer_ := resize [] ((maxDelaySamples + 1) % sizeModulus) (fin 0) }

/-- The method `setDelayMs`: the delay in samples is `delayMs * sampleRate / 1000`
converted to a `size_t`. -/
def setDelayMs [FloorRing α] (d : DelayLine α) (delayMs sampleRate : FloatX α) : DelayLine α :=
  setDelay d (toSizeT (delayMs * sampleRate / fin 1000))

/-- A call made on a delay line while it runs: `setDelay(delaySamples)` or
`processSample(input)`. -/
inductive Call (α : Type) where
  | setDelay (delaySamples : Nat)
  | processSample (input : FloatX α)

/-- What one `processSample` call saw: the member `delay_` when the call was made (the
delay in force), the input and the returned value. -/
structure SampleRecord (α : Type) where
  delay : Nat
  input : FloatX α
  output : FloatX α

/-- A sequence of `setDelay` and `processSample` calls made in order on a delay line: one
record for each `processSample` call, and the delay line after the last call. -/
def calls (d : DelayLine α) : List (Call α) → List (SampleRecord α) × DelayLine α
  | [] => ([], d)
  | Call.setDelay delaySamples :: rest => calls (setDelay d delaySamples) rest
  | Call.processSample input :: rest =>
    let r := processSample d input
    let t := calls r.2 rest
    ({ delay := d.delay_, input := input, output := r.1 } :: t.1, t.2)

end DelayLine

/-! ## `PluginProcessor.cpp` -/

/-- The two methods of `juce::SmoothedValue<float>` that the processor calls.  The class
is part of the JUCE library, so its behaviour is a parameter: `σ` is the type of its
states. -/
structure SmoothedValueOps (σ : Type) (α : Type) where
  getNextValue : σ → FloatX α × σ
  setTargetValue : σ → FloatX α → σ

/-- A `juce::AudioBuffer<float>`: the channels, each of `numSamples` samples. -/
structure AudioBuffer (α : Type) where
  numSamples : Nat
  channels : List (List (FloatX α))

/-- The data members of `BroadbandCompressorAudioProcessor` that the audio path reads or
writes: the parameter values (as loaded from the atomics), the DSP components, the level
buffer, the two gain smoothers, the three meters, the sample rate, and, from the base
class `juce::AudioProcessor`, the reported latency and the channel counts. -/
structure BroadbandCompressorAudioProcessor (σ : Type) (α : Type) [LinearOrderedField α] where
  linkedParam_ : FloatX α
  bypassParam_ : FloatX α
  inputGainParam_ : FloatX α
  thresholdParam_ : FloatX α
  ratioParam_ : FloatX α
  kneeWidthParam_ : FloatX α
  outputGainParam_ : FloatX α
  attackTimeParam_ : FloatX α
  releaseTimeParam_ : FloatX α
  holdTimeParam_ : FloatX α
  lookaheadTimeParam_ : FloatX α
  levelEstimator_ : LevelEstimator α := {}
  compressionCurve_ : CompressionCurve α := {}
  delayLines_ : List (DelayLine α) := []
  levelStates_ : List (LevelEstimator.State α) := []
  levelBuffer_ : List (FloatX α) := []
  inputGainSmoothed_ : σ
  outputGainSmoothed_ : σ
  currentGainReductionDb_ : FloatX α := fin 0
  currentInputLevelDb_ : FloatX α := fin (-100)
  currentOutputLevelDb_ : FloatX α := fin (-100)
  currentSampleRate_ : FloatX α := fin 44100
  latencySamples : Int := 0
  totalNumInputChannels : Nat := 2
  totalNumOutputChannels : Nat := 2

namespace BroadbandCompressorAudioProcessor

variable {σ : Type}

/-- The loop "Apply input gain" of phase 1 over one channel: every sample is multiplied
by the next value of the input-gain smoother and the largest magnitude is tracked.  The
result is the channel, the smoother and `maxInputLevel` after the loop. -/
def applyInputGain (J : SmoothedValueOps σ α) :
    List (FloatX α) → σ → FloatX α → List (FloatX α) × σ × FloatX α
  | [], smoother, maxInputLevel => ([], smoother, maxInputLevel)
  | x :: channelData, smoother, maxInputLevel =>
    let next := J.getNextValue smoother
    let gain := next.1
    let y := x * gain
    let absLevel := fabs y
    let maxInputLevel := if absLevel > maxInputLevel then absLevel else maxInputLevel
    let rest := applyInputGain J channelData next.2 maxInputLevel
    (y :: rest.1, rest.2.1, rest.2.2)

/-- What phase 1 of `processCompression` leaves: the channels after the input gain, the
envelope states, the shared level buffer, the input-gain smoother and `maxInputLevel`. -/
structure Phase1 (σ : Type) (α : Type) [LinearOrderedField α] where
  channels : List (List (FloatX α))
  levelStates : List (LevelEstimator.State α)
  levelData : List (FloatX α)
  inputGainSmoothed : σ
  maxInputLevel : FloatX α

/-- Phase 1 of `processCompression`, the loop over the channels from channel `ch` on:
input gain, then the level estimate of the channel into the shared buffer, with
`estimateLevelLinked` (`linked` argument `ch > 0`) in linked mode and with `estimateLevel`
otherwise.  `levelStates_[ch]` outside the vector is undefined in C++; here the read gives
a fresh state and the write is dropped. -/
def phase1 (J : SmoothedValueOps σ α) (le : LevelEstimator α) (linked : Bool) :
    Nat → List (List (FloatX α)) → List (LevelEstimator.State α) → List (FloatX α) → σ →
      FloatX α → Phase1 σ α
  | _, [], levelStates, levelData, smoother, maxInputLevel =>
    { channels := [], levelStates := levelStates, levelData := levelData,
      inputGainSmoothed := smoother, maxInputLevel := maxInputLevel }
  | ch, channelData :: rest, levelStates, levelData, smoother, maxInputLevel =>
    let g := applyInputGain J channelData smoother maxInputLevel
    let state := levelStates.getD ch {}
    let est : List (FloatX α) × LevelEstimator.State α :=
      if linked then le.estimateLevelLinked g.1 levelData state (decide (ch > 0))
      else ((le.estimateLevel g.1 state).1 ++ levelData.drop g.1.length,
        (le.estimateLevel g.1 state).2)
    let r := phase1 J le linked (ch + 1) rest (levelStates.set ch est.2) est.1 g.2.1 g.2.2
    { r with channels := g.1 :: r.channels }

/-- What the sample loop of phase 2 leaves for one channel: the output samples, the values
taken by the local variable `gainDb` (one a sample), the delay line, the output-gain
smoother, `maxGainReduction` and `maxOutputLevel`. -/
structure Phase2Channel (σ : Type) (α : Type) where
  outputs : List (FloatX α)
  gainDb : List (FloatX α)
  delayLine : DelayLine α
  outputGainSmoothed : σ
  maxGainReduction : FloatX α
  maxOutputLevel : FloatX α

/-- The sample loop of phase 2 over one channel: the gain of the curve at the shared
level, the delayed sample, the output gain, the two meters. -/
def compressChannel (m : CMath α) (J : SmoothedValueOps σ α) (curve : CompressionCurve α) :
    List (FloatX α) → List (FloatX α) → DelayLine α → σ → FloatX α → FloatX α →
      Phase2Channel σ α
  | level :: levelData, x :: channelData, delayLine, smoother, maxGainReduction,
      maxOutputLevel =>
    let gainDb := curve.calculateCompressionGainDb (mag2Db m level)
    let gain := db2Mag m gainDb
    let maxGainReduction := if gainDb < maxGainReduction then gainDb else maxGainReduction
    let delayed := delayLine.processSample x
    let next := J.getNextValue smoother
    let outputSample := delayed.1 * gain * next.1
    let absOutput := fabs outputSample
    let maxOutputLevel := if absOutput > maxOutputLevel then absOutput else maxOutputLevel
    let rest := compressChannel m J curve levelData channelData delayed.2 next.2
      maxGainReduction maxOutputLevel
    { rest with outputs := outputSample :: rest.outputs, gainDb := gainDb :: rest.gainDb }
  | _, _, delayLine, smoother, maxGainReduction, maxOutputLevel =>
    { outputs := [], gainDb := [], delayLine := delayLine, outputGainSmoothed := smoother,
      maxGainReduction := maxGainReduction, maxOutputLevel := maxOutputLevel }

/-- What phase 2 of `processCompression` leaves: the output channels, the values of
`gainDb` per channel and sample, the envelope states, the shared level buffer, the delay
lines, the output-gain smoother and the two meters. -/
structure Phase2 (σ : Type) (α : Type) [LinearOrderedField α] where
  channels : List (List (FloatX α))
  gainDb : List (List (FloatX α))
  levelStates : List (LevelEstimator.State α)
  levelData : List (FloatX α)
  delayLines : List (DelayLine α)
  outputGainSmoothed : σ
  maxGainReduction : FloatX α
  maxOutputLevel : FloatX α

/-- Phase 2 of `processCompression`, the loop over the channels from channel `ch` on: when
not linked and `ch > 0` the level of the channel is estimated again into the shared
buffer, then the sample loop runs. -/
def phase2 (m : CMath α) (J : SmoothedValueOps σ α) (le : LevelEstimator α)
    (curve : CompressionCurve α) (linked : Bool) :
    Nat → List (List (FloatX α)) → List (LevelEstimator.State α) → List (FloatX α) →
      List (DelayLine α) → σ → FloatX α → FloatX α → Phase2 σ α
  | _, [], levelStates, levelData, delayLines, smoother, maxGainReduction, maxOutputLevel =>
    { channels := [], gainDb := [], levelStates := levelStates, levelData := levelData,
      delayLines := delayLines, outputGainSmoothed := smoother,
      maxGainReduction := maxGainReduction, maxOutputLevel := maxOutputLevel }
  | ch, channelData :: rest, levelStates, levelData, delayLines, smoother, maxGainReduction,
      maxOutputLevel =>
    let est : List (FloatX α) × List (LevelEstimator.State α) :=
      if !linked && decide (ch > 0) then
        ((le.estimateLevel channelData (levelStates.getD ch {})).1 ++
            levelData.drop channelData.length,
          levelStates.set ch (le.estimateLevel channelData (levelStates.getD ch {})).2)
      else (levelData, levelStates)
    let c := compressChannel m J curve est.1 channelData (delayLines.getD ch {}) smoother
      maxGainReduction maxOutputLevel
    let r := phase2 m J le curve linked (ch + 1) rest est.2 est.1
      (delayLines.set ch c.delayLine) c.outputGainSmoothed c.maxGainReduction
      c.maxOutputLevel
    { r with channels := c.outputs :: r.channels, gainDb := c.gainDb :: r.gainDb }

/-- The result of `processCompression`: the buffer and the processor after the call, and
the values the local variable `gainDb` took, per channel and sample. -/
structure CompressionResult (σ : Type) (α : Type) [LinearOrderedField α] where
  buffer : AudioBuffer α
  processor : BroadbandCompressorAudioProcessor σ α
  gainDb : List (List (FloatX α))

/-- The method `processCompression`.  The contents of `levelBuffer_` after `setSize` are
not specified by JUCE and are zeros here; every entry is written before it is read. -/
def processCompression (m : CMath α) (J : SmoothedValueOps σ α)
    (p : BroadbandCompressorAudioProcessor σ α) (buffer : AudioBuffer α) :
    CompressionResult σ α :=
  let numChannels := buffer.channels.length
  let numSamples := buffer.numSamples
  let linked : Bool := decide (p.linkedParam_ > fin (1 / 2))
  if numChannels > p.delayLines_.length then
    { buffer := buffer, processor := p, gainDb := [] }
  else
    let levelBuffer :=
      if p.levelBuffer_.length < numSamples then List.replicate numSamples (fin 0)
      else p.levelBuffer_
    let levelBuffer :=
      if linked then List.replicate levelBuffer.length (fin 0) else levelBuffer
    let p1 := phase1 J p.levelEstimator_ linked 0 buffer.channels p.levelStates_ levelBuffer
      p.inputGainSmoothed_ (fin 0)
    let p2 := phase2 m J p.levelEstimator_ p.compressionCurve_ linked 0 p1.channels
      p1.levelStates p1.levelData p.delayLines_ p.outputGainSmoothed_ (fin 0) (fin 0)
    { buffer := { buffer with channels := p2.channels }
      processor :=
        { p with
          levelStates_ := p2.levelStates
          levelBuffer_ := p2.levelData
          delayLines_ := p2.delayLines
          inputGainSmoothed_ := p1.inputGainSmoothed
          outputGainSmoothed_ := p2.outputGainSmoothed
          currentInputLevelDb_ := mag2Db m p1.maxInputLevel
          currentGainReductionDb_ := p2.maxGainReduction
          currentOutputLevelDb_ := mag2Db m p2.maxOutputLevel }
      gainDb := p2.gainDb }

/-- The method `updateParameters`: the parameter values go to the level estimator, the
curve, every delay line and the targets of the two gain smoothers. -/
def updateParameters [FloorRing α] (m : CMath α) (J : SmoothedValueOps σ α)
    (p : BroadbandCompressorAudioProcessor σ α) : BroadbandCompressorAudioProcessor σ α :=
  let levelEstimator := p.levelEstimator_.setAttackTimeMs m p.attackTimeParam_
  let levelEstimator := levelEstimator.setReleaseTimeMs m p.releaseTimeParam_
  let levelEstimator := levelEstimator.setHoldTimeMs p.holdTimeParam_
  let compressionCurve := p.compressionCurve_.setThresholdDb p.thresholdParam_
  let compressionCurve := compressionCurve.setCompressionRatio p.ratioParam_
  let compressionCurve := compressionCurve.setKneeWidthDb p.kneeWidthParam_
  let compressionCurve := compressionCurve.setMakeupGainDb m p.outputGainParam_
  { p with
    levelEstimator_ := levelEstimator
    compressionCurve_ := compressionCurve
    delayLines_ :=
      p.delayLines_.map (fun delay => delay.setDelayMs p.lookaheadTimeParam_ p.currentSampleRate_)
    inputGainSmoothed_ := J.setTargetValue p.inputGainSmoothed_ (db2Mag m p.inputGainParam_)
    outputGainSmoothed_ := J.setTargetValue p.outputGainSmoothed_ (db2Mag m p.outputGainParam_) }

/-- The conversion `static_cast<int>(x)` of a floating-point value: a finite value is
truncated toward zero.  C++ leaves the conversion undefined for NaN, for the infinities and
for values outside the range of `int`; NaN and the infinities give `0` here, and the range
of `int` is not modelled. -/
def toInt [FloorRing α] : FloatX α → Int
  | fin x => if 0 ≤ x then ⌊x⌋ else ⌈x⌉
  | _ => 0

/-- The call `buffer.clear(i, 0, numSamples)` on the samples of channel `i`: the first
`numSamples` samples become zero. -/
def clearSamples (numSamples : Nat) (channelData : List (FloatX α)) : List (FloatX α) :=
  List.replicate (min numSamples channelData.length) (fin 0) ++ channelData.drop numSamples

/-- The loop "Clear any extra output channels" of `processBlock` on the channels from
channel `i` on: the channels from `totalNumInputChannels` up to, not including,
`totalNumOutputChannels` are cleared. -/
def clearExtraChannels (totalNumInputChannels totalNumOutputChannels numSamples : Nat) :
    Nat → List (List (FloatX α)) → List (List (FloatX α))
  | _, [] => []
  | i, channelData :: rest =>
    (if totalNumInputChannels ≤ i ∧ i < totalNumOutputChannels
      then clearSamples numSamples channelData else channelData) ::
      clearExtraChannels totalNumInputChannels totalNumOutputChannels numSamples (i + 1) rest

/-- The method `processBlock` (the MIDI buffer is not used): the extra output channels are
cleared; in bypass the gain-reduction meter is set to 0 and the method returns; otherwise
the parameters are updated, the latency `lookaheadTime * sampleRate / 1000` (converted to
`int`) is reported with `setLatencySamples`, and `processCompression` runs. -/
def processBlock [FloorRing α] (m : CMath α) (J : SmoothedValueOps σ α)
    (p : BroadbandCompressorAudioProcessor σ α) (buffer : AudioBuffer α) :
    CompressionResult σ α :=
  let buffer : AudioBuffer α :=
    { buffer with
      channels := clearExtraChannels p.totalNumInputChannels p.totalNumOutputChannels
        buffer.numSamples 0 buffer.channels }
  if p.bypassParam_ > fin (1 / 2) then
    { buffer := buffer, processor := { p with currentGainReductionDb_ := fin 0 }, gainDb := [] }
  else
    let p := updateParameters m J p
    let lookaheadSamples := toInt (p.lookaheadTimeParam_ * p.currentSampleRate_ / fin 1000)
    let p := { p with latencySamples := lookaheadSamples }
    processCompression m J p buffer

end BroadbandCompressorAudioProcessor

/-- The calls of `estimateLevelLinked` that phase 1 of `processCompression` makes in linked
mode, channel after channel from channel `ch` on, each with its own samples and envelope
state, on the shared buffer `levelOutput`: the `linked` argument is `ch > 0`.  The result
is the shared buffer after the last call. -/
def linkedLevelPass (le : LevelEstimator α) :
    Nat → List (List (FloatX α) × LevelEstimator.State α) → List (FloatX α) → List (FloatX α)
  | _, [], levelOutput => levelOutput
  | ch, (input, state) :: rest, levelOutput =>
    linkedLevelPass le (ch + 1) rest
      (le.estimateLevelLinked input levelOutput state (decide (ch > 0))).1

/-- The channels as the input-gain loops of phase 1 of `processCompression` leave them: the
loop "Apply input gain" over each channel in turn, the smoother and `maxInputLevel` going
from one channel to the next. -/
def BroadbandCompressorAudioProcessor.inputGainPass {σ : Type} (J : SmoothedValueOps σ α) :
    List (List (FloatX α)) → σ → FloatX α → List (List (FloatX α))
  | [], _, _ => []
  | channelData :: rest, smoother, maxInputLevel =>
    (applyInputGain J channelData smoother maxInputLevel).1 ::
      inputGainPass J rest (applyInputGain J channelData smoother maxInputLevel).2.1
        (applyInputGain J channelData smoother maxInputLevel).2.2

/-- A real estimate and a hold counter as the `LevelEstimator::State`. -/
def finState (s : α × Nat) : LevelEstimator.State α :=
  { levelEstimate := fin s.1, holdCount := s.2 }

/-- The values that `count` successive calls of `getNextValue` return, and the smoother
after them. -/
def SmoothedValueOps.nextValues {σ : Type} (J : SmoothedValueOps σ α) :
    Nat → σ → List (FloatX α) × σ
  | 0, smoother => ([], smoother)
  | count + 1, smoother =>
    ((J.getNextValue smoother).1 :: (nextValues J count (J.getNextValue smoother).2).1,
      (nextValues J count (J.getNextValue smoother).2).2)

/-- The values of the output-gain smoother in the sample loops of phase 2 of
`processCompression`, for each channel in turn: one call of `getNextValue` a sample, the
smoother going from one channel to the next. -/
def BroadbandCompressorAudioProcessor.outputGainPass {σ : Type} (J : SmoothedValueOps σ α) :
    List (List (FloatX α)) → σ → List (List (FloatX α))
  | [], _ => []
  | channelData :: rest, smoother =>
    (J.nextValues channelData.length smoother).1 ::
      outputGainPass J rest (J.nextValues channelData.length smoother).2

/-! ## The sources in binary32 arithmetic

The definitions above compute with exact numbers.  A `float` of the sources is an IEEE-754
binary32 number, and the result of every `+`, `-`, `*`, `/` is rounded to the nearest
binary32 number, ties to even.  The definitions of this section are the same source
functions with that rounding after every operation, on `FloatX ℚ`. -/

namespace Binary32

/-- The natural number nearest to `n / d` (for `d > 0`), the even one at a tie. -/
def roundHalfEven (n d : Nat) : Nat :=
  if 2 * (n % d) < d then n / d
  else if d < 2 * (n % d) then n / d + 1
  else if n / d % 2 = 0 then n / d
  else n / d + 1

/-- The position of the leading bit of `n`, `floor (log2 n)` for `n > 0`, by halving at
most `fuel` times. -/
def leadingBit : Nat → Nat → Nat
  | 0, _ => 0
  | fuel + 1, n => if 2 ≤ n then leadingBit fuel (n / 2) + 1 else 0

/-- The binary exponent `floor (log2 (n / d))` of the positive rational `n / d`. -/
def exponent (n d : Nat) : Int :=
  let e : Int := (leadingBit n n : Int) - (leadingBit d d : Int)
  if (0 ≤ e ∧ n < 2 ^ e.toNat * d) ∨ (e < 0 ∧ n * 2 ^ (-e).toNat < d) then e - 1 else e

/-- The binary32 number nearest to the positive rational `n / d`, ties to even: 24
significant bits, the exponent at least `-126` (below that the numbers are subnormal, with
the spacing `2^-149`), and `+inf` when the rounded value reaches `2^128`. -/
def roundPos (n d : Nat) : FloatX ℚ :=
  let s : Int := max (exponent n d) (-126) - 23
  if 0 ≤ s then
    if 2 ^ 128 ≤ roundHalfEven n (d * 2 ^ s.toNat) * 2 ^ s.toNat then posInf
    else fin ((roundHalfEven n (d * 2 ^ s.toNat) * 2 ^ s.toNat : Nat) : ℚ)
  else fin ((roundHalfEven (n * 2 ^ (-s).toNat) d : ℚ) / ((2 ^ (-s).toNat : Nat) : ℚ))

/-- The rounding of an exact result to binary32 (the two zeros are identified). -/
def round : FloatX ℚ → FloatX ℚ
  | fin q =>
    if q = 0 then fin 0
    else if 0 < q then roundPos q.num.natAbs q.den
    else -(roundPos q.num.natAbs q.den)
  | x => x

/-- The `float` sum `a + b`. -/
def fadd (a b : FloatX ℚ) : FloatX ℚ := round (a + b)

/-- The `float` difference `a - b`. -/
def fsub (a b : FloatX ℚ) : FloatX ℚ := round (a - b)

/-- The `float` product `a * b`. -/
def fmul (a b : FloatX ℚ) : FloatX ℚ := round (a * b)

/-- The `float` quotient `a / b`. -/
def fdiv (a b : FloatX ℚ) : FloatX ℚ := round (a / b)

/-- The in-knee value of `outLevelDb` in `calculateCompressionGainDb`, in binary32. -/
def kneeOutLevelDb (c : CompressionCurve ℚ) (inLevelDb : FloatX ℚ) : FloatX ℚ :=
  let temp := fadd (fsub inLevelDb c.thresholdDb_) (fdiv c.kneeWidthDb_ (fin 2))
  if eqB c.compressionRatio_ positiveInfinity then
    fadd inLevelDb (fdiv (fmul (-temp) temp) (fmul (fin 2) c.kneeWidthDb_))
  else
    fadd inLevelDb
      (fdiv (fmul (fmul (fsub (fdiv (fin 1) c.compressionRatio_) (fin 1)) temp) temp)
        (fmul (fin 2) c.kneeWidthDb_))

/-- The above-knee value of `outLevelDb` in `calculateCompressionGainDb`, in binary32. -/
def aboveKneeOutLevelDb (c : CompressionCurve ℚ) (inLevelDb : FloatX ℚ) : FloatX ℚ :=
  if eqB c.compressionRatio_ positiveInfinity then c.thresholdDb_
  else fadd c.thresholdDb_ (fdiv (fsub inLevelDb c.thresholdDb_) c.compressionRatio_)

/-- The method `calculateCompressionGainDb` in binary32. -/
def calculateCompressionGainDb (c : CompressionCurve ℚ) (inLevelDb : FloatX ℚ) : FloatX ℚ :=
  if eqB inLevelDb negativeInfinity then fin 0
  else
    let outLevelDb :=
      if fmul (fin 2) (fsub inLevelDb c.thresholdDb_) ≤ -c.kneeWidthDb_ then inLevelDb
      else if fmul (fin 2) (fabs (fsub inLevelDb c.thresholdDb_)) < c.kneeWidthDb_ then
        kneeOutLevelDb c inLevelDb
      else aboveKneeOutLevelDb c inLevelDb
    fsub outLevelDb inLevelDb

/-- The method `calculateOutputLevelDb` in binary32. -/
def calculateOutputLevelDb (c : CompressionCurve ℚ) (inLevelDb : FloatX ℚ) : FloatX ℚ :=
  fadd inLevelDb (calculateCompressionGainDb c inLevelDb)

/-- The method `setHoldTimeMs` in binary32. -/
def setHoldTimeMs (le : LevelEstimator ℚ) (holdTimeMs : FloatX ℚ) : LevelEstimator ℚ :=
  if holdTimeMs < fin 0 then le
  else
    let holdTimeSec := fdiv holdTimeMs (fin 1000)
    { le with
      holdTimeSec_ := holdTimeSec
      holdTimeSamples_ := toSizeT (fmul holdTimeSec le.sampleRateHz_) }

/-- The function `timeConstantToCoefficient` in binary32.  The value of `std::exp` is taken
from `m` as it is. -/
def timeConstantToCoefficient (m : CMath ℚ) (timeConstantSec sampleRateHz : FloatX ℚ) :
    FloatX ℚ :=
  let sampleRateHz := if sampleRateHz ≤ fin 0 then fabs sampleRateHz else sampleRateHz
  let timeConstantSec := if timeConstantSec < fin 0 then fabs timeConstantSec else timeConstantSec
  if timeConstantSec ≤ fin 0 then fin 1
  else if eqB sampleRateHz (fin 0) || eqB timeConstantSec positiveInfinity then fin 0
  else fsub (fin 1) (m.expX (fdiv (-(fin 1)) (fmul timeConstantSec sampleRateHz)))

/-- The private method `updateCoefficients` in binary32. -/
def updateCoefficients (m : CMath ℚ) (le : LevelEstimator ℚ) : LevelEstimator ℚ :=
  { le with
    attackCoefficient_ := timeConstantToCoefficient m le.attackTimeSec_ le.sampleRateHz_
    releaseCoefficient_ := timeConstantToCoefficient m le.releaseTimeSec_ le.sampleRateHz_
    holdTimeSamples_ := toSizeT (fmul le.holdTimeSec_ le.sampleRateHz_) }

/-- The method `setSampleRate` in binary32. -/
def setSampleRate (m : CMath ℚ) (le : LevelEstimator ℚ) (sampleRateHz : FloatX ℚ) :
    LevelEstimator ℚ :=
  if sampleRateHz ≤ fin 0 then le
  else if !(eqB sampleRateHz le.sampleRateHz_) then
    updateCoefficients m { le with sampleRateHz_ := sampleRateHz }
  else le

/-- The method `estimateLevel` in binary32. -/
def estimateLevel (le : LevelEstimator ℚ) :
    List (FloatX ℚ) → LevelEstimator.State ℚ → List (FloatX ℚ) × LevelEstimator.State ℚ
  | [], state => ([], state)
  | x :: input, state =>
    let level := fabs x
    let state : LevelEstimator.State ℚ :=
      if level > state.levelEstimate then
        { levelEstimate :=
            fadd state.levelEstimate
              (fmul (fsub level state.levelEstimate) le.attackCoefficient_)
          holdCount := 0 }
      else if state.holdCount < le.holdTimeSamples_ then
        { state with holdCount := state.holdCount + 1 }
      else
        { state with
          levelEstimate :=
            fadd state.levelEstimate
              (fmul (fsub level state.levelEstimate) le.releaseCoefficient_) }
    let rest := estimateLevel le input state
    (state.levelEstimate :: rest.1, rest.2)

/-- The method `estimateLevelLinked` in binary32. -/
def estimateLevelLinked (le : LevelEstimator ℚ) :
    List (FloatX ℚ) → List (FloatX ℚ) → LevelEstimator.State ℚ → Bool →
      List (FloatX ℚ) × LevelEstimator.State ℚ
  | x :: input, y :: levelOutput, state, linked =>
    let level := fabs x
    let state : LevelEstimator.State ℚ :=
      if level > state.levelEstimate then
        { levelEstimate :=
            fadd state.levelEstimate
              (fmul (fsub level state.levelEstimate) le.attackCoefficient_)
          holdCount := 0 }
      else if state.holdCount < le.holdTimeSamples_ then
        { state with holdCount := state.holdCount + 1 }
      else
        { state with
          levelEstimate :=
            fadd state.levelEstimate
              (fmul (fsub level state.levelEstimate) le.releaseCoefficient_) }
    let level := state.levelEstimate
    let written := if linked then (if level > y then level else y) else level
    let rest := estimateLevelLinked le input levelOutput state linked
    (written :: rest.1, rest.2)
  | _, levelOutput, state, _ => (levelOutput, state)

/-- The calls of `estimateLevelLinked` that phase 1 of `processCompression` makes in linked
mode (see `linkedLevelPass`), in binary32. -/
def linkedLevelPass (le : LevelEstimator ℚ) :
    Nat → List (List (FloatX ℚ) × LevelEstimator.State ℚ) → List (FloatX ℚ) → List (FloatX ℚ)
  | _, [], levelOutput => levelOutput
  | ch, (input, state) :: rest, levelOutput =>
    linkedLevelPass le (ch + 1) rest
      (estimateLevelLinked le input levelOutput state (decide (ch > 0))).1

end Binary32

/-! ## Arithmetic of `FloatX` on finite values -/

namespace FloatX

@[simp] theorem neg_fin (x : α) : -(fin x : FloatX α) = fin (-x) := rfl

@[simp] theorem fin_add_fin (x y : α) : (fin x : FloatX α) + fin y = fin (x + y) := rfl

@[simp] theorem fin_sub_fin (x y : α) : (fin x : FloatX α) - fin y = fin (x - y) := by
  show fin (x + -y) = fin (x - y)
  rw [sub_eq_add_neg]

@[simp] theorem fin_mul_fin (x y : α) : (fin x : FloatX α) * fin y = fin (x * y) := rfl

theorem fin_div_fin (x : α) {y : α} (hy : y ≠ 0) : (fin x : FloatX α) / fin y = fin (x / y) := by
  show (if y = 0 then signedInf x else fin (x / y)) = fin (x / y)
  rw [if_neg hy]

@[simp] theorem fin_div_two (x : α) : (fin x : FloatX α) / fin 2 = fin (x / 2) :=
  fin_div_fin x two_ne_zero

@[simp] theorem fabs_fin (x : α) : fabs (fin x : FloatX α) = fin |x| := rfl

@[simp] theorem fin_le_fin (x y : α) : (fin x : FloatX α) ≤ fin y ↔ x ≤ y := by
  show decide (x ≤ y) = true ↔ x ≤ y
  simp

@[simp] theorem fin_lt_fin (x y : α) : (fin x : FloatX α) < fin y ↔ x < y := by
  show decide (x < y) = true ↔ x < y
  simp

theorem not_nan_le (b : FloatX α) : ¬ (nan : FloatX α) ≤ b := fun h => Bool.false_ne_true h

theorem not_le_nan (a : FloatX α) : ¬ a ≤ (nan : FloatX α) := fun h => by
  cases a <;> exact Bool.false_ne_true h

theorem not_nan_lt (b : FloatX α) : ¬ (nan : FloatX α) < b := fun h => Bool.false_ne_true h

theorem not_lt_nan (a : FloatX α) : ¬ a < (nan : FloatX α) := fun h => by
  cases a <;> exact Bool.false_ne_true h

theorem not_posInf_le_fin (y : α) : ¬ (posInf : FloatX α) ≤ fin y :=
  fun h => Bool.false_ne_true h

theorem not_fin_le_negInf (x : α) : ¬ (fin x : FloatX α) ≤ negInf :=
  fun h => Bool.false_ne_true h

@[simp] theorem eqB_fin_fin (x y : α) : eqB (fin x) (fin y) = decide (x = y) := rfl

@[simp] theorem eqB_fin_negInf (x : α) : eqB (fin x) negInf = false := rfl

@[simp] theorem eqB_fin_posInf (x : α) : eqB (fin x) posInf = false := rfl

@[simp] theorem eqB_negInf_negInf : eqB (negInf : FloatX α) negInf = true := rfl

@[simp] theorem eqB_posInf_posInf : eqB (posInf : FloatX α) posInf = true := rfl

@[simp] theorem eqB_negInf_iff (a : FloatX α) : eqB a negInf = true ↔ a = negInf := by
  cases a <;> simp [eqB]

@[simp] theorem eqB_posInf_iff (a : FloatX α) : eqB a posInf = true ↔ a = posInf := by
  cases a <;> simp [eqB]

end FloatX

@[simp] theorem positiveInfinity_eq (β : Type) : (positiveInfinity : FloatX β) = posInf := rfl

@[simp] theorem negativeInfinity_eq (β : Type) : (negativeInfinity : FloatX β) = negInf := rfl

/-! ## The compression curve on finite parameters -/

namespace CompressionCurve

/-- With a finite threshold `t`, knee width `k` and input level `x`, the gain is the
three-region expression over the field. -/
theorem gain_fin_of_ratio_fin (c : CompressionCurve α) (t k r x : α)
    (ht : c.thresholdDb_ = fin t) (hk : c.kneeWidthDb_ = fin k)
    (hr : c.compressionRatio_ = fin r) (hr0 : r ≠ 0) :
    calculateCompressionGainDb c (fin x) =
      fin ((if 2 * (x - t) ≤ -k then x
            else if 2 * |x - t| < k then
              x + (1 / r - 1) * (x - t + k / 2) * (x - t + k / 2) / (2 * k)
            else t + (x - t) / r) - x) := by
  have h2k : 2 * |x - t| < k → (2 * k ≠ 0) := fun h => by
    have := abs_nonneg (x - t)
    have : 0 < k := by linarith
    positivity
  simp only [calculateCompressionGainDb, kneeOutLevelDb, aboveKneeOutLevelDb, ht, hk, hr,
    negativeInfinity_eq, positiveInfinity_eq, eqB_fin_negInf, eqB_fin_posInf, fin_sub_fin,
    fin_mul_fin, neg_fin, fin_le_fin, fabs_fin, fin_lt_fin, fin_div_two, fin_add_fin,
    fin_div_fin _ hr0, Bool.false_eq_true, if_false]
  split_ifs with h1 h2
  · rw [fin_sub_fin]
  · rw [fin_div_fin _ (h2k h2), fin_add_fin, fin_sub_fin]
  · rw [fin_sub_fin]

/-- With a finite threshold `t`, knee width `k` and input level `x` and the ratio
`+inf` (limiting), the gain is the three-region expression over the field. -/
theorem gain_fin_of_limiting (c : CompressionCurve α) (t k x : α)
    (ht : c.thresholdDb_ = fin t) (hk : c.kneeWidthDb_ = fin k)
    (hr : c.compressionRatio_ = posInf) :
    calculateCompressionGainDb c (fin x) =
      fin ((if 2 * (x - t) ≤ -k then x
            else if 2 * |x - t| < k then
              x + (-(x - t + k / 2)) * (x - t + k / 2) / (2 * k)
            else t) - x) := by
  have h2k : 2 * |x - t| < k → (2 * k ≠ 0) := fun h => by
    have := abs_nonneg (x - t)
    have : 0 < k := by linarith
    positivity
  simp only [calculateCompressionGainDb, kneeOutLevelDb, aboveKneeOutLevelDb, ht, hk, hr,
    negativeInfinity_eq, positiveInfinity_eq, eqB_fin_negInf, eqB_posInf_posInf, fin_sub_fin,
    fin_mul_fin, neg_fin, fin_le_fin, fabs_fin, fin_lt_fin, fin_div_two, fin_add_fin,
    Bool.false_eq_true, if_false, if_true]
  split_ifs with h1 h2
  · rw [fin_sub_fin]
  · rw [fin_div_fin _ (h2k h2), fin_add_fin, fin_sub_fin]
  · rw [fin_sub_fin]

/-! ## Claims on the compression curve -/

/-- C1: with a real threshold `t` and a real knee width `k`, every input level
`x <= thresholdDb - kneeWidthDb/2`, finite or `-inf`, gets the gain exactly `0`
(this holds for every `k`, so in particular for `k >= 0`, and for every ratio). -/
theorem gain_zero_below_knee (c : CompressionCurve α) (t k : α) (x : FloatX α)
    (ht : c.thresholdDb_ = fin t) (hk : c.kneeWidthDb_ = fin k)
    (hx : x ≤ c.thresholdDb_ - c.kneeWidthDb_ / fin 2) :
    calculateCompressionGainDb c x = fin 0 := by
  rw [ht, hk, fin_div_two, fin_sub_fin] at hx
  cases x with
  | nan => exact absurd hx (not_nan_le _)
  | negInf => simp [calculateCompressionGainDb]
  | posInf => exact absurd hx (not_posInf_le_fin _)
  | fin x =>
    rw [fin_le_fin] at hx
    have h1 : 2 * (x - t) ≤ -k := by linarith
    simp [calculateCompressionGainDb, ht, hk, h1]

/-- Witness of C1 at threshold -20 dB, knee 6 dB, on silence (`-inf`). -/
theorem gain_zero_below_knee_witness :
    (negInf : FloatX ℚ) ≤ fin (-20) - fin 6 / fin 2 ∧
      calculateCompressionGainDb
        ({ thresholdDb_ := fin (-20), kneeWidthDb_ := fin 6 } : CompressionCurve ℚ) negInf
        = fin 0 :=
  ⟨by decide, gain_zero_below_knee _ (-20) 6 negInf rfl rfl (by decide)⟩

end CompressionCurve

namespace CompressionCurve

/-- C2, amended: over the reals (every operation exact), with a real threshold `t`, a
real knee width `k >= 0` and a finite ratio `r >= 1`, every finite input level
`x >= t + k/2` has output level `t + (x - t)/r`, and the gain returned is that level minus
`x`. -/
theorem output_above_knee (c : CompressionCurve α) (t k r x : α)
    (ht : c.thresholdDb_ = fin t) (hk : c.kneeWidthDb_ = fin k)
    (hr : c.compressionRatio_ = fin r) (hr1 : 1 ≤ r) (hk0 : 0 ≤ k) (hx : t + k / 2 ≤ x) :
    calculateOutputLevelDb c (fin x) = fin (t + (x - t) / r) ∧
      calculateCompressionGainDb c (fin x) = fin (t + (x - t) / r - x) := by
  have hr0 : r ≠ 0 := by positivity
  have hg : calculateCompressionGainDb c (fin x) = fin (t + (x - t) / r - x) := by
    rw [gain_fin_of_ratio_fin c t k r x ht hk hr hr0]
    congr 2
    split_ifs with h1 h2
    · have hxt : x = t := by linarith
      simp [hxt]
    · have := le_abs_self (x - t)
      linarith
    · rfl
  refine ⟨?_, hg⟩
  rw [calculateOutputLevelDb, hg, fin_add_fin]
  congr 1
  ring

/-- Witness of C2, the end-to-end case of the specification: threshold -20 dB, ratio 4,
knee 0, input -10 dB give the output level -17.5 dB and the gain -7.5 dB. -/
theorem output_above_knee_witness :
    calculateOutputLevelDb
        ({ thresholdDb_ := fin (-20), compressionRatio_ := fin 4 } : CompressionCurve ℚ)
        (fin (-10)) = fin (-35 / 2) ∧
      calculateCompressionGainDb
        ({ thresholdDb_ := fin (-20), compressionRatio_ := fin 4 } : CompressionCurve ℚ)
        (fin (-10)) = fin (-15 / 2) := by
  have h := output_above_knee
    ({ thresholdDb_ := fin (-20), compressionRatio_ := fin 4 } : CompressionCurve ℚ)
    (-20) 0 4 (-10) rfl rfl rfl (by norm_num) (by norm_num) (by norm_num)
  norm_num at h ⊢
  exact h

/-- C3, amended: over the reals (every operation exact), in limiting mode (ratio `+inf`),
with a real threshold `t` and a real knee width `k >= 0`, every finite input level
`x >= t + k/2` has output level exactly `t`. -/
theorem output_above_knee_limiting (c : CompressionCurve α) (t k x : α)
    (ht : c.thresholdDb_ = fin t) (hk : c.kneeWidthDb_ = fin k)
    (hr : c.compressionRatio_ = positiveInfinity) (hk0 : 0 ≤ k) (hx : t + k / 2 ≤ x) :
    calculateOutputLevelDb c (fin x) = c.thresholdDb_ := by
  rw [calculateOutputLevelDb, gain_fin_of_limiting c t k x ht hk hr, fin_add_fin, ht]
  congr 1
  split_ifs with h1 h2
  · linarith
  · have := le_abs_self (x - t)
    linarith
  · ring

/-- Witness of C3: threshold -20 dB, knee 6 dB, limiting, input 0 dB gives -20 dB. -/
theorem output_above_knee_limiting_witness :
    calculateOutputLevelDb
        ({ thresholdDb_ := fin (-20), kneeWidthDb_ := fin 6, compressionRatio_ := posInf } :
          CompressionCurve ℚ) (fin 0) = fin (-20) :=
  output_above_knee_limiting _ (-20) 6 0 rfl rfl rfl (by norm_num) (by norm_num)

end CompressionCurve

/-! ## Continuity of the static curve -/

/-- The three-region curve over the reals, with `s = 1/ratio - 1` (or `-1` when limiting),
is continuous for every knee width `k >= 0`. -/
theorem continuous_threeRegion (t k s : ℝ) (hk0 : 0 ≤ k) :
    Continuous (fun x : ℝ =>
      if x ≤ t - k / 2 then x
      else if t + k / 2 ≤ x then t + (x - t) * (1 + s)
      else x + s * (x - t + k / 2) * (x - t + k / 2) / (2 * k)) := by
  have hin : Continuous (fun x : ℝ =>
      if t + k / 2 ≤ x then t + (x - t) * (1 + s)
      else x + s * (x - t + k / 2) * (x - t + k / 2) / (2 * k)) := by
    refine Continuous.if_le (by fun_prop) (by fun_prop) continuous_const continuous_id ?_
    intro x hx
    simp only [id] at hx
    subst hx
    rcases eq_or_lt_of_le hk0 with h0 | hpos
    · subst h0
      simp
    · field_simp
      ring
  refine Continuous.if_le continuous_id hin continuous_id continuous_const ?_
  intro x hx
  simp only [id] at hx
  subst hx
  split_ifs with h
  · have hk : k = 0 := by linarith
    subst hk
    simp
  · simp

namespace CompressionCurve

/-- On finite parameters and a finite input the output level is the three-region curve
over the field, with `s = 1/r - 1`. -/
theorem output_fin_of_ratio_fin (c : CompressionCurve α) (t k r x : α)
    (ht : c.thresholdDb_ = fin t) (hk : c.kneeWidthDb_ = fin k)
    (hr : c.compressionRatio_ = fin r) (hr0 : r ≠ 0) :
    calculateOutputLevelDb c (fin x) =
      fin (if x ≤ t - k / 2 then x
           else if t + k / 2 ≤ x then t + (x - t) * (1 + (1 / r - 1))
           else x + (1 / r - 1) * (x - t + k / 2) * (x - t + k / 2) / (2 * k)) := by
  rw [calculateOutputLevelDb, gain_fin_of_ratio_fin c t k r x ht hk hr hr0, fin_add_fin]
  congr 1
  have habs := le_abs_self (x - t)
  have habs2 := neg_abs_le (x - t)
  split_ifs with h1 h2 h3 h4 h5 h6 h7 h8 <;>
    first
    | (exfalso; linarith)
    | (exfalso; rcases abs_cases (x - t) with ⟨ha, _⟩ | ⟨ha, _⟩ <;> linarith)
    | (field_simp; ring)
    | ring

/-- On finite parameters and a finite input the output level in limiting mode is the
three-region curve over the field, with `s = -1`. -/
theorem output_fin_of_limiting (c : CompressionCurve α) (t k x : α)
    (ht : c.thresholdDb_ = fin t) (hk : c.kneeWidthDb_ = fin k)
    (hr : c.compressionRatio_ = posInf) :
    calculateOutputLevelDb c (fin x) =
      fin (if x ≤ t - k / 2 then x
           else if t + k / 2 ≤ x then t + (x - t) * (1 + (-1))
           else x + (-1) * (x - t + k / 2) * (x - t + k / 2) / (2 * k)) := by
  rw [calculateOutputLevelDb, gain_fin_of_limiting c t k x ht hk hr, fin_add_fin]
  congr 1
  have habs := le_abs_self (x - t)
  have habs2 := neg_abs_le (x - t)
  split_ifs with h1 h2 h3 h4 h5 h6 h7 h8 <;>
    first
    | (exfalso; linarith)
    | (exfalso; rcases abs_cases (x - t) with ⟨ha, _⟩ | ⟨ha, _⟩ <;> linarith)
    | ring

end CompressionCurve

namespace CompressionCurve

/-- C4: with a real threshold `t`, a real knee width `k >= 0` and a ratio that is finite
and `>= 1` or `+inf` (limiting), the output level on finite inputs is a continuous real
function of the input level.  At both knee boundaries the branches agree: for `k > 0` the
in-knee quadratic gives the below-knee value (the input itself) at `t - k/2` and the
above-knee value at `t + k/2`; for `k = 0` the knee region is empty and the below-knee
and above-knee values agree at `t`. -/
theorem output_continuous (c : CompressionCurve ℝ) (t k : ℝ)
    (ht : c.thresholdDb_ = fin t) (hk : c.kneeWidthDb_ = fin k) (hk0 : 0 ≤ k)
    (hr : c.compressionRatio_ = positiveInfinity ∨
      ∃ r : ℝ, 1 ≤ r ∧ c.compressionRatio_ = fin r) :
    (∃ g : ℝ → ℝ, Continuous g ∧ ∀ x : ℝ, calculateOutputLevelDb c (fin x) = fin (g x)) ∧
      (0 < k → kneeOutLevelDb c (fin (t - k / 2)) = fin (t - k / 2) ∧
        kneeOutLevelDb c (fin (t + k / 2)) = aboveKneeOutLevelDb c (fin (t + k / 2))) ∧
      (k = 0 → aboveKneeOutLevelDb c (fin t) = fin t) := by
  rcases hr with hr | ⟨r, hr1, hr⟩
  · rw [positiveInfinity_eq] at hr
    refine ⟨⟨_, continuous_threeRegion t k (-1) hk0,
      fun x => output_fin_of_limiting c t k x ht hk hr⟩, fun hpos => ?_, fun _ => ?_⟩
    · have h2k : 2 * k ≠ 0 := by positivity
      simp only [kneeOutLevelDb, aboveKneeOutLevelDb, ht, hk, hr, positiveInfinity_eq,
        eqB_posInf_posInf, if_true, fin_sub_fin, fin_div_two, fin_add_fin, neg_fin,
        fin_mul_fin, fin_div_fin _ h2k]
      constructor
      · congr 1
        ring
      · congr 1
        field_simp
        ring
    · simp [aboveKneeOutLevelDb, ht, hr]
  · have hr0 : r ≠ 0 := by positivity
    refine ⟨⟨_, continuous_threeRegion t k (1 / r - 1) hk0,
      fun x => output_fin_of_ratio_fin c t k r x ht hk hr hr0⟩, fun hpos => ?_, fun _ => ?_⟩
    · have h2k : 2 * k ≠ 0 := by positivity
      simp only [kneeOutLevelDb, aboveKneeOutLevelDb, ht, hk, hr, positiveInfinity_eq,
        eqB_fin_posInf, Bool.false_eq_true, if_false, fin_sub_fin, fin_div_two, fin_add_fin,
        fin_mul_fin, fin_div_fin _ h2k, fin_div_fin _ hr0]
      constructor
      · congr 1
        ring
      · congr 1
        field_simp
        ring
    · simp [aboveKneeOutLevelDb, ht, hr, fin_div_fin _ hr0]

/-- Witness of C4: threshold -20 dB, knee 6 dB, ratio 4. -/
theorem output_continuous_witness :
    (∃ g : ℝ → ℝ, Continuous g ∧ ∀ x : ℝ,
        calculateOutputLevelDb
          ({ thresholdDb_ := fin (-20), kneeWidthDb_ := fin 6, compressionRatio_ := fin 4 } :
            CompressionCurve ℝ) (fin x) = fin (g x)) :=
  (output_continuous
    ({ thresholdDb_ := fin (-20), kneeWidthDb_ := fin 6, compressionRatio_ := fin 4 } :
      CompressionCurve ℝ) (-20) 6 rfl rfl (by norm_num)
    (Or.inr ⟨4, by norm_num, rfl⟩)).1

end CompressionCurve

/-! ## Non-positive gain -/

namespace FloatX

theorem not_le_of_lt (a b : FloatX α) (h : a < b) : ¬ b ≤ a := by
  cases a <;> cases b <;>
    first
    | exact absurd h Bool.false_ne_true
    | exact fun h2 => absurd h2 Bool.false_ne_true
    | (rw [fin_lt_fin] at h; rw [fin_le_fin]; exact not_le.mpr h)

end FloatX

namespace CompressionCurve

end CompressionCurve

/-! ## Claims on the setters -/

namespace CompressionCurve

/-- C7: `setKneeWidthDb(k)` with `k < 0` and `setCompressionRatio(r)` with `r < 1` return
the curve state unchanged, every field included; with `k >= 0`, respectively `r >= 1`,
they store exactly the given value in their own field and leave the other fields as
they were. -/
theorem setters_guard (c : CompressionCurve α) (k r : FloatX α) :
    (k < fin 0 → setKneeWidthDb c k = c) ∧
      (r < fin 1 → setCompressionRatio c r = c) ∧
      (k ≥ fin 0 → setKneeWidthDb c k = { c with kneeWidthDb_ := k }) ∧
      (r ≥ fin 1 → setCompressionRatio c r = { c with compressionRatio_ := r }) := by
  refine ⟨fun h => ?_, fun h => ?_, fun h => ?_, fun h => ?_⟩
  · rw [setKneeWidthDb, if_neg (FloatX.not_le_of_lt _ _ h)]
  · rw [setCompressionRatio, if_neg (FloatX.not_le_of_lt _ _ h)]
  · rw [setKneeWidthDb, if_pos h]
  · rw [setCompressionRatio, if_pos h]

end CompressionCurve

/-! ## Claims on the conversion utilities -/

/-- C8: over the reals `mag2Db(db2Mag(x)) = x` for every finite `x`, that is
`20*log10(10^(x/20)) = x`; at the edges `mag2Db(0) = -inf` and `db2Mag(-inf) = 0`. -/
theorem mag2Db_db2Mag (x : ℝ) :
    mag2Db realMath (db2Mag realMath (fin x)) = fin x ∧
      mag2Db realMath (fin 0) = negativeInfinity ∧
      db2Mag realMath negativeInfinity = fin 0 := by
  refine ⟨?_, ?_, ?_⟩
  · have hpos : (0 : ℝ) < (10 : ℝ) ^ (x / 20) := Real.rpow_pos_of_pos (by norm_num) _
    have hd : db2Mag realMath (fin x) = fin ((10 : ℝ) ^ (x / 20)) := by
      simp [db2Mag, fin_div_fin, CMath.powTen, realMath]
    have hlog : Real.logb 10 ((10 : ℝ) ^ (x / 20)) = x / 20 :=
      Real.logb_rpow (by norm_num) (by norm_num)
    rw [hd]
    simp only [mag2Db, fin_lt_fin, not_lt.mpr hpos.le, if_false, eqB_fin_fin,
      decide_eq_true_eq, hpos.ne', eqB_fin_posInf, positiveInfinity_eq, Bool.false_eq_true,
      CMath.logTen, realMath, hlog, fin_mul_fin]
    congr 1
    ring
  · simp [mag2Db]
  · simp [db2Mag]

/-- C9, counterexample: the time constant `-1` s is `<= 0`, yet at the sample rate 1 Hz the
coefficient is `1 - e^(-1)`, not `1`. -/
theorem timeConstantToCoefficient_neg_tau_ne_one :
    (fin (-1) : FloatX ℝ) ≤ fin 0 ∧
      timeConstantToCoefficient realMath (fin (-1)) (fin 1) = fin (1 - Real.exp (-1)) ∧
      timeConstantToCoefficient realMath (fin (-1)) (fin 1) ≠ fin 1 := by
  have hv : timeConstantToCoefficient realMath (fin (-1)) (fin 1)
      = fin (1 - Real.exp (-1)) := by
    simp [timeConstantToCoefficient, fin_div_fin, CMath.expX, realMath]
  refine ⟨by simp, hv, ?_⟩
  rw [hv]
  intro h
  have h1 : (1 : ℝ) - Real.exp (-1) = 1 := FloatX.fin.inj h
  have h2 := Real.exp_pos (-1)
  linarith

/-- C9, amended: for the time constant `0` and every sample rate the coefficient is `1`;
a negative time constant is first replaced by its absolute value, so it gives the
coefficient of `|tau|` at the same sample rate. -/
theorem timeConstantToCoefficient_zero_tau (m : CMath α) (fs : FloatX α) :
    timeConstantToCoefficient m (fin 0) fs = fin 1 ∧
      ∀ tau : FloatX α, tau < fin 0 →
        timeConstantToCoefficient m tau fs = timeConstantToCoefficient m (fabs tau) fs := by
  refine ⟨by simp [timeConstantToCoefficient], fun tau h => ?_⟩
  cases tau with
  | nan => exact absurd h (not_nan_lt _)
  | posInf => exact absurd h Bool.false_ne_true
  | negInf => rfl
  | fin y =>
    rw [fin_lt_fin] at h
    have h2 : ¬ |y| < 0 := not_lt.mpr (abs_nonneg y)
    simp [timeConstantToCoefficient, h, h2]

/-- C10, counterexample: with the time constant 1 s and the sample rate `-1` Hz, which is
`<= 0`, the coefficient is `1 - e^(-1)`, not `0`. -/
theorem timeConstantToCoefficient_neg_fs_ne_zero :
    (fin 0 : FloatX ℝ) < fin 1 ∧ (fin (-1) : FloatX ℝ) ≤ fin 0 ∧
      timeConstantToCoefficient realMath (fin 1) (fin (-1)) = fin (1 - Real.exp (-1)) ∧
      timeConstantToCoefficient realMath (fin 1) (fin (-1)) ≠ fin 0 := by
  have hv : timeConstantToCoefficient realMath (fin 1) (fin (-1))
      = fin (1 - Real.exp (-1)) := by
    simp [timeConstantToCoefficient, fin_div_fin, CMath.expX, realMath]
  refine ⟨by simp, by simp, hv, ?_⟩
  rw [hv]
  intro h
  have h1 : (1 : ℝ) - Real.exp (-1) = 0 := FloatX.fin.inj h
  have h2 : Real.exp (-1) < 1 := Real.exp_lt_one_iff.mpr (by norm_num)
  linarith

/-- C10, amended: for every time constant `tau > 0`, the coefficient is `0` when the
sample rate is `0` or `tau = +inf`; a negative sample rate is first replaced by its
absolute value, so it gives the coefficient of `|fs|`. -/
theorem timeConstantToCoefficient_no_response (m : CMath α) (tau fs : FloatX α)
    (htau : fin 0 < tau) :
    (fs = fin 0 ∨ tau = positiveInfinity → timeConstantToCoefficient m tau fs = fin 0) ∧
      (fs < fin 0 →
        timeConstantToCoefficient m tau fs = timeConstantToCoefficient m tau (fabs fs)) := by
  cases tau with
  | nan => exact absurd htau (not_lt_nan _)
  | negInf => exact absurd htau Bool.false_ne_true
  | posInf =>
    refine ⟨fun _ => ?_, fun _ => ?_⟩ <;>
      simp [timeConstantToCoefficient, LT.lt, LE.le, ltB, leB]
  | fin y =>
    rw [fin_lt_fin] at htau
    have hy1 : ¬ y < 0 := not_lt.mpr htau.le
    have hy2 : ¬ y ≤ 0 := not_le.mpr htau
    refine ⟨fun h => ?_, fun h => ?_⟩
    · rcases h with h | h
      · subst h
        simp [timeConstantToCoefficient, hy1, hy2]
      · exact absurd h (by simp)
    · cases fs with
      | nan => exact absurd h (not_nan_lt _)
      | posInf => exact absurd h Bool.false_ne_true
      | negInf => rfl
      | fin z =>
        rw [fin_lt_fin] at h
        have hz : ¬ |z| ≤ 0 := by
          rw [abs_nonpos_iff]
          exact h.ne
        simp [timeConstantToCoefficient, h.le, hz]

/-- Witness of C10, amended: time constant 0.1 s at the sample rate 0. -/
theorem timeConstantToCoefficient_no_response_witness :
    (fin 0 : FloatX ℚ) < fin (1 / 10) ∧
      timeConstantToCoefficient (CMath.mk id id id) (fin (1 / 10 : ℚ)) (fin 0) = fin 0 :=
  ⟨by norm_num,
    (timeConstantToCoefficient_no_response (CMath.mk id id id) (fin (1 / 10)) (fin 0)
      (by norm_num)).1 (Or.inl rfl)⟩

/-! ## Range of the one-pole coefficient -/

/-- The value of `timeConstantToCoefficient` on a finite time constant `y > 0` and a
finite sample rate `z > 0`. -/
theorem timeConstantToCoefficient_pos_pos (m : CMath α) (y z : α) (hy : 0 < y) (hz : 0 < z) :
    timeConstantToCoefficient m (fin y) (fin z) = fin (1 - m.exp (-1 / (y * z))) := by
  have hyz : y * z ≠ 0 := (mul_pos hy hz).ne'
  simp [timeConstantToCoefficient, fin_div_fin _ hyz, CMath.expX, not_le.mpr hy,
    not_le.mpr hz, not_lt.mpr hy.le, hz.ne']

/-- The value of `timeConstantToCoefficient` on a finite time constant `y > 0` and the
sample rate `+inf`. -/
theorem timeConstantToCoefficient_pos_posInf (m : CMath α) (y : α) (hy : 0 < y) :
    timeConstantToCoefficient m (fin y) posInf = fin (1 - m.exp 0) := by
  have h1 : ¬ (posInf : FloatX α) ≤ fin 0 := not_posInf_le_fin 0
  have h2 : (fin y : FloatX α) * posInf = posInf := by
    show signedInf y = posInf
    rw [signedInf, if_pos hy]
  have h3 : -(fin 1 : FloatX α) / posInf = fin 0 := rfl
  simp only [timeConstantToCoefficient, h1, if_false, fin_lt_fin, not_lt.mpr hy.le,
    fin_le_fin, not_le.mpr hy, positiveInfinity_eq, eqB_fin_posInf, Bool.or_false, h2, h3,
    CMath.expX, fin_sub_fin]
  rfl

/-- A negative or zero sample rate is replaced by its absolute value. -/
theorem timeConstantToCoefficient_fabs_fs (m : CMath α) (tau fs : FloatX α)
    (h : fs ≤ fin 0) :
    timeConstantToCoefficient m tau fs = timeConstantToCoefficient m tau (fabs fs) := by
  cases fs with
  | nan => exact absurd h (not_nan_le _)
  | posInf => exact absurd h (not_posInf_le_fin _)
  | negInf => rfl
  | fin z =>
    rw [fin_le_fin] at h
    by_cases hz : z = 0
    · subst hz
      simp [timeConstantToCoefficient]
    · have hz2 : ¬ |z| ≤ 0 := by
        rw [abs_nonpos_iff]
        exact hz
      simp [timeConstantToCoefficient, h, hz2]

/-- A negative time constant is replaced by its absolute value. -/
theorem timeConstantToCoefficient_fabs_tau (m : CMath α) (tau fs : FloatX α)
    (h : tau < fin 0) :
    timeConstantToCoefficient m tau fs = timeConstantToCoefficient m (fabs tau) fs := by
  cases tau with
  | nan => exact absurd h (not_nan_lt _)
  | posInf => exact absurd h Bool.false_ne_true
  | negInf => rfl
  | fin y =>
    rw [fin_lt_fin] at h
    have h2 : ¬ |y| < 0 := not_lt.mpr (abs_nonneg y)
    simp [timeConstantToCoefficient, h, h2]

/-- Range of the coefficient for a time constant `>= 0` and a sample rate `>= 0`, neither
NaN, when `exp` maps the numbers `<= 0` into `[0, 1]`. -/
theorem timeConstantToCoefficient_range_nonneg (m : CMath α)
    (hexp : ∀ y : α, y ≤ 0 → 0 ≤ m.exp y ∧ m.exp y ≤ 1) (tau fs : FloatX α)
    (htau : fin 0 ≤ tau) (hfs : fin 0 ≤ fs) :
    fin 0 ≤ timeConstantToCoefficient m tau fs ∧
      timeConstantToCoefficient m tau fs ≤ fin 1 := by
  have h01 : (fin 0 : FloatX α) ≤ fin 1 := (fin_le_fin 0 1).mpr zero_le_one
  have h00 : (fin 0 : FloatX α) ≤ fin 0 := (fin_le_fin 0 0).mpr le_rfl
  have h11 : (fin 1 : FloatX α) ≤ fin 1 := (fin_le_fin 1 1).mpr le_rfl
  cases tau with
  | nan => exact absurd htau (not_le_nan _)
  | negInf => exact absurd htau (not_fin_le_negInf _)
  | posInf =>
    have hv : timeConstantToCoefficient m posInf fs = fin 0 := by
      simp [timeConstantToCoefficient, LT.lt, LE.le, ltB, leB]
    rw [hv]
    exact ⟨h00, h01⟩
  | fin y =>
    rw [fin_le_fin] at htau
    rcases eq_or_lt_of_le htau with hy | hy
    · subst hy
      have hv : timeConstantToCoefficient m (fin 0) fs = fin 1 := by
        simp [timeConstantToCoefficient]
      rw [hv]
      exact ⟨h01, h11⟩
    · cases fs with
      | nan => exact absurd hfs (not_le_nan _)
      | negInf => exact absurd hfs (not_fin_le_negInf _)
      | posInf =>
        rw [timeConstantToCoefficient_pos_posInf m y hy, fin_le_fin, fin_le_fin]
        have := hexp 0 le_rfl
        constructor <;> linarith
      | fin z =>
        rw [fin_le_fin] at hfs
        rcases eq_or_lt_of_le hfs with hz | hz
        · subst hz
          have hv : timeConstantToCoefficient m (fin y) (fin 0) = fin 0 := by
            simp [timeConstantToCoefficient, not_lt.mpr hy.le, not_le.mpr hy]
          rw [hv]
          exact ⟨h00, h01⟩
        · rw [timeConstantToCoefficient_pos_pos m y z hy hz, fin_le_fin, fin_le_fin]
          have hneg : -1 / (y * z) ≤ 0 :=
            div_nonpos_of_nonpos_of_nonneg (by norm_num) (mul_pos hy hz).le
          have := hexp _ hneg
          constructor <;> linarith

/-- The absolute value of a `float` that is not NaN is `>= 0`. -/
theorem FloatX.zero_le_fabs (a : FloatX α) (ha : a ≠ nan) : fin 0 ≤ fabs a := by
  cases a with
  | nan => exact absurd rfl ha
  | negInf => rfl
  | posInf => rfl
  | fin x => exact (fin_le_fin 0 |x|).mpr (abs_nonneg x)

/-- Range of the coefficient for every time constant and sample rate that is not NaN, when
`exp` maps the numbers `<= 0` into `[0, 1]`. -/
theorem timeConstantToCoefficient_range (m : CMath α)
    (hexp : ∀ y : α, y ≤ 0 → 0 ≤ m.exp y ∧ m.exp y ≤ 1) (tau fs : FloatX α)
    (htau : tau ≠ nan) (hfs : fs ≠ nan) :
    fin 0 ≤ timeConstantToCoefficient m tau fs ∧
      timeConstantToCoefficient m tau fs ≤ fin 1 := by
  have key : ∀ tau' : FloatX α, fin 0 ≤ tau' →
      fin 0 ≤ timeConstantToCoefficient m tau' fs ∧
        timeConstantToCoefficient m tau' fs ≤ fin 1 := by
    intro tau' h'
    by_cases h : fs ≤ fin 0
    · rw [timeConstantToCoefficient_fabs_fs m tau' fs h]
      exact timeConstantToCoefficient_range_nonneg m hexp tau' (fabs fs) h'
        (FloatX.zero_le_fabs fs hfs)
    · have h2 : fin 0 ≤ fs := by
        cases fs with
        | nan => exact absurd rfl hfs
        | negInf => exact absurd rfl h
        | posInf => rfl
        | fin z =>
          rw [fin_le_fin] at h ⊢
          exact (not_le.mp h).le
      exact timeConstantToCoefficient_range_nonneg m hexp tau' fs h' h2
  by_cases h : tau < fin 0
  · rw [timeConstantToCoefficient_fabs_tau m tau fs h]
    exact key (fabs tau) (FloatX.zero_le_fabs tau htau)
  · apply key
    cases tau with
    | nan => exact absurd rfl htau
    | negInf => exact absurd rfl h
    | posInf => rfl
    | fin y =>
      rw [fin_lt_fin] at h
      rw [fin_le_fin]
      exact not_lt.mp h

/-- C11: over the reals, for every time constant and every sample rate (any sign, zero,
`-inf` and `+inf` included; NaN is not a time or a rate), the coefficient returned by
`timeConstantToCoefficient` lies in the closed interval `[0, 1]`. -/
theorem timeConstantToCoefficient_mem_unit (tau fs : FloatX ℝ)
    (htau : tau ≠ nan) (hfs : fs ≠ nan) :
    fin 0 ≤ timeConstantToCoefficient realMath tau fs ∧
      timeConstantToCoefficient realMath tau fs ≤ fin 1 :=
  timeConstantToCoefficient_range realMath
    (fun y hy => ⟨(Real.exp_pos y).le, Real.exp_le_one_iff.mpr hy⟩) tau fs htau hfs

/-- Witness of C11: a negative time constant at the sample rate `+inf`. -/
theorem timeConstantToCoefficient_mem_unit_witness :
    fin 0 ≤ timeConstantToCoefficient realMath (fin (-1)) posInf ∧
      timeConstantToCoefficient realMath (fin (-1)) posInf ≤ fin 1 :=
  timeConstantToCoefficient_mem_unit (fin (-1)) posInf (by simp) (by simp)

/-! ## Claims on the envelope estimator: one step, hold length -/

namespace LevelEstimator

/-- C12: one step of `estimateLevel` on a sample `s` from the state `(e, h)` is the
three-way step of the specification, `specStep`: attack when `|s| > e` (then
`e' = e + (|s| - e) * attackCoefficient`, `h' = 0`), else hold when `h < holdTimeSamples`
(then `e' = e`, `h' = h + 1`), else release (`e' = e + (|s| - e) * releaseCoefficient`,
`h' = h`); the value written to `levelOutput` for the sample is `e'`, and the loop goes on
from `(e', h')`. -/
theorem estimateLevel_step (le : LevelEstimator α) (e : FloatX α) (h : Nat) (s : FloatX α)
    (input : List (FloatX α)) :
    estimateLevel le [s] { levelEstimate := e, holdCount := h } =
        ([(specStep le.attackCoefficient_ le.releaseCoefficient_ le.holdTimeSamples_ e h s).1],
          { levelEstimate :=
              (specStep le.attackCoefficient_ le.releaseCoefficient_ le.holdTimeSamples_
                e h s).1
            holdCount :=
              (specStep le.attackCoefficient_ le.releaseCoefficient_ le.holdTimeSamples_
                e h s).2 }) ∧
      estimateLevel le (s :: input) { levelEstimate := e, holdCount := h } =
        ((specStep le.attackCoefficient_ le.releaseCoefficient_ le.holdTimeSamples_ e h s).1 ::
            (estimateLevel le input
              { levelEstimate :=
                  (specStep le.attackCoefficient_ le.releaseCoefficient_ le.holdTimeSamples_
                    e h s).1
                holdCount :=
                  (specStep le.attackCoefficient_ le.releaseCoefficient_ le.holdTimeSamples_
                    e h s).2 }).1,
          (estimateLevel le input
              { levelEstimate :=
                  (specStep le.attackCoefficient_ le.releaseCoefficient_ le.holdTimeSamples_
                    e h s).1
                holdCount :=
                  (specStep le.attackCoefficient_ le.releaseCoefficient_ le.holdTimeSamples_
                    e h s).2 }).2) := by
  constructor <;>
  · simp only [estimateLevel, specStep]
    split_ifs <;> rfl

end LevelEstimator

namespace LevelEstimator

variable [FloorRing α]

/-- In exact arithmetic, for a hold time `holdTimeMs >= 0` and a sample rate `fs > 0`,
after `setHoldTimeMs` the hold length in samples is the product `holdTimeSec * fs`
truncated toward zero (its floor), with `holdTimeSec = holdTimeMs / 1000`; and after
`setSampleRate` with another rate `fs' > 0` it is the floor of `holdTimeSec * fs'`. -/
theorem setHoldTimeMs_floor (m : CMath α) (le : LevelEstimator α) (holdTimeMs fs : α)
    (hfs : le.sampleRateHz_ = fin fs) (_hfs0 : 0 < fs) (hh : 0 ≤ holdTimeMs) :
    (setHoldTimeMs le (fin holdTimeMs)).holdTimeSamples_ = ⌊holdTimeMs / 1000 * fs⌋₊ ∧
      ∀ fs' : α, 0 < fs' → fs' ≠ fs →
        (setSampleRate m (setHoldTimeMs le (fin holdTimeMs)) (fin fs')).holdTimeSamples_ =
          ⌊holdTimeMs / 1000 * fs'⌋₊ := by
  have hne : (1000 : α) ≠ 0 := by norm_num
  have hset : setHoldTimeMs le (fin holdTimeMs) =
      { le with
        holdTimeSec_ := fin (holdTimeMs / 1000)
        holdTimeSamples_ := ⌊holdTimeMs / 1000 * fs⌋₊ } := by
    simp only [setHoldTimeMs, fin_lt_fin, not_lt.mpr hh, if_false, fin_div_fin _ hne, hfs,
      fin_mul_fin, toSizeT]
  refine ⟨by rw [hset], fun fs' h0 hne' => ?_⟩
  rw [hset]
  simp only [setSampleRate, fin_le_fin, not_le.mpr h0, if_false, hfs, eqB_fin_fin, hne',
    decide_False, Bool.not_false, if_true, updateCoefficients, fin_mul_fin, toSizeT]

end LevelEstimator

/-! ## The envelope loop on finite values -/

namespace LevelEstimator

/-- On finite coefficients, a finite estimate and finite samples, `estimateLevel` is the
envelope loop on real numbers. -/
theorem estimateLevel_fin (le : LevelEstimator α) (a r : α)
    (ha : le.attackCoefficient_ = fin a) (hr : le.releaseCoefficient_ = fin r)
    (xs : List α) (e : α) (h : Nat) :
    estimateLevel le (xs.map fin) { levelEstimate := fin e, holdCount := h } =
      ((envelopeRun a r le.holdTimeSamples_ xs (e, h)).1.map fin,
        { levelEstimate := fin (envelopeRun a r le.holdTimeSamples_ xs (e, h)).2.1
          holdCount := (envelopeRun a r le.holdTimeSamples_ xs (e, h)).2.2 }) := by
  induction xs generalizing e h with
  | nil => rfl
  | cons x xs ih =>
    simp only [List.map_cons, estimateLevel, envelopeRun, envelopeStep, ha, hr, fabs_fin,
      gt_iff_lt, fin_lt_fin, fin_sub_fin, fin_mul_fin, fin_add_fin]
    split_ifs with h1 h2
    · rw [ih]
    · rw [ih]
    · rw [ih]

/-- The buffer and state after `estimateLevelLinked`, from the channel's own envelope
`estimateLevel`: in linked mode each entry is the larger of the envelope value and the
entry already there, otherwise the envelope value; entries past `numSamples` are kept. -/
theorem estimateLevelLinked_eq (le : LevelEstimator α) (linked : Bool)
    (input levelOutput : List (FloatX α)) (state : State α)
    (hlen : input.length ≤ levelOutput.length) :
    estimateLevelLinked le input levelOutput state linked =
      (List.zipWith
          (fun level y => if linked then (if level > y then level else y) else level)
          (estimateLevel le input state).1 levelOutput ++ levelOutput.drop input.length,
        (estimateLevel le input state).2) := by
  induction input generalizing levelOutput state with
  | nil =>
    cases levelOutput <;> simp [estimateLevelLinked, estimateLevel]
  | cons x input ih =>
    cases levelOutput with
    | nil => simp at hlen
    | cons y levelOutput =>
      have hlen2 : input.length ≤ levelOutput.length := by simpa using hlen
      simp only [estimateLevelLinked, estimateLevel, List.zipWith_cons_cons, List.cons_append,
        List.length_cons, List.drop_succ_cons]
      rw [ih _ _ hlen2]

/-- One envelope step keeps the estimate `>= 0` when both coefficients lie in `[0, 1]`. -/
theorem envelopeStep_nonneg (a r : α) (H : Nat) (ha0 : 0 ≤ a) (hr1 : r ≤ 1)
    (p : α × Nat) (x : α) (hp : 0 ≤ p.1) : 0 ≤ (envelopeStep a r H p x).1 := by
  unfold envelopeStep
  split_ifs with h1 h2
  · have : 0 ≤ (|x| - p.1) * a := mul_nonneg (by linarith) ha0
    show 0 ≤ p.1 + (|x| - p.1) * a
    linarith
  · exact hp
  · show 0 ≤ p.1 + (|x| - p.1) * r
    have h3 : |x| ≤ p.1 := not_lt.mp h1
    have h4 : 0 ≤ |x| := abs_nonneg x
    nlinarith

/-- The envelope loop keeps every estimate `>= 0`. -/
theorem envelopeRun_nonneg (a r : α) (H : Nat) (ha0 : 0 ≤ a) (hr1 : r ≤ 1)
    (xs : List α) (p : α × Nat) (hp : 0 ≤ p.1) :
    (∀ y ∈ (envelopeRun a r H xs p).1, 0 ≤ y) ∧ 0 ≤ (envelopeRun a r H xs p).2.1 := by
  induction xs generalizing p with
  | nil => exact ⟨fun y hy => by simp [envelopeRun] at hy, hp⟩
  | cons x xs ih =>
    have hq := envelopeStep_nonneg a r H ha0 hr1 p x hp
    have h := ih (envelopeStep a r H p x) hq
    refine ⟨fun y hy => ?_, h.2⟩
    simp only [envelopeRun, List.mem_cons] at hy
    rcases hy with rfl | hy
    · exact hq
    · exact h.1 y hy

end LevelEstimator

/-! ## Claims on the envelope estimator: non-negativity -/

namespace LevelEstimator

/-- One unfolding of `estimateLevelLinked` on finite values. -/
theorem estimateLevelLinked_cons_fin (le : LevelEstimator α) (a r : α)
    (ha : le.attackCoefficient_ = fin a) (hr : le.releaseCoefficient_ = fin r)
    (x : α) (xs : List α) (y : FloatX α) (ys : List (FloatX α)) (e : α) (h : Nat)
    (linked : Bool) :
    estimateLevelLinked le ((x :: xs).map fin) (y :: ys)
        { levelEstimate := fin e, holdCount := h } linked =
      ((if linked then
            (if fin (envelopeStep a r le.holdTimeSamples_ (e, h) x).1 > y then
              fin (envelopeStep a r le.holdTimeSamples_ (e, h) x).1 else y)
          else fin (envelopeStep a r le.holdTimeSamples_ (e, h) x).1) ::
          (estimateLevelLinked le (xs.map fin) ys
            { levelEstimate := fin (envelopeStep a r le.holdTimeSamples_ (e, h) x).1
              holdCount := (envelopeStep a r le.holdTimeSamples_ (e, h) x).2 } linked).1,
        (estimateLevelLinked le (xs.map fin) ys
            { levelEstimate := fin (envelopeStep a r le.holdTimeSamples_ (e, h) x).1
              holdCount := (envelopeStep a r le.holdTimeSamples_ (e, h) x).2 } linked).2) := by
  simp only [List.map_cons, estimateLevelLinked, envelopeStep, ha, hr, fabs_fin,
    gt_iff_lt, fin_lt_fin, fin_sub_fin, fin_mul_fin, fin_add_fin]
  split_ifs <;> rfl

/-- The entries of the buffer after `estimateLevelLinked`, on finite values with an
estimate `>= 0`: each of the first `numSamples` entries is `>= 0`, or the call is linked
and the entry is the one that was there before. -/
theorem estimateLevelLinked_written (le : LevelEstimator α) (a r : α)
    (ha : le.attackCoefficient_ = fin a) (hr : le.releaseCoefficient_ = fin r)
    (ha0 : 0 ≤ a) (hr1 : r ≤ 1) (linked : Bool) (xs : List α)
    (levelOutput : List (FloatX α)) (e : α) (h : Nat) (he : 0 ≤ e)
    (hlen : xs.length ≤ levelOutput.length) :
    List.Forall₂ (fun o y => fin 0 ≤ o ∨ (linked = true ∧ o = y))
      ((estimateLevelLinked le (xs.map fin) levelOutput
        { levelEstimate := fin e, holdCount := h } linked).1.take xs.length)
      (levelOutput.take xs.length) := by
  induction xs generalizing levelOutput e h with
  | nil => simp
  | cons x xs ih =>
    cases levelOutput with
    | nil => simp at hlen
    | cons y ys =>
      have hlen2 : xs.length ≤ ys.length := by simpa using hlen
      have hq := envelopeStep_nonneg a r le.holdTimeSamples_ ha0 hr1 (e, h) x he
      rw [estimateLevelLinked_cons_fin le a r ha hr]
      simp only [List.length_cons, List.take_succ_cons]
      refine List.Forall₂.cons ?_ (ih ys _ _ hq hlen2)
      have h0 : (fin 0 : FloatX α) ≤ fin (envelopeStep a r le.holdTimeSamples_ (e, h) x).1 :=
        (fin_le_fin _ _).mpr hq
      cases linked with
      | false => exact Or.inl (by simpa using h0)
      | true =>
        by_cases hgt : fin (envelopeStep a r le.holdTimeSamples_ (e, h) x).1 > y
        · exact Or.inl (by simpa [hgt] using h0)
        · exact Or.inr ⟨rfl, by simp [hgt]⟩

/-- On finite data the envelope stays `>= 0`: for an estimator whose attack and release
coefficients lie in `[0, 1]`, a state with a finite `levelEstimate >= 0` and a buffer of
finite samples, after `estimateLevel` and after `estimateLevelLinked` the state has
`levelEstimate >= 0`; every value `estimateLevel` writes to `levelOutput` is `>= 0`, and
each of the `numSamples` entries of the buffer after `estimateLevelLinked` is `>= 0` unless
the call is linked and left the entry as it was (nothing was written there). -/
theorem levelEstimate_nonneg (le : LevelEstimator α) (a r : α)
    (ha : le.attackCoefficient_ = fin a) (hr : le.releaseCoefficient_ = fin r)
    (ha01 : 0 ≤ a ∧ a ≤ 1) (hr01 : 0 ≤ r ∧ r ≤ 1) (e : α) (h : Nat) (he : 0 ≤ e)
    (xs : List α) (levelOutput : List (FloatX α)) (linked : Bool)
    (hlen : xs.length ≤ levelOutput.length) :
    (fin 0 ≤ (estimateLevel le (xs.map fin)
          { levelEstimate := fin e, holdCount := h }).2.levelEstimate ∧
        ∀ y ∈ (estimateLevel le (xs.map fin) { levelEstimate := fin e, holdCount := h }).1,
          fin 0 ≤ y) ∧
      (fin 0 ≤ (estimateLevelLinked le (xs.map fin) levelOutput
          { levelEstimate := fin e, holdCount := h } linked).2.levelEstimate ∧
        List.Forall₂ (fun o y => fin 0 ≤ o ∨ (linked = true ∧ o = y))
          ((estimateLevelLinked le (xs.map fin) levelOutput
            { levelEstimate := fin e, holdCount := h } linked).1.take xs.length)
          (levelOutput.take xs.length)) := by
  have hrun := envelopeRun_nonneg a r le.holdTimeSamples_ ha01.1 hr01.2 xs (e, h) he
  have hlen' : (xs.map fin).length ≤ levelOutput.length := by simpa using hlen
  refine ⟨⟨?_, ?_⟩, ?_, ?_⟩
  · rw [estimateLevel_fin le a r ha hr]
    exact (fin_le_fin _ _).mpr hrun.2
  · rw [estimateLevel_fin le a r ha hr]
    intro y hy
    obtain ⟨z, hz, rfl⟩ := List.mem_map.mp hy
    exact (fin_le_fin _ _).mpr (hrun.1 z hz)
  · rw [estimateLevelLinked_eq le linked _ _ _ hlen', estimateLevel_fin le a r ha hr]
    exact (fin_le_fin _ _).mpr hrun.2
  · exact estimateLevelLinked_written le a r ha hr ha01.1 hr01.2 linked xs levelOutput e h
      he hlen

end LevelEstimator

/-! ## Claims on the envelope estimator: step response -/

namespace LevelEstimator

/-- On a sample of magnitude `A`, from an estimate `<= A`, one envelope step does not
lower the estimate and does not pass `A`, when the attack coefficient lies in `[0, 1]`. -/
theorem envelopeStep_rise (a r : α) (H : Nat) (ha0 : 0 ≤ a) (ha1 : a ≤ 1) (A : α)
    (p : α × Nat) (x : α) (hx : |x| = A) (hp : p.1 ≤ A) :
    p.1 ≤ (envelopeStep a r H p x).1 ∧ (envelopeStep a r H p x).1 ≤ A := by
  unfold envelopeStep
  rw [hx]
  split_ifs with h1 h2
  · show p.1 ≤ p.1 + (A - p.1) * a ∧ p.1 + (A - p.1) * a ≤ A
    have h3 : 0 ≤ (A - p.1) * a := mul_nonneg (by linarith) ha0
    have h4 : (A - p.1) * a ≤ (A - p.1) * 1 :=
      mul_le_mul_of_nonneg_left ha1 (by linarith)
    constructor <;> linarith
  · exact ⟨le_rfl, hp⟩
  · show p.1 ≤ p.1 + (A - p.1) * r ∧ p.1 + (A - p.1) * r ≤ A
    have h3 : p.1 = A := le_antisymm hp (not_lt.mp h1)
    rw [h3]
    simp

/-- On samples of constant magnitude `A`, from an estimate `<= A`, the estimates of the
envelope loop never decrease and never pass `A`. -/
theorem envelopeRun_rise (a r : α) (H : Nat) (ha0 : 0 ≤ a) (ha1 : a ≤ 1) (A : α)
    (xs : List α) (hxs : ∀ x ∈ xs, |x| = A) (p : α × Nat) (hp : p.1 ≤ A) :
    List.Chain (· ≤ ·) p.1 (envelopeRun a r H xs p).1 ∧
      ∀ y ∈ (envelopeRun a r H xs p).1, y ≤ A := by
  induction xs generalizing p with
  | nil => exact ⟨List.Chain.nil, fun y hy => by simp [envelopeRun] at hy⟩
  | cons x xs ih =>
    have hstep := envelopeStep_rise a r H ha0 ha1 A p x (hxs x (List.mem_cons_self x xs)) hp
    have h := ih (fun z hz => hxs z (List.mem_cons_of_mem x hz)) (envelopeStep a r H p x)
      hstep.2
    refine ⟨List.Chain.cons hstep.1 h.1, fun y hy => ?_⟩
    simp only [envelopeRun, List.mem_cons] at hy
    rcases hy with rfl | hy
    · exact hstep.2
    · exact h.2 y hy

/-- C15: step response, rise.  For an attack coefficient in `[0, 1]` (and a finite release
coefficient), from the reset state and on samples of constant magnitude `A >= 0`, the
level estimates written by `estimateLevel` are real numbers `ys` that never decrease,
starting from the reset estimate `0`, and never exceed `A`. -/
theorem estimateLevel_rise (le : LevelEstimator α) (a r : α)
    (ha : le.attackCoefficient_ = fin a) (hr : le.releaseCoefficient_ = fin r)
    (ha01 : 0 ≤ a ∧ a ≤ 1) (A : α) (hA : 0 ≤ A) (xs : List α) (hxs : ∀ x ∈ xs, |x| = A)
    (st : State α) :
    ∃ ys : List α, (estimateLevel le (xs.map fin) st.reset).1 = ys.map fin ∧
      List.Chain (· ≤ ·) 0 ys ∧ ∀ y ∈ ys, y ≤ A := by
  refine ⟨(envelopeRun a r le.holdTimeSamples_ xs (0, 0)).1, ?_, ?_⟩
  · show (estimateLevel le (xs.map fin) { levelEstimate := fin 0, holdCount := 0 }).1 = _
    rw [estimateLevel_fin le a r ha hr]
  · exact envelopeRun_rise a r le.holdTimeSamples_ ha01.1 ha01.2 A xs hxs (0, 0) hA

/-- Witness of C15: attack coefficient 1/2, samples 1, -1, 1 from the reset state. -/
theorem estimateLevel_rise_witness :
    ∃ ys : List ℚ,
      (estimateLevel ({ attackCoefficient_ := fin (1 / 2) } : LevelEstimator ℚ)
        ([1, -1, 1].map fin) (State.reset {})).1 = ys.map fin ∧
      List.Chain (· ≤ ·) 0 ys ∧ ∀ y ∈ ys, y ≤ 1 :=
  estimateLevel_rise ({ attackCoefficient_ := fin (1 / 2) } : LevelEstimator ℚ) (1 / 2) 1
    rfl rfl (by norm_num) 1 (by norm_num) [1, -1, 1] (by decide) {}

end LevelEstimator

namespace LevelEstimator

end LevelEstimator

namespace LevelEstimator

end LevelEstimator

/-! ## The delay line -/

/-- Reading a list at the index just set. -/
theorem getD_set_same {β : Type} (l : List β) (i : Nat) (a d : β) (h : i < l.length) :
    (l.set i a).getD i d = a := by
  simp [List.getD_eq_getElem?_getD, List.getElem?_set_self, h]

/-- Reading a list at another index than the one set. -/
theorem getD_set_other {β : Type} (l : List β) (i j : Nat) (a d : β) (h : i ≠ j) :
    (l.set i a).getD j d = l.getD j d := by
  simp [List.getD_eq_getElem?_getD, List.getElem?_set_ne h]

/-- Every entry of a list of copies of `a`, read with the default `a`. -/
theorem getD_replicate_same {β : Type} (n j : Nat) (a : β) :
    (List.replicate n a).getD j a = a := by
  simp [List.getD_eq_getElem?_getD, List.getElem?_replicate]
  split_ifs <;> rfl

/-- Two times less than a buffer length apart are written at different indices. -/
theorem mod_ne_of_lt_of_lt (t k N : Nat) (h1 : t < k) (h2 : k < t + N) : t % N ≠ k % N := by
  intro h
  have h0 := Nat.sub_mod_eq_zero_of_mod_eq h.symm
  have h3 : (k - t) % N = k - t := Nat.mod_eq_of_lt (by omega)
  omega

/-- The read index, `delay` samples behind the write index, modulo the buffer length. -/
theorem mod_add_sub_mod (k N d : Nat) (hd : d ≤ k) (hdN : d < N) :
    (k % N + N - d) % N = (k - d) % N := by
  have h1 : (k % N + N - d) + d ≡ (k - d) + d [MOD N] := by
    rw [Nat.sub_add_cancel (by omega), Nat.sub_add_cancel hd]
    show (k % N + N) % N = k % N
    simp
  exact Nat.ModEq.add_right_cancel' d h1

namespace DelayLine

/-- Without wrap-around the read index is `(writeIndex_ + size - delay_) % size`: this
holds when the delay is below the buffer length and twice the length fits a `size_t`. -/
theorem readIndex_eq {β : Type} (d : DelayLine β) (hw : d.writeIndex_ < d.buffer_.length)
    (hd : d.delay_ < d.buffer_.length) (hcap : 2 * d.buffer_.length ≤ sizeModulus) :
    readIndex d = (d.writeIndex_ + d.buffer_.length - d.delay_) % d.buffer_.length := by
  have hdM : d.delay_ % sizeModulus = d.delay_ := Nat.mod_eq_of_lt (by omega)
  have hsum : d.writeIndex_ + d.buffer_.length + (sizeModulus - d.delay_) =
      (d.writeIndex_ + d.buffer_.length - d.delay_) + sizeModulus := by omega
  have hlt : d.writeIndex_ + d.buffer_.length - d.delay_ < sizeModulus := by omega
  rw [readIndex, hdM, hsum, Nat.add_mod_right, Nat.mod_eq_of_lt hlt]

/-- One call of `processSample` at time `k`, on a delay line that holds the last samples
of the history `hist` (zeros where nothing was written yet): the output is the sample of
time `k - delay`, or `0` before that, and the delay line holds the history up to `k`. -/
theorem processSample_history (N delay : Nat) (hdN : delay < N) (hcap : 2 * N ≤ sizeModulus)
    (hist : Nat → FloatX α) (k : Nat) (d : DelayLine α)
    (hlen : d.buffer_.length = N) (hw : d.writeIndex_ = k % N) (hdelay : d.delay_ = delay)
    (hpast : ∀ t, t < k → k ≤ t + N → d.buffer_.getD (t % N) (fin 0) = hist t)
    (hzero : ∀ j, k ≤ j → j < N → d.buffer_.getD j (fin 0) = fin 0) :
    (processSample d (hist k)).1 = (if delay ≤ k then hist (k - delay) else fin 0) ∧
      (processSample d (hist k)).2.buffer_.length = N ∧
      (processSample d (hist k)).2.writeIndex_ = (k + 1) % N ∧
      (processSample d (hist k)).2.delay_ = delay ∧
      (∀ t, t < k + 1 → k + 1 ≤ t + N →
        (processSample d (hist k)).2.buffer_.getD (t % N) (fin 0) = hist t) ∧
      (∀ j, k + 1 ≤ j → j < N →
        (processSample d (hist k)).2.buffer_.getD j (fin 0) = fin 0) := by
  have hN : 0 < N := by omega
  have hwlt : k % N < N := Nat.mod_lt _ hN
  have hsetlen : (d.buffer_.set d.writeIndex_ (hist k)).length = N := by
    rw [List.length_set, hlen]
  have hread : readIndex { d with buffer_ := d.buffer_.set d.writeIndex_ (hist k) } =
      (k % N + N - delay) % N := by
    rw [readIndex_eq _ (by simp [hlen, hw, hwlt]) (by simp [hlen, hdelay, hdN])
      (by simp [hlen, hcap])]
    simp only [List.length_set, hlen, hw, hdelay]
  refine ⟨?_, hsetlen, ?_, hdelay, ?_, ?_⟩
  · show (d.buffer_.set d.writeIndex_ (hist k)).getD
      (readIndex { d with buffer_ := d.buffer_.set d.writeIndex_ (hist k) }) (fin 0) = _
    rw [hread, hw]
    by_cases hdk : delay ≤ k
    · rw [if_pos hdk, mod_add_sub_mod k N delay hdk hdN]
      by_cases hd0 : delay = 0
      · subst hd0
        rw [Nat.sub_zero, getD_set_same _ _ _ _ (by rw [hlen]; exact hwlt)]
      · rw [getD_set_other _ _ _ _ _
          (Ne.symm (mod_ne_of_lt_of_lt (k - delay) k N (by omega) (by omega)))]
        exact hpast (k - delay) (by omega) (by omega)
    · rw [if_neg hdk]
      have hkN : k % N = k := Nat.mod_eq_of_lt (by omega)
      have hr : (k % N + N - delay) % N = k + N - delay := by
        rw [hkN]
        exact Nat.mod_eq_of_lt (by omega)
      rw [hr, hkN, getD_set_other _ _ _ _ _ (by omega)]
      exact hzero (k + N - delay) (by omega) (by omega)
  · show (d.writeIndex_ + 1) % (d.buffer_.set d.writeIndex_ (hist k)).length = (k + 1) % N
    rw [hsetlen, hw, Nat.mod_add_mod]
  · intro t ht1 ht2
    show (d.buffer_.set d.writeIndex_ (hist k)).getD (t % N) (fin 0) = hist t
    rw [hw]
    by_cases htk : t = k
    · subst htk
      exact getD_set_same _ _ _ _ (by rw [hlen]; exact hwlt)
    · rw [getD_set_other _ _ _ _ _
        (Ne.symm (mod_ne_of_lt_of_lt t k N (by omega) (by omega)))]
      exact hpast t (by omega) (by omega)
  · intro j hj1 hj2
    show (d.buffer_.set d.writeIndex_ (hist k)).getD j (fin 0) = fin 0
    rw [hw, Nat.mod_eq_of_lt (by omega : k < N), getD_set_other _ _ _ _ _ (by omega)]
    exact hzero j (by omega) hj2

end DelayLine

namespace DelayLine

/-- The outputs of `process` from time `k` on, on a delay line that holds the history up
to `k`: output `i` is the sample of time `k + i - delay`, or `0` before that. -/
theorem process_history (N delay : Nat) (hdN : delay < N) (hcap : 2 * N ≤ sizeModulus)
    (hist : Nat → FloatX α) (xs : List (FloatX α)) (k : Nat) (d : DelayLine α)
    (hxs : ∀ i, i < xs.length → xs.getD i (fin 0) = hist (k + i))
    (hlen : d.buffer_.length = N) (hw : d.writeIndex_ = k % N) (hdelay : d.delay_ = delay)
    (hpast : ∀ t, t < k → k ≤ t + N → d.buffer_.getD (t % N) (fin 0) = hist t)
    (hzero : ∀ j, k ≤ j → j < N → d.buffer_.getD j (fin 0) = fin 0) :
    (process d xs).1.length = xs.length ∧
      ∀ i, i < xs.length →
        (process d xs).1[i]? = some (if delay ≤ k + i then hist (k + i - delay) else fin 0) := by
  induction xs generalizing k d with
  | nil => exact ⟨rfl, fun i hi => absurd hi (Nat.not_lt_zero i)⟩
  | cons x xs ih =>
    have hx : x = hist k := by
      have := hxs 0 (Nat.succ_pos _)
      simpa using this
    subst hx
    obtain ⟨h1, h2, h3, h4, h5, h6⟩ :=
      processSample_history N delay hdN hcap hist k d hlen hw hdelay hpast hzero
    have hrest := ih (k + 1) (processSample d (hist k)).2
      (fun i hi => by
        have := hxs (i + 1) (Nat.succ_lt_succ hi)
        rw [List.getD_cons_succ] at this
        rw [this]
        congr 1
        omega)
      h2 h3 h4 h5 h6
    refine ⟨by simp only [process, List.length_cons, hrest.1], fun i hi => ?_⟩
    cases i with
    | zero =>
      simp only [process, List.getElem?_cons_zero, Nat.add_zero, h1]
    | succ i =>
      simp only [process, List.getElem?_cons_succ]
      rw [hrest.2 i (Nat.lt_of_succ_lt_succ hi)]
      have e : k + 1 + i = k + (i + 1) := by omega
      rw [e]

/-- The delay line after `prepare`, when `maxDelay + 1` fits a `size_t`: a buffer of
`maxDelay + 1` zeros, the write cursor at 0, the configured delay as it was before. -/
theorem prepare_eq (d0 : DelayLine α) (maxDelay : Nat) (h : maxDelay + 1 < sizeModulus) :
    prepare d0 maxDelay =
      { buffer_ := List.replicate (maxDelay + 1) (fin 0), writeIndex_ := 0,
        delay_ := d0.delay_, maxDelay_ := maxDelay } := by
  have hlen : (resize d0.buffer_ (maxDelay + 1) (fin 0 : FloatX α)).length = maxDelay + 1 := by
    simp only [resize, List.length_replicate, List.length_append, List.length_take]
    omega
  simp only [prepare, reset, Nat.mod_eq_of_lt h, hlen]

/-- C19: on a delay line freshly prepared with `maxDelay` and set to the delay
`d <= maxDelay`, feeding any input sequence `x` through `processSample` gives at every
index `i` the output `x[i - d]` when `i >= d` and `0` when `i < d`, for sequences of any
length.  (A `std::vector<float>` of `maxDelay + 1` elements exists, so twice that length
fits a `size_t`.) -/
theorem process_delayed (d0 : DelayLine α) (maxDelay d : Nat) (hd : d ≤ maxDelay)
    (hcap : 2 * (maxDelay + 1) ≤ sizeModulus) (x : List (FloatX α)) (i : Nat)
    (hi : i < x.length) :
    (process (setDelay (prepare d0 maxDelay) d) x).1.length = x.length ∧
      (process (setDelay (prepare d0 maxDelay) d) x).1[i]? =
        some (if d ≤ i then x.getD (i - d) (fin 0) else fin 0) := by
  have hprep := prepare_eq d0 maxDelay (by omega)
  have hbuf : (setDelay (prepare d0 maxDelay) d).buffer_
      = List.replicate (maxDelay + 1) (fin 0) := by
    rw [hprep]
    rfl
  have hlen : (setDelay (prepare d0 maxDelay) d).buffer_.length = maxDelay + 1 := by
    rw [hbuf, List.length_replicate]
  have h := process_history (maxDelay + 1) d (by omega) hcap (fun t => x.getD t (fin 0)) x 0
    (setDelay (prepare d0 maxDelay) d) (fun j _ => by simp) hlen rfl
    (by rw [hprep]; simp [setDelay, hd])
    (fun t ht _ => absurd ht (Nat.not_lt_zero t))
    (fun j _ _ => by rw [hbuf]; exact getD_replicate_same _ _ _)
  refine ⟨h.1, ?_⟩
  have h2 := h.2 i hi
  simpa using h2

/-- Witness of C19: maximum delay 2, delay 1, on seven samples (the buffer of three
entries wraps twice); the output at index 4 is the input at index 3. -/
theorem process_delayed_witness :
    (process (setDelay (prepare ({} : DelayLine ℚ) 2) 1)
        [fin 1, fin 2, fin 3, fin 4, fin 5, fin 6, fin 7]).1[4]? = some (fin 4) :=
  (process_delayed ({} : DelayLine ℚ) 2 1 (by decide) (by decide)
    [fin 1, fin 2, fin 3, fin 4, fin 5, fin 6, fin 7] 4 (by decide)).2

/-- C20: for every requested `n`, `setDelay(n)` leaves the configured delay equal to
`min(n, maxDelay)` and changes neither the buffer, the write cursor nor `maxDelay`. -/
theorem setDelay_clamps {β : Type} (d : DelayLine β) (n : Nat) :
    (setDelay d n).delay_ = min n d.maxDelay_ ∧ (setDelay d n).buffer_ = d.buffer_ ∧
      (setDelay d n).writeIndex_ = d.writeIndex_ ∧ (setDelay d n).maxDelay_ = d.maxDelay_ :=
  ⟨rfl, rfl, rfl, rfl⟩

end DelayLine

/-! ## Lists -/

/-- Two lists of one length with the same entries are equal. -/
theorem ext_getD {β : Type} (d : β) (l1 l2 : List β) (hlen : l1.length = l2.length)
    (h : ∀ i, i < l1.length → l1.getD i d = l2.getD i d) : l1 = l2 := by
  apply List.ext_getElem hlen
  intro i h1 h2
  have h3 := h i h1
  rwa [List.getD_eq_getElem _ _ h1, List.getD_eq_getElem _ _ h2] at h3

/-! ## Linked mode in `processCompression` -/

namespace BroadbandCompressorAudioProcessor

variable {σ : Type}

/-- With finite gains, the input-gain loop maps a channel of finite samples to a channel
of finite samples of the same length. -/
theorem applyInputGain_fin (J : SmoothedValueOps σ α)
    (hgain : ∀ s : σ, IsFinite (J.getNextValue s).1) (xs : List α) (s : σ)
    (maxInputLevel : FloatX α) :
    ∃ ys : List α, (applyInputGain J (xs.map fin) s maxInputLevel).1 = ys.map fin ∧
      ys.length = xs.length := by
  induction xs generalizing s maxInputLevel with
  | nil => exact ⟨[], rfl, rfl⟩
  | cons x xs ih =>
    have hg := hgain s
    cases hv : (J.getNextValue s).1 with
    | nan => rw [hv] at hg; exact absurd hg (by simp [IsFinite])
    | negInf => rw [hv] at hg; exact absurd hg (by simp [IsFinite])
    | posInf => rw [hv] at hg; exact absurd hg (by simp [IsFinite])
    | fin g =>
      obtain ⟨ys, h1, h2⟩ := ih (J.getNextValue s).2
        (if fabs (fin x * (J.getNextValue s).1) > maxInputLevel
          then fabs (fin x * (J.getNextValue s).1) else maxInputLevel)
      refine ⟨x * g :: ys, ?_, by simp [h2]⟩
      simp only [List.map_cons, applyInputGain]
      rw [h1, hv, fin_mul_fin]

/-- With finite gains, the input-gain loops map channels of `n` finite samples to as many
channels of `n` finite samples. -/
theorem inputGainPass_fin (J : SmoothedValueOps σ α)
    (hgain : ∀ s : σ, IsFinite (J.getNextValue s).1) (n : Nat) (chans : List (List α))
    (hn : ∀ c ∈ chans, c.length = n) (s : σ) (maxInputLevel : FloatX α) :
    ∃ post : List (List α),
      inputGainPass J (chans.map (List.map fin)) s maxInputLevel = post.map (List.map fin) ∧
      post.length = chans.length ∧ ∀ q ∈ post, q.length = n := by
  induction chans generalizing s maxInputLevel with
  | nil => exact ⟨[], rfl, rfl, fun q hq => absurd hq (List.not_mem_nil q)⟩
  | cons c chans ih =>
    obtain ⟨ys, h1, h2⟩ := applyInputGain_fin J hgain c s maxInputLevel
    obtain ⟨post, h3, h4, h5⟩ := ih (fun c2 hc2 => hn c2 (List.mem_cons_of_mem c hc2))
      (applyInputGain J (c.map fin) s maxInputLevel).2.1
      (applyInputGain J (c.map fin) s maxInputLevel).2.2
    refine ⟨ys :: post, ?_, by simp [h4], fun q hq => ?_⟩
    · simp only [List.map_cons, inputGainPass]
      rw [h1, h3]
    · rcases List.mem_cons.mp hq with rfl | hq
      · rw [h2]
        exact hn c (List.mem_cons_self c chans)
      · exact h5 q hq

/-- The entry `n` of a list from what the list holds from `n` on. -/
theorem getD_of_drop {β : Type} (l : List β) (n : Nat) (a d : β) (t : List β)
    (h : l.drop n = a :: t) : l.getD n d = a := by
  have h1 : l[n]? = some a := by
    rw [← List.head?_drop, h]
    rfl
  simp [List.getD_eq_getElem?_getD, h1]

/-- Phase 1 in linked mode: the channels it leaves are those of the input-gain loops, and
the shared buffer it leaves is that of the calls of `estimateLevelLinked` on these
channels, each with its own state. -/
theorem phase1_linked (J : SmoothedValueOps σ α) (le : LevelEstimator α)
    (channels : List (List (FloatX α))) (S : List (LevelEstimator.State α)) (ch : Nat)
    (levelStates : List (LevelEstimator.State α)) (levelData : List (FloatX α)) (s : σ)
    (maxInputLevel : FloatX α) (hdrop : levelStates.drop ch = S)
    (hS : channels.length ≤ S.length) :
    (phase1 J le true ch channels levelStates levelData s maxInputLevel).levelData =
        linkedLevelPass le ch ((inputGainPass J channels s maxInputLevel).zip S) levelData ∧
      (phase1 J le true ch channels levelStates levelData s maxInputLevel).channels =
        inputGainPass J channels s maxInputLevel := by
  induction channels generalizing S ch levelStates levelData s maxInputLevel with
  | nil => exact ⟨rfl, rfl⟩
  | cons c channels ih =>
    cases S with
    | nil => simp at hS
    | cons st S =>
      have hst : levelStates.getD ch {} = st := getD_of_drop levelStates ch st {} S hdrop
      have hS2 : channels.length ≤ S.length := by simpa using hS
      have hdrop2 : ∀ x : LevelEstimator.State α, (levelStates.set ch x).drop (ch + 1) = S := by
        intro x
        rw [List.drop_set_of_lt _ _ (Nat.lt_succ_self ch), ← List.tail_drop, hdrop]
        rfl
      simp only [phase1, if_true, hst, inputGainPass, List.zip_cons_cons, linkedLevelPass]
      constructor
      · exact (ih S (ch + 1) _ _ _ _ (hdrop2 _) hS2).1
      · congr 1
        exact (ih S (ch + 1) _ _ _ _ (hdrop2 _) hS2).2

/-- The values of `gainDb` in the sample loop of phase 2: the gain of the curve at each of
the first `numSamples` shared levels. -/
theorem compressChannel_gainDb (m : CMath α) (J : SmoothedValueOps σ α)
    (curve : CompressionCurve α) (channelData levelData : List (FloatX α))
    (delayLine : DelayLine α) (s : σ) (maxGainReduction maxOutputLevel : FloatX α)
    (hlen : channelData.length ≤ levelData.length) :
    (compressChannel m J curve levelData channelData delayLine s maxGainReduction
        maxOutputLevel).gainDb =
      (levelData.take channelData.length).map
        (fun level => curve.calculateCompressionGainDb (mag2Db m level)) := by
  induction channelData generalizing levelData delayLine s maxGainReduction
      maxOutputLevel with
  | nil => cases levelData <;> rfl
  | cons x channelData ih =>
    cases levelData with
    | nil => simp at hlen
    | cons level levelData =>
      have hlen2 : channelData.length ≤ levelData.length := by simpa using hlen
      simp only [compressChannel, List.length_cons, List.take_succ_cons, List.map_cons]
      rw [ih _ _ _ _ _ hlen2]

/-- Phase 2 in linked mode: the shared buffer is not written, and every channel gets the
gains of the curve at the shared levels. -/
theorem phase2_linked (m : CMath α) (J : SmoothedValueOps σ α) (le : LevelEstimator α)
    (curve : CompressionCurve α) (channels : List (List (FloatX α))) (ch : Nat)
    (levelStates : List (LevelEstimator.State α)) (levelData : List (FloatX α))
    (delayLines : List (DelayLine α)) (s : σ) (maxGainReduction maxOutputLevel : FloatX α)
    (hlen : ∀ c ∈ channels, c.length ≤ levelData.length) :
    (phase2 m J le curve true ch channels levelStates levelData delayLines s
        maxGainReduction maxOutputLevel).gainDb =
      channels.map (fun c => (levelData.take c.length).map
        (fun level => curve.calculateCompressionGainDb (mag2Db m level))) ∧
    (phase2 m J le curve true ch channels levelStates levelData delayLines s
        maxGainReduction maxOutputLevel).levelData = levelData := by
  induction channels generalizing ch levelStates delayLines s maxGainReduction
      maxOutputLevel with
  | nil => exact ⟨rfl, rfl⟩
  | cons c channels ih =>
    have hc := hlen c (List.mem_cons_self c channels)
    have h := fun ch2 ls dls s2 g o =>
      ih ch2 ls dls s2 g o (fun c2 hc2 => hlen c2 (List.mem_cons_of_mem c hc2))
    simp only [phase2, Bool.not_true, Bool.false_and, Bool.false_eq_true, if_false,
      List.map_cons]
    rw [compressChannel_gainDb m J curve c levelData _ _ _ _ hc]
    constructor
    · congr 1
      exact (h _ _ _ _ _ _).1
    · exact (h _ _ _ _ _ _).2

end BroadbandCompressorAudioProcessor

/-! ## The knee region and monotonicity of the static curve -/

namespace CompressionCurve

/-- C24, amended: over the reals (every operation exact), with a real threshold `t` and a
real knee width `k`, for every finite input `x` strictly inside the knee,
`2 * |x - t| < k` (so `k > 0`), and `T = x - t + k/2`, the gain is
`(1/ratio - 1) * T^2 / (2 * k)` for a finite ratio `>= 1` and `-T^2 / (2 * k)` in limiting
mode; with `k = 0` the test of the knee branch fails for every input, so the division by
`2 * k` is never evaluated. -/
theorem gain_in_knee (c : CompressionCurve α) (t k : α)
    (ht : c.thresholdDb_ = fin t) (hk : c.kneeWidthDb_ = fin k) :
    (∀ x : α, 2 * |x - t| < k →
      (∀ r : α, 1 ≤ r → c.compressionRatio_ = fin r →
        calculateCompressionGainDb c (fin x) =
          fin ((1 / r - 1) * (x - t + k / 2) ^ 2 / (2 * k))) ∧
      (c.compressionRatio_ = positiveInfinity →
        calculateCompressionGainDb c (fin x) = fin (-(x - t + k / 2) ^ 2 / (2 * k)))) ∧
    (k = 0 → ∀ x : FloatX α, ¬ (fin 2 * fabs (x - c.thresholdDb_) < c.kneeWidthDb_)) := by
  refine ⟨fun x hx => ⟨fun r hr1 hr => ?_, fun hr => ?_⟩, fun hk0 x => ?_⟩
  · have hr0 : r ≠ 0 := by positivity
    have h1 : ¬ 2 * (x - t) ≤ -k := by
      have := neg_abs_le (x - t)
      intro h
      linarith
    rw [gain_fin_of_ratio_fin c t k r x ht hk hr hr0, if_neg h1, if_pos hx]
    congr 1
    ring
  · have h1 : ¬ 2 * (x - t) ≤ -k := by
      have := neg_abs_le (x - t)
      intro h
      linarith
    rw [gain_fin_of_limiting c t k x ht hk hr, if_neg h1, if_pos hx]
    congr 1
    ring
  · rw [ht, hk, hk0]
    cases x with
    | nan => exact not_nan_lt _
    | negInf =>
      show ¬ (signedInf (2 : α) < fin 0)
      rw [signedInf, if_pos two_pos]
      exact fun h => Bool.false_ne_true h
    | posInf =>
      show ¬ (signedInf (2 : α) < fin 0)
      rw [signedInf, if_pos two_pos]
      exact fun h => Bool.false_ne_true h
    | fin x =>
      rw [fin_sub_fin, fabs_fin, fin_mul_fin, fin_lt_fin]
      have := abs_nonneg (x - t)
      intro h
      linarith

/-- Witness of C24: threshold -20 dB, knee 10 dB, ratio 4, input -20 dB (the middle of
the knee): the gain is `(1/4 - 1) * 5^2 / 20`. -/
theorem gain_in_knee_witness :
    calculateCompressionGainDb
        ({ thresholdDb_ := fin (-20), kneeWidthDb_ := fin 10, compressionRatio_ := fin 4 } :
          CompressionCurve ℚ) (fin (-20)) =
      fin ((1 / 4 - 1) * (-20 - -20 + 10 / 2) ^ 2 / (2 * 10)) :=
  ((gain_in_knee
    ({ thresholdDb_ := fin (-20), kneeWidthDb_ := fin 10, compressionRatio_ := fin 4 } :
      CompressionCurve ℚ) (-20) 10 rfl rfl).1 (-20) (by norm_num)).1 4 (by norm_num) rfl

end CompressionCurve

/-! ## The delay line under changes of the delay -/

namespace DelayLine

/-- One call of `processSample` at time `k`, whatever the configured delay: the delay line
holds the history up to `k`, and the delay and the maximum delay are as before. -/
theorem processSample_buffer (N : Nat) (hN : 0 < N) (hist : Nat → FloatX α) (k : Nat)
    (d : DelayLine α) (hlen : d.buffer_.length = N) (hw : d.writeIndex_ = k % N)
    (hpast : ∀ t, t < k → k ≤ t + N → d.buffer_.getD (t % N) (fin 0) = hist t)
    (hzero : ∀ j, k ≤ j → j < N → d.buffer_.getD j (fin 0) = fin 0) :
    (processSample d (hist k)).2.buffer_.length = N ∧
      (processSample d (hist k)).2.writeIndex_ = (k + 1) % N ∧
      (∀ t, t < k + 1 → k + 1 ≤ t + N →
        (processSample d (hist k)).2.buffer_.getD (t % N) (fin 0) = hist t) ∧
      (∀ j, k + 1 ≤ j → j < N →
        (processSample d (hist k)).2.buffer_.getD j (fin 0) = fin 0) := by
  have hwlt : k % N < N := Nat.mod_lt _ hN
  have hsetlen : (d.buffer_.set d.writeIndex_ (hist k)).length = N := by
    rw [List.length_set, hlen]
  refine ⟨hsetlen, ?_, ?_, ?_⟩
  · show (d.writeIndex_ + 1) % (d.buffer_.set d.writeIndex_ (hist k)).length = (k + 1) % N
    rw [hsetlen, hw, Nat.mod_add_mod]
  · intro t ht1 ht2
    show (d.buffer_.set d.writeIndex_ (hist k)).getD (t % N) (fin 0) = hist t
    rw [hw]
    by_cases htk : t = k
    · subst htk
      exact getD_set_same _ _ _ _ (by rw [hlen]; exact hwlt)
    · rw [getD_set_other _ _ _ _ _
        (Ne.symm (mod_ne_of_lt_of_lt t k N (by omega) (by omega)))]
      exact hpast t (by omega) (by omega)
  · intro j hj1 hj2
    show (d.buffer_.set d.writeIndex_ (hist k)).getD j (fin 0) = fin 0
    rw [hw, Nat.mod_eq_of_lt (by omega : k < N), getD_set_other _ _ _ _ _ (by omega)]
    exact hzero j (by omega) hj2

/-- A sequence of `setDelay` and `processSample` calls from time `k0` on, on a delay line
that holds the history up to `k0`: the call of time `k0 + i`, made with a delay `delay`
below the buffer length, returns the sample of time `k0 + i - delay`, or `0` before that. -/
theorem calls_history (N : Nat) (hN : 0 < N) (hcap : 2 * N ≤ sizeModulus)
    (hist : Nat → FloatX α) (cs : List (Call α)) (k0 : Nat) (d : DelayLine α)
    (hlen : d.buffer_.length = N) (hw : d.writeIndex_ = k0 % N)
    (hpast : ∀ t, t < k0 → k0 ≤ t + N → d.buffer_.getD (t % N) (fin 0) = hist t)
    (hzero : ∀ j, k0 ≤ j → j < N → d.buffer_.getD j (fin 0) = fin 0)
    (hin : ∀ i r, (calls d cs).1[i]? = some r → r.input = hist (k0 + i)) :
    ∀ i r, (calls d cs).1[i]? = some r → r.delay < N →
      r.output = if r.delay ≤ k0 + i then hist (k0 + i - r.delay) else fin 0 := by
  induction cs generalizing k0 d with
  | nil =>
    intro i r hr
    simp [calls] at hr
  | cons c cs ih =>
    cases c with
    | setDelay n =>
      exact ih k0 (setDelay d n) hlen hw hpast hzero hin
    | processSample x =>
      have hx : x = hist k0 :=
        hin 0 ⟨d.delay_, x, (processSample d x).1⟩ (by simp only [calls, List.getElem?_cons_zero])
      subst hx
      obtain ⟨h2, h3, h5, h6⟩ := processSample_buffer N hN hist k0 d hlen hw hpast hzero
      intro i r hr hdN
      cases i with
      | zero =>
        have hr2 : r = ⟨d.delay_, hist k0, (processSample d (hist k0)).1⟩ := by
          simp only [calls, List.getElem?_cons_zero, Option.some.injEq] at hr
          exact hr.symm
        subst hr2
        exact (processSample_history N d.delay_ hdN hcap hist k0 d hlen hw rfl hpast hzero).1
      | succ i =>
        have hr2 : (calls (processSample d (hist k0)).2 cs).1[i]? = some r := by
          simpa only [calls, List.getElem?_cons_succ] using hr
        have h := ih (k0 + 1) (processSample d (hist k0)).2 h2 h3 h5 h6
          (fun j q hq => by
            have := hin (j + 1) q (by simpa only [calls, List.getElem?_cons_succ] using hq)
            rw [this]
            congr 1
            omega)
          i r hr2 hdN
        have e : k0 + 1 + i = k0 + (i + 1) := by omega
        rw [e] at h
        exact h

/-- In a sequence of `setDelay` and `processSample` calls on a delay line whose delay is
within its maximum, every `processSample` call is made with a delay within the maximum. -/
theorem calls_delay_le (M : Nat) (cs : List (Call α)) (d : DelayLine α)
    (hM : d.maxDelay_ = M) (hd : d.delay_ ≤ M) : ∀ r ∈ (calls d cs).1, r.delay ≤ M := by
  induction cs generalizing d with
  | nil =>
    intro r hr
    simp [calls] at hr
  | cons c cs ih =>
    cases c with
    | setDelay n =>
      exact ih (setDelay d n) hM (by
        show min n d.maxDelay_ ≤ M
        rw [hM]
        exact Nat.min_le_right n M)
    | processSample x =>
      intro r hr
      simp only [calls, List.mem_cons] at hr
      rcases hr with rfl | hr
      · exact hd
      · exact ih (processSample d x).2 hM hd r hr

end DelayLine

namespace DelayLine

/-- C25: on a delay line prepared with `maxDelay`, for any interleaving of `setDelay` and
`processSample` calls, the `k`-th `processSample` call (0-based), made while the delay
`d <= maxDelay` is in force, returns the input of the `processSample` call `k - d` when
`k >= d` and `0` otherwise, whichever delays were in force before; and when the delay
set before `prepare` is within `maxDelay`, every call is made with a delay within
`maxDelay`.  (A `std::vector<float>` of `maxDelay + 1` elements exists, so twice that
length fits a `size_t`.) -/
theorem calls_delayed (d0 : DelayLine α) (maxDelay : Nat)
    (hcap : 2 * (maxDelay + 1) ≤ sizeModulus) (cs : List (Call α)) :
    (∀ k r, (calls (prepare d0 maxDelay) cs).1[k]? = some r → r.delay ≤ maxDelay →
      r.output =
        if r.delay ≤ k then
          ((calls (prepare d0 maxDelay) cs).1.map SampleRecord.input).getD (k - r.delay) (fin 0)
        else fin 0) ∧
    (d0.delay_ ≤ maxDelay → ∀ r ∈ (calls (prepare d0 maxDelay) cs).1, r.delay ≤ maxDelay) := by
  have hprep := prepare_eq d0 maxDelay (by omega)
  constructor
  · intro k r hr hd
    have hbuf : (prepare d0 maxDelay).buffer_ = List.replicate (maxDelay + 1) (fin 0) := by
      rw [hprep]
    have h := calls_history (maxDelay + 1) (Nat.succ_pos _) hcap
      (fun t => ((calls (prepare d0 maxDelay) cs).1.map SampleRecord.input).getD t (fin 0))
      cs 0 (prepare d0 maxDelay) (by rw [hbuf, List.length_replicate]) (by rw [hprep]; rfl)
      (fun t ht _ => absurd ht (Nat.not_lt_zero t))
      (fun j _ _ => by rw [hbuf]; exact getD_replicate_same _ _ _)
      (fun i q hq => by
        simp only [Nat.zero_add, List.getD_eq_getElem?_getD, List.getElem?_map, hq,
          Option.map_some', Option.getD_some])
      k r hr (by omega)
    simpa only [Nat.zero_add] using h
  · intro hd0
    exact calls_delay_le maxDelay cs (prepare d0 maxDelay) (by rw [hprep]) (by rw [hprep]; exact hd0)

/-- Witness of C25: maximum delay 2; the delay is 1 for two samples, then 2 for two
samples, then 0.  The call 3, made with the delay 2, returns the input of the call 1. -/
theorem calls_delayed_witness :
    (calls (prepare ({} : DelayLine ℚ) 2)
      [Call.setDelay 1, Call.processSample (fin 1), Call.processSample (fin 2),
        Call.setDelay 2, Call.processSample (fin 3), Call.processSample (fin 4),
        Call.setDelay 0, Call.processSample (fin 5)]).1.map SampleRecord.output =
      [fin 0, fin 1, fin 1, fin 2, fin 5] ∧
    (⟨2, fin 4, fin 2⟩ : SampleRecord ℚ).output =
      if (⟨2, fin 4, fin 2⟩ : SampleRecord ℚ).delay ≤ 3 then
        ((calls (prepare ({} : DelayLine ℚ) 2)
          [Call.setDelay 1, Call.processSample (fin 1), Call.processSample (fin 2),
            Call.setDelay 2, Call.processSample (fin 3), Call.processSample (fin 4),
            Call.setDelay 0, Call.processSample (fin 5)]).1.map SampleRecord.input).getD
          (3 - (⟨2, fin 4, fin 2⟩ : SampleRecord ℚ).delay) (fin 0)
      else fin 0 :=
  ⟨by decide, (calls_delayed ({} : DelayLine ℚ) 2 (by decide)
    [Call.setDelay 1, Call.processSample (fin 1), Call.processSample (fin 2),
      Call.setDelay 2, Call.processSample (fin 3), Call.processSample (fin 4),
      Call.setDelay 0, Call.processSample (fin 5)]).1 3 ⟨2, fin 4, fin 2⟩ rfl
    (by decide)⟩

/-- C21, the code on the failing input: a delay line constructed with the maximum delay
10 and set to the delay 5, then prepared again with the maximum delay 2, keeps the
configured delay 5 above the maximum delay 2 (the buffer has 3 elements): `prepare` does
not clamp the delay as `setDelay` does. -/
theorem prepare_keeps_delay :
    (prepare (setDelay (construct 10 : DelayLine ℚ) 5) 2).delay_ = 5 ∧
      (prepare (setDelay (construct 10 : DelayLine ℚ) 5) 2).maxDelay_ = 2 ∧
      (prepare (setDelay (construct 10 : DelayLine ℚ) 5) 2).buffer_.length = 3 := by
  decide

/-- C30, the code on the failing input: on the delay line constructed with the maximum
delay 10, set to the delay 5 and prepared again with the maximum delay 2, the first
`processSample` call computes `writeIndex_ + size - delay_ = 0 + 3 - 5`, which is below
zero and wraps to `2^64 - 2`; the read index is `2`, and the outputs on the inputs
1, 2, 3, 4, 5, 6 are 0, 1, 1, 3, 4, 4, neither the inputs delayed by 5 nor by 2. -/
theorem readIndex_wraps :
    (prepare (setDelay (construct 10 : DelayLine ℚ) 5) 2).writeIndex_ +
        (prepare (setDelay (construct 10 : DelayLine ℚ) 5) 2).buffer_.length <
      (prepare (setDelay (construct 10 : DelayLine ℚ) 5) 2).delay_ ∧
    readIndex (prepare (setDelay (construct 10 : DelayLine ℚ) 5) 2) = 2 ∧
    (process (prepare (setDelay (construct 10 : DelayLine ℚ) 5) 2)
        [fin 1, fin 2, fin 3, fin 4, fin 5, fin 6]).1 =
      [fin 0, fin 1, fin 1, fin 3, fin 4, fin 4] := by
  decide

end DelayLine

/-! ## Bypass in `processBlock` -/

namespace BroadbandCompressorAudioProcessor

variable {σ : Type}

/-- The loop that clears the extra output channels keeps the number of channels and every
channel below `totalNumInputChannels`. -/
theorem clearExtraChannels_input (totalIn totalOut numSamples : Nat)
    (channels : List (List (FloatX α))) (i : Nat) :
    (clearExtraChannels totalIn totalOut numSamples i channels).length = channels.length ∧
      ∀ ch, i + ch < totalIn →
        (clearExtraChannels totalIn totalOut numSamples i channels)[ch]? = channels[ch]? := by
  induction channels generalizing i with
  | nil => exact ⟨rfl, fun ch _ => rfl⟩
  | cons c channels ih =>
    refine ⟨by simp only [clearExtraChannels, List.length_cons, (ih (i + 1)).1], fun ch hch => ?_⟩
    cases ch with
    | zero =>
      have hi : ¬ (totalIn ≤ i ∧ i < totalOut) := fun h => by omega
      simp only [clearExtraChannels, if_neg hi, List.getElem?_cons_zero]
    | succ ch =>
      simp only [clearExtraChannels, List.getElem?_cons_succ]
      exact (ih (i + 1)).2 ch (by omega)

/-- In bypass `processBlock` returns after the extra output channels are cleared and the
gain-reduction meter is set to 0. -/
theorem processBlock_of_bypass [FloorRing α] (m : CMath α) (J : SmoothedValueOps σ α)
    (p : BroadbandCompressorAudioProcessor σ α) (buffer : AudioBuffer α)
    (hbypass : p.bypassParam_ > fin (1 / 2)) :
    processBlock m J p buffer =
      { buffer :=
          { buffer with
            channels := clearExtraChannels p.totalNumInputChannels p.totalNumOutputChannels
              buffer.numSamples 0 buffer.channels }
        processor := { p with currentGainReductionDb_ := fin 0 }
        gainDb := [] } := by
  simp only [processBlock, if_pos hbypass]

/-- C22: when the bypass parameter is active (`> 0.5`), `processBlock` leaves every input
channel of the buffer (the channels below `totalNumInputChannels`) exactly as it was, with
the same number of channels and samples, and the published gain reduction is 0, for every
buffer and every setting of the other parameters. -/
theorem processBlock_bypass [FloorRing α] (m : CMath α) (J : SmoothedValueOps σ α)
    (p : BroadbandCompressorAudioProcessor σ α) (buffer : AudioBuffer α)
    (hbypass : p.bypassParam_ > fin (1 / 2)) :
    (∀ ch, ch < p.totalNumInputChannels →
      (processBlock m J p buffer).buffer.channels[ch]? = buffer.channels[ch]?) ∧
    (processBlock m J p buffer).buffer.channels.length = buffer.channels.length ∧
    (processBlock m J p buffer).buffer.numSamples = buffer.numSamples ∧
    (processBlock m J p buffer).processor.currentGainReductionDb_ = fin 0 := by
  rw [processBlock_of_bypass m J p buffer hbypass]
  have h := clearExtraChannels_input p.totalNumInputChannels p.totalNumOutputChannels
    buffer.numSamples buffer.channels 0
  exact ⟨fun ch hch => h.2 ch (by omega), h.1, rfl, rfl⟩

/-- Witness of C22: a bypassed stereo block of two samples a channel, after a block that
published the gain reduction -6 dB. -/
theorem processBlock_bypass_witness :
    (processBlock realMath
        (SmoothedValueOps.mk (fun _ : Unit => (fin 1, ())) (fun _ _ => ()))
        ({ linkedParam_ := fin 0, bypassParam_ := fin 1, inputGainParam_ := fin 6,
           thresholdParam_ := fin (-20), ratioParam_ := fin 4, kneeWidthParam_ := fin 0,
           outputGainParam_ := fin 0, attackTimeParam_ := fin 0, releaseTimeParam_ := fin 100,
           holdTimeParam_ := fin 0, lookaheadTimeParam_ := fin 10,
           delayLines_ := [DelayLine.prepare {} 5760, DelayLine.prepare {} 5760],
           levelStates_ := [{}, {}], currentGainReductionDb_ := fin (-6),
           inputGainSmoothed_ := (), outputGainSmoothed_ := () } :
          BroadbandCompressorAudioProcessor Unit ℝ)
        { numSamples := 2, channels := [[fin 1, fin 2], [fin 3, fin 4]] }).buffer.channels[1]?
      = some [fin 3, fin 4] :=
  (processBlock_bypass realMath
    (SmoothedValueOps.mk (fun _ : Unit => (fin 1, ())) (fun _ _ => ()))
    ({ linkedParam_ := fin 0, bypassParam_ := fin 1, inputGainParam_ := fin 6,
       thresholdParam_ := fin (-20), ratioParam_ := fin 4, kneeWidthParam_ := fin 0,
       outputGainParam_ := fin 0, attackTimeParam_ := fin 0, releaseTimeParam_ := fin 100,
       holdTimeParam_ := fin 0, lookaheadTimeParam_ := fin 10,
       delayLines_ := [DelayLine.prepare {} 5760, DelayLine.prepare {} 5760],
       levelStates_ := [{}, {}], currentGainReductionDb_ := fin (-6),
       inputGainSmoothed_ := (), outputGainSmoothed_ := () } :
      BroadbandCompressorAudioProcessor Unit ℝ)
    { numSamples := 2, channels := [[fin 1, fin 2], [fin 3, fin 4]] }
    (by show (fin (1 / 2) : FloatX ℝ) < fin 1; rw [fin_lt_fin]; norm_num)).1 1 (by decide)

/-- When not bypassed, `processBlock` reports the latency
`lookaheadTime * sampleRate / 1000`, converted to `int`. -/
theorem processBlock_latency [FloorRing α] (m : CMath α) (J : SmoothedValueOps σ α)
    (p : BroadbandCompressorAudioProcessor σ α) (buffer : AudioBuffer α)
    (hbypass : ¬ (p.bypassParam_ > fin (1 / 2))) :
    (processBlock m J p buffer).processor.latencySamples =
      toInt (p.lookaheadTimeParam_ * p.currentSampleRate_ / fin 1000) := by
  simp only [processBlock, if_neg hbypass, processCompression]
  split_ifs <;> rfl

/-- C23, counterexample: two blocks with the lookahead 10 ms at 44100 Hz.  The first block
is not bypassed and reports the latency 441 samples; then the bypass parameter is switched
on, and after the second, bypassed block the reported latency is still 441, not 0. -/
theorem bypass_latency_ne_zero :
    (processBlock realMath
        (SmoothedValueOps.mk (fun _ : Unit => (fin 1, ())) (fun _ _ => ()))
        { (processBlock realMath
            (SmoothedValueOps.mk (fun _ : Unit => (fin 1, ())) (fun _ _ => ()))
            ({ linkedParam_ := fin 0, bypassParam_ := fin 0, inputGainParam_ := fin 0,
               thresholdParam_ := fin (-20), ratioParam_ := fin 4, kneeWidthParam_ := fin 0,
               outputGainParam_ := fin 0, attackTimeParam_ := fin 0,
               releaseTimeParam_ := fin 100, holdTimeParam_ := fin 0,
               lookaheadTimeParam_ := fin 10,
               delayLines_ := [DelayLine.prepare {} 5760, DelayLine.prepare {} 5760],
               levelStates_ := [{}, {}],
               inputGainSmoothed_ := (), outputGainSmoothed_ := () } :
              BroadbandCompressorAudioProcessor Unit ℝ)
            { numSamples := 2, channels := [[fin 1, fin 2], [fin 3, fin 4]] }).processor with
          bypassParam_ := fin 1 }
        { numSamples := 2, channels := [[fin 1, fin 2], [fin 3, fin 4]] }).processor.latencySamples
      ≠ 0 := by
  rw [processBlock_of_bypass _ _ _ _
    (by show (fin (1 / 2) : FloatX ℝ) < fin 1; rw [fin_lt_fin]; norm_num)]
  show (processBlock realMath _ _ _).processor.latencySamples ≠ 0
  rw [processBlock_latency _ _ _ _
    (by show ¬ ((fin (1 / 2) : FloatX ℝ) < fin 0); rw [fin_lt_fin]; norm_num)]
  show toInt (fin 10 * fin 44100 / fin 1000 : FloatX ℝ) ≠ 0
  rw [fin_mul_fin, fin_div_fin _ (by norm_num)]
  have e : (10 * 44100 / 1000 : ℝ) = ((441 : ℤ) : ℝ) := by norm_num
  simp only [toInt, e, Int.floor_intCast]
  norm_num

/-- C23, amended: when the bypass parameter is active, `processBlock` does not report a
latency: the latency of the processor stays what it was before the call, whatever the
lookahead setting. -/
theorem bypass_keeps_latency [FloorRing α] (m : CMath α) (J : SmoothedValueOps σ α)
    (p : BroadbandCompressorAudioProcessor σ α) (buffer : AudioBuffer α)
    (hbypass : p.bypassParam_ > fin (1 / 2)) :
    (processBlock m J p buffer).processor.latencySamples = p.latencySamples := by
  rw [processBlock_of_bypass m J p buffer hbypass]

/-- Witness of C23 (amended): the bypassed block after a block that reported 441 samples. -/
theorem bypass_keeps_latency_witness :
    (processBlock realMath
        (SmoothedValueOps.mk (fun _ : Unit => (fin 1, ())) (fun _ _ => ()))
        ({ linkedParam_ := fin 0, bypassParam_ := fin 1, inputGainParam_ := fin 0,
           thresholdParam_ := fin (-20), ratioParam_ := fin 4, kneeWidthParam_ := fin 0,
           outputGainParam_ := fin 0, attackTimeParam_ := fin 0, releaseTimeParam_ := fin 100,
           holdTimeParam_ := fin 0, lookaheadTimeParam_ := fin 10,
           delayLines_ := [DelayLine.prepare {} 5760, DelayLine.prepare {} 5760],
           levelStates_ := [{}, {}], latencySamples := 441,
           inputGainSmoothed_ := (), outputGainSmoothed_ := () } :
          BroadbandCompressorAudioProcessor Unit ℝ)
        { numSamples := 2, channels := [[fin 1, fin 2], [fin 3, fin 4]] }).processor.latencySamples
      = 441 :=
  bypass_keeps_latency realMath
    (SmoothedValueOps.mk (fun _ : Unit => (fin 1, ())) (fun _ _ => ()))
    ({ linkedParam_ := fin 0, bypassParam_ := fin 1, inputGainParam_ := fin 0,
       thresholdParam_ := fin (-20), ratioParam_ := fin 4, kneeWidthParam_ := fin 0,
       outputGainParam_ := fin 0, attackTimeParam_ := fin 0, releaseTimeParam_ := fin 100,
       holdTimeParam_ := fin 0, lookaheadTimeParam_ := fin 10,
       delayLines_ := [DelayLine.prepare {} 5760, DelayLine.prepare {} 5760],
       levelStates_ := [{}, {}], latencySamples := 441,
       inputGainSmoothed_ := (), outputGainSmoothed_ := () } :
      BroadbandCompressorAudioProcessor Unit ℝ)
    { numSamples := 2, channels := [[fin 1, fin 2], [fin 3, fin 4]] }
    (by show (fin (1 / 2) : FloatX ℝ) < fin 1; rw [fin_lt_fin]; norm_num)

end BroadbandCompressorAudioProcessor

/-! ## The gain-reduction meter -/

namespace FloatX

/-- Below a value that is at most `c` is at most `c`. -/
theorem lt_then_le {a b c : FloatX α} (h1 : a < b) (h2 : b ≤ c) : a ≤ c := by
  cases a <;> cases b <;> cases c <;>
    first
      | exact (Bool.false_ne_true h1).elim
      | exact (Bool.false_ne_true h2).elim
      | exact rfl
      | (rw [fin_le_fin]; rw [fin_lt_fin] at h1; rw [fin_le_fin] at h2
         exact (lt_of_lt_of_le h1 h2).le)

/-- The order `<=` is transitive. -/
theorem le_then_le {a b c : FloatX α} (h1 : a ≤ b) (h2 : b ≤ c) : a ≤ c := by
  cases a <;> cases b <;> cases c <;>
    first
      | exact (Bool.false_ne_true h1).elim
      | exact (Bool.false_ne_true h2).elim
      | exact rfl
      | (rw [fin_le_fin] at h1 h2 ⊢; exact h1.trans h2)

/-- Every value but NaN is `<=` itself. -/
theorem le_self_of_ne_nan {a : FloatX α} (h : a ≠ nan) : a ≤ a := by
  cases a with
  | nan => exact absurd rfl h
  | negInf => exact rfl
  | posInf => exact rfl
  | fin x => rw [fin_le_fin]

/-- A value below another is not NaN. -/
theorem ne_nan_of_lt {a b : FloatX α} (h : a < b) : a ≠ nan := by
  rintro rfl
  exact Bool.false_ne_true h

/-- Of two values other than NaN, the first is below the second or the second is at most
the first. -/
theorem le_of_not_below {a b : FloatX α} (ha : a ≠ nan) (hb : b ≠ nan) (h : ¬ a < b) :
    b ≤ a := by
  cases a <;> cases b <;>
    first
      | exact absurd rfl ha
      | exact absurd rfl hb
      | exact rfl
      | exact absurd rfl h
      | (rw [fin_lt_fin] at h; rw [fin_le_fin]; exact not_lt.mp h)

end FloatX

/-- The running minimum `if (g < acc) acc = g` over a list, from a start other than NaN:
the result is at most the start, it is the start or a value of the list, it is not NaN,
and it is at most every value of the list other than NaN. -/
theorem foldl_min_spec (G : List (FloatX α)) (acc : FloatX α) (h0 : acc ≠ nan) :
    G.foldl (fun acc g => if g < acc then g else acc) acc ≤ acc ∧
      G.foldl (fun acc g => if g < acc then g else acc) acc ≠ nan ∧
      (G.foldl (fun acc g => if g < acc then g else acc) acc = acc ∨
        G.foldl (fun acc g => if g < acc then g else acc) acc ∈ G) ∧
      ∀ g ∈ G, g ≠ nan → G.foldl (fun acc g => if g < acc then g else acc) acc ≤ g := by
  induction G generalizing acc with
  | nil =>
    exact ⟨FloatX.le_self_of_ne_nan h0, h0, Or.inl rfl,
      fun g hg => absurd hg (List.not_mem_nil g)⟩
  | cons g G ih =>
    simp only [List.foldl_cons]
    by_cases hg : g < acc
    · rw [if_pos hg]
      obtain ⟨h1, h2, h3, h4⟩ := ih g (FloatX.ne_nan_of_lt hg)
      refine ⟨FloatX.le_then_le h1 (FloatX.lt_then_le hg (FloatX.le_self_of_ne_nan h0)), h2,
        Or.inr ?_, fun g2 hg2 hn => ?_⟩
      · rcases h3 with h3 | h3
        · rw [h3]
          exact List.mem_cons_self g G
        · exact List.mem_cons_of_mem g h3
      · rcases List.mem_cons.mp hg2 with rfl | hg2
        · exact h1
        · exact h4 g2 hg2 hn
    · rw [if_neg hg]
      obtain ⟨h1, h2, h3, h4⟩ := ih acc h0
      refine ⟨h1, h2, ?_, fun g2 hg2 hn => ?_⟩
      · rcases h3 with h3 | h3
        · exact Or.inl h3
        · exact Or.inr (List.mem_cons_of_mem g h3)
      · rcases List.mem_cons.mp hg2 with rfl | hg2
        · exact FloatX.le_then_le h1 (FloatX.le_of_not_below hn h0 hg)
        · exact h4 g2 hg2 hn

namespace BroadbandCompressorAudioProcessor

variable {σ : Type}

/-- The sample loop of phase 2 leaves in `maxGainReduction` the running minimum of the
values of `gainDb`, and every value of `gainDb` is a gain of the curve. -/
theorem compressChannel_maxGainReduction (m : CMath α) (J : SmoothedValueOps σ α)
    (curve : CompressionCurve α) (channelData levelData : List (FloatX α))
    (delayLine : DelayLine α) (s : σ) (maxGainReduction maxOutputLevel : FloatX α) :
    (compressChannel m J curve levelData channelData delayLine s maxGainReduction
        maxOutputLevel).maxGainReduction =
      (compressChannel m J curve levelData channelData delayLine s maxGainReduction
        maxOutputLevel).gainDb.foldl (fun acc g => if g < acc then g else acc)
        maxGainReduction ∧
    ∀ g ∈ (compressChannel m J curve levelData channelData delayLine s maxGainReduction
        maxOutputLevel).gainDb,
      ∃ level, g = curve.calculateCompressionGainDb (mag2Db m level) := by
  induction channelData generalizing levelData delayLine s maxGainReduction
      maxOutputLevel with
  | nil =>
    cases levelData <;> exact ⟨rfl, fun g hg => absurd hg (List.not_mem_nil g)⟩
  | cons x channelData ih =>
    cases levelData with
    | nil => exact ⟨rfl, fun g hg => absurd hg (List.not_mem_nil g)⟩
    | cons level levelData =>
      simp only [compressChannel, List.foldl_cons]
      refine ⟨(ih _ _ _ _ _).1, fun g hg => ?_⟩
      rcases List.mem_cons.mp hg with rfl | hg
      · exact ⟨level, rfl⟩
      · exact (ih _ _ _ _ _).2 g hg

/-- Phase 2 leaves in `maxGainReduction` the running minimum of the values of `gainDb` of
all channels and samples, and every value of `gainDb` is a gain of the curve. -/
theorem phase2_maxGainReduction (m : CMath α) (J : SmoothedValueOps σ α)
    (le : LevelEstimator α) (curve : CompressionCurve α) (linked : Bool)
    (channels : List (List (FloatX α))) (ch : Nat)
    (levelStates : List (LevelEstimator.State α)) (levelData : List (FloatX α))
    (delayLines : List (DelayLine α)) (s : σ) (maxGainReduction maxOutputLevel : FloatX α) :
    (phase2 m J le curve linked ch channels levelStates levelData delayLines s
        maxGainReduction maxOutputLevel).maxGainReduction =
      (phase2 m J le curve linked ch channels levelStates levelData delayLines s
        maxGainReduction maxOutputLevel).gainDb.flatten.foldl
        (fun acc g => if g < acc then g else acc) maxGainReduction ∧
    ∀ g ∈ (phase2 m J le curve linked ch channels levelStates levelData delayLines s
        maxGainReduction maxOutputLevel).gainDb.flatten,
      ∃ level, g = curve.calculateCompressionGainDb (mag2Db m level) := by
  induction channels generalizing ch levelStates levelData delayLines s maxGainReduction
      maxOutputLevel with
  | nil => exact ⟨rfl, fun g hg => absurd hg (List.not_mem_nil g)⟩
  | cons c channels ih =>
    simp only [phase2, List.flatten_cons, List.foldl_append]
    constructor
    · rw [(ih _ _ _ _ _ _ _).1, (compressChannel_maxGainReduction m J curve c _ _ _ _ _).1]
    · intro g hg
      rcases List.mem_append.mp hg with hg | hg
      · exact (compressChannel_maxGainReduction m J curve c _ _ _ _ _).2 g hg
      · exact (ih _ _ _ _ _ _ _).2 g hg

/-- The input-gain loop keeps the number of samples. -/
theorem applyInputGain_length (J : SmoothedValueOps σ α) (channelData : List (FloatX α))
    (s : σ) (maxInputLevel : FloatX α) :
    (applyInputGain J channelData s maxInputLevel).1.length = channelData.length := by
  induction channelData generalizing s maxInputLevel with
  | nil => rfl
  | cons x channelData ih => simp only [applyInputGain, List.length_cons, ih]

/-- Phase 1 leaves the channels of the input-gain loops, in either mode. -/
theorem phase1_channels (J : SmoothedValueOps σ α) (le : LevelEstimator α) (linked : Bool)
    (channels : List (List (FloatX α))) (ch : Nat)
    (levelStates : List (LevelEstimator.State α)) (levelData : List (FloatX α)) (s : σ)
    (maxInputLevel : FloatX α) :
    (phase1 J le linked ch channels levelStates levelData s maxInputLevel).channels =
      inputGainPass J channels s maxInputLevel := by
  induction channels generalizing ch levelStates levelData s maxInputLevel with
  | nil => rfl
  | cons c channels ih =>
    simp only [phase1, inputGainPass]
    rw [ih]

/-- The input-gain loops keep the number of channels and of samples of each channel. -/
theorem inputGainPass_length (J : SmoothedValueOps σ α) (channels : List (List (FloatX α)))
    (s : σ) (maxInputLevel : FloatX α) :
    (inputGainPass J channels s maxInputLevel).map List.length = channels.map List.length := by
  induction channels generalizing s maxInputLevel with
  | nil => rfl
  | cons c channels ih =>
    simp only [inputGainPass, List.map_cons, ih, applyInputGain_length]

/-- On channels without samples phase 2 records no value of `gainDb`. -/
theorem phase2_gainDb_of_empty (m : CMath α) (J : SmoothedValueOps σ α)
    (le : LevelEstimator α) (curve : CompressionCurve α) (linked : Bool)
    (channels : List (List (FloatX α))) (hempty : ∀ c ∈ channels, c = []) (ch : Nat)
    (levelStates : List (LevelEstimator.State α)) (levelData : List (FloatX α))
    (delayLines : List (DelayLine α)) (s : σ) (maxGainReduction maxOutputLevel : FloatX α) :
    (phase2 m J le curve linked ch channels levelStates levelData delayLines s
        maxGainReduction maxOutputLevel).gainDb.flatten = [] := by
  induction channels generalizing ch levelStates levelData delayLines s maxGainReduction
      maxOutputLevel with
  | nil => rfl
  | cons c channels ih =>
    have hc : c = [] := hempty c (List.mem_cons_self c channels)
    subst hc
    have h0 : ∀ (ld : List (FloatX α)) (dl : DelayLine α) (s2 : σ) (g o : FloatX α),
        (compressChannel m J curve ld [] dl s2 g o).gainDb = [] := by
      intro ld dl s2 g o
      cases ld <;> rfl
    simp only [phase2, List.flatten_cons, h0, List.nil_append]
    exact ih (fun c2 hc2 => hempty c2 (List.mem_cons_of_mem _ hc2)) _ _ _ _ _ _ _

end BroadbandCompressorAudioProcessor

/-! ## Independent (unlinked) mode in `processCompression` -/

namespace BroadbandCompressorAudioProcessor

variable {σ : Type}

/-- Phase 1 in independent mode, on the channels from `ch0` on: the envelope state of each
of these channels is the state after one run of `estimateLevel` over the channel as the
input-gain loop leaves it; the other states are kept. -/
theorem phase1_unlinked_states (J : SmoothedValueOps σ α) (le : LevelEstimator α)
    (channels : List (List (FloatX α))) (ch0 : Nat)
    (levelStates : List (LevelEstimator.State α)) (levelData : List (FloatX α)) (s : σ)
    (maxInputLevel : FloatX α) (hlen : ch0 + channels.length ≤ levelStates.length) :
    (phase1 J le false ch0 channels levelStates levelData s maxInputLevel).levelStates.length =
        levelStates.length ∧
      ∀ j, (phase1 J le false ch0 channels levelStates levelData s
          maxInputLevel).levelStates.getD j {} =
        if ch0 ≤ j ∧ j < ch0 + channels.length then
          (le.estimateLevel ((inputGainPass J channels s maxInputLevel).getD (j - ch0) [])
            (levelStates.getD j {})).2
        else levelStates.getD j {} := by
  induction channels generalizing ch0 levelStates levelData s maxInputLevel with
  | nil =>
    refine ⟨rfl, fun j => ?_⟩
    rw [if_neg (by simp)]
    rfl
  | cons c channels ih =>
    have hlen2 : ∀ e : LevelEstimator.State α,
        ch0 + 1 + channels.length ≤ (levelStates.set ch0 e).length := by
      intro e
      rw [List.length_set]
      simp only [List.length_cons] at hlen
      omega
    simp only [phase1, Bool.false_eq_true, if_false, inputGainPass, List.length_cons]
    refine ⟨by rw [(ih _ _ _ _ _ (hlen2 _)).1, List.length_set], fun j => ?_⟩
    rw [(ih _ _ _ _ _ (hlen2 _)).2 j]
    by_cases hj0 : j = ch0
    · subst hj0
      rw [if_neg (by omega), if_pos (by omega), Nat.sub_self, List.getD_cons_zero]
      exact getD_set_same _ _ _ _ (by simp only [List.length_cons] at hlen; omega)
    · by_cases hj : ch0 + 1 ≤ j ∧ j < ch0 + 1 + channels.length
      · rw [if_pos hj, if_pos (by omega), getD_set_other _ _ _ _ _ (Ne.symm hj0)]
        have e : j - ch0 = (j - (ch0 + 1)) + 1 := by omega
        rw [e, List.getD_cons_succ]
      · rw [if_neg hj, if_neg (by omega), getD_set_other _ _ _ _ _ (Ne.symm hj0)]

/-- Phase 2 in independent mode, on the channels from `ch0` on: the envelope state of each
of these channels but channel 0 is the state after one more run of `estimateLevel` over
the channel; the other states are kept. -/
theorem phase2_unlinked_states (m : CMath α) (J : SmoothedValueOps σ α)
    (le : LevelEstimator α) (curve : CompressionCurve α)
    (channels : List (List (FloatX α))) (ch0 : Nat)
    (levelStates : List (LevelEstimator.State α)) (levelData : List (FloatX α))
    (delayLines : List (DelayLine α)) (s : σ) (maxGainReduction maxOutputLevel : FloatX α)
    (hlen : ch0 + channels.length ≤ levelStates.length) :
    ∀ j, (phase2 m J le curve false ch0 channels levelStates levelData delayLines s
        maxGainReduction maxOutputLevel).levelStates.getD j {} =
      if ch0 ≤ j ∧ j < ch0 + channels.length ∧ 0 < j then
        (le.estimateLevel (channels.getD (j - ch0) []) (levelStates.getD j {})).2
      else levelStates.getD j {} := by
  induction channels generalizing ch0 levelStates levelData delayLines s maxGainReduction
      maxOutputLevel with
  | nil =>
    intro j
    rw [if_neg (by simp only [List.length_nil]; omega)]
    rfl
  | cons c channels ih =>
    intro j
    simp only [List.length_cons] at hlen
    by_cases h0 : ch0 > 0
    · have hlen2 : ∀ e : LevelEstimator.State α,
          ch0 + 1 + channels.length ≤ (levelStates.set ch0 e).length := by
        intro e
        rw [List.length_set]
        omega
      simp only [phase2, Bool.not_false, Bool.true_and, decide_eq_true h0, if_true,
        List.length_cons]
      rw [ih _ _ _ _ _ _ _ (hlen2 _) j]
      by_cases hj0 : j = ch0
      · subst hj0
        rw [if_neg (by omega), if_pos (by omega), Nat.sub_self, List.getD_cons_zero]
        exact getD_set_same _ _ _ _ (by omega)
      · by_cases hj : ch0 + 1 ≤ j ∧ j < ch0 + 1 + channels.length ∧ 0 < j
        · rw [if_pos hj, if_pos (by omega), getD_set_other _ _ _ _ _ (Ne.symm hj0)]
          have e : j - ch0 = (j - (ch0 + 1)) + 1 := by omega
          rw [e, List.getD_cons_succ]
        · rw [if_neg hj, if_neg (by omega), getD_set_other _ _ _ _ _ (Ne.symm hj0)]
    · have h00 : ch0 = 0 := by omega
      subst h00
      simp only [phase2, Bool.not_false, Bool.true_and, gt_iff_lt, Nat.lt_irrefl,
        decide_False, Bool.false_eq_true, if_false, List.length_cons]
      rw [ih _ _ _ _ _ _ _ (by omega) j]
      by_cases hj : 0 + 1 ≤ j ∧ j < 0 + 1 + channels.length ∧ 0 < j
      · rw [if_pos hj, if_pos (by omega)]
        have e : j - 0 = (j - (0 + 1)) + 1 := by omega
        rw [e, List.getD_cons_succ]
      · rw [if_neg hj, if_neg (by omega)]

end BroadbandCompressorAudioProcessor

namespace BroadbandCompressorAudioProcessor

variable {σ : Type}

/-- The input-gain loops keep the number of channels. -/
theorem inputGainPass_channels (J : SmoothedValueOps σ α) (channels : List (List (FloatX α)))
    (s : σ) (maxInputLevel : FloatX α) :
    (inputGainPass J channels s maxInputLevel).length = channels.length := by
  have h := congrArg List.length (inputGainPass_length J channels s maxInputLevel)
  simpa only [List.length_map] using h

/-- C26: in unlinked mode (`linked <= 0.5`), for every block that `processCompression`
processes (a delay line and an envelope state for every channel of the buffer) and every
channel `ch >= 1`, the envelope state of the channel after the block is the result of two
successive runs of `estimateLevel` over the channel's samples after the input gain (the
run of phase 1, then the run of phase 2 from the state the first run left), while the
state of channel 0 is the result of a single run. -/
theorem processCompression_unlinked_states (m : CMath α) (J : SmoothedValueOps σ α)
    (p : BroadbandCompressorAudioProcessor σ α) (buffer : AudioBuffer α)
    (hunlinked : ¬ (p.linkedParam_ > fin (1 / 2)))
    (hdl : buffer.channels.length ≤ p.delayLines_.length)
    (hst : buffer.channels.length ≤ p.levelStates_.length)
    (ch : Nat) (hch : ch < buffer.channels.length) :
    (processCompression m J p buffer).processor.levelStates_.getD ch {} =
      if ch = 0 then
        (p.levelEstimator_.estimateLevel
          ((inputGainPass J buffer.channels p.inputGainSmoothed_ (fin 0)).getD ch [])
          (p.levelStates_.getD ch {})).2
      else
        (p.levelEstimator_.estimateLevel
          ((inputGainPass J buffer.channels p.inputGainSmoothed_ (fin 0)).getD ch [])
          (p.levelEstimator_.estimateLevel
            ((inputGainPass J buffer.channels p.inputGainSmoothed_ (fin 0)).getD ch [])
            (p.levelStates_.getD ch {})).2).2 := by
  have hnot : ¬ (buffer.channels.length > p.delayLines_.length) := by omega
  have hdec : decide (p.linkedParam_ > fin (1 / 2)) = false := decide_eq_false hunlinked
  simp only [processCompression, if_neg hnot, hdec, Bool.false_eq_true, if_false]
  have hp1 := fun lb => phase1_unlinked_states J p.levelEstimator_ buffer.channels 0
    p.levelStates_ lb p.inputGainSmoothed_ (fin 0) (by omega)
  have hchan := fun lb => phase1_channels J p.levelEstimator_ false buffer.channels 0
    p.levelStates_ lb p.inputGainSmoothed_ (fin 0)
  have hlen := inputGainPass_channels J buffer.channels p.inputGainSmoothed_ (fin 0)
  rw [phase2_unlinked_states m J _ _ _ 0 _ _ _ _ _ _
    (by rw [(hp1 _).1, hchan, hlen]; omega) ch, (hp1 _).2 ch, hchan, hlen, Nat.sub_zero]
  by_cases h0 : ch = 0
  · rw [if_neg (by omega), if_pos (by omega), if_pos h0]
  · rw [if_pos (by omega), if_pos (by omega), if_neg h0]

/-- Witness of C26: an unlinked stereo block of two samples a channel (unit gains, instant
attack, reset states): the state of channel 1 after the block is that of two runs of
`estimateLevel` over the channel. -/
theorem processCompression_unlinked_states_witness :
    (processCompression realMath
        (SmoothedValueOps.mk (fun _ : Unit => (fin 1, ())) (fun _ _ => ()))
        ({ linkedParam_ := fin 0, bypassParam_ := fin 0, inputGainParam_ := fin 0,
           thresholdParam_ := fin (-20), ratioParam_ := fin 4, kneeWidthParam_ := fin 0,
           outputGainParam_ := fin 0, attackTimeParam_ := fin 0, releaseTimeParam_ := fin 100,
           holdTimeParam_ := fin 0, lookaheadTimeParam_ := fin 0,
           compressionCurve_ := { thresholdDb_ := fin (-20), compressionRatio_ := fin 4 },
           delayLines_ := [DelayLine.prepare {} 0, DelayLine.prepare {} 0],
           levelStates_ := [{}, {}],
           inputGainSmoothed_ := (), outputGainSmoothed_ := () } :
          BroadbandCompressorAudioProcessor Unit ℝ)
        { numSamples := 2, channels := [[fin 1, fin 2], [fin 3, fin 4]] }
      ).processor.levelStates_.getD 1 {} =
      (({} : LevelEstimator ℝ).estimateLevel [fin 3, fin 4]
        (({} : LevelEstimator ℝ).estimateLevel [fin 3, fin 4] {}).2).2 := by
  have h := processCompression_unlinked_states realMath
    (SmoothedValueOps.mk (fun _ : Unit => (fin 1, ())) (fun _ _ => ()))
    ({ linkedParam_ := fin 0, bypassParam_ := fin 0, inputGainParam_ := fin 0,
       thresholdParam_ := fin (-20), ratioParam_ := fin 4, kneeWidthParam_ := fin 0,
       outputGainParam_ := fin 0, attackTimeParam_ := fin 0, releaseTimeParam_ := fin 100,
       holdTimeParam_ := fin 0, lookaheadTimeParam_ := fin 0,
       compressionCurve_ := { thresholdDb_ := fin (-20), compressionRatio_ := fin 4 },
       delayLines_ := [DelayLine.prepare {} 0, DelayLine.prepare {} 0],
       levelStates_ := [{}, {}],
       inputGainSmoothed_ := (), outputGainSmoothed_ := () } :
      BroadbandCompressorAudioProcessor Unit ℝ)
    { numSamples := 2, channels := [[fin 1, fin 2], [fin 3, fin 4]] }
    (by
      show ¬ ((fin (1 / 2) : FloatX ℝ) < fin 0)
      rw [fin_lt_fin]
      norm_num)
    (by decide) (by decide) 1 (by decide)
  rw [h, if_neg (by decide)]
  simp [inputGainPass, applyInputGain]

end BroadbandCompressorAudioProcessor

namespace BroadbandCompressorAudioProcessor

/-- The level 1 is 0 dB and the level 0.1 is -20 dB. -/
theorem mag2Db_real_examples :
    mag2Db realMath (fin 1) = fin 0 ∧ mag2Db realMath (fin (1 / 10)) = fin (-20) := by
  have h1 : Real.logb 10 1 = 0 := Real.logb_one
  have h2 : Real.logb 10 (1 / 10) = -1 := by
    rw [one_div, Real.logb_inv, Real.logb_self_eq_one (by norm_num)]
  constructor
  · simp [mag2Db, eqB, CMath.logTen, realMath, positiveInfinity]
  · simp only [mag2Db, eqB, CMath.logTen, realMath, positiveInfinity, fin_lt_fin]
    norm_num
    rw [h2]
    norm_num

/-- C28, the code on the failing input: an unlinked stereo block, channel 0 constant at
the level 0.1 (-20 dB, below the threshold -10 dB) and channel 1 constant at the level 1
(0 dB), ratio 2, unit gains, instant attack, reset states.  The gain of the curve at
channel 0's own envelope level 0.1 is 0 dB, but `processCompression` takes for channel 0,
at both samples, the gain -5 dB of the curve at channel 1's level: after phase 1 the
shared level buffer holds the levels of the last channel, and phase 2 estimates the level
again only for the channels `ch > 0`. -/
theorem processCompression_unlinked_channel0 :
    (processCompression realMath
        (SmoothedValueOps.mk (fun _ : Unit => (fin 1, ())) (fun _ _ => ()))
        ({ linkedParam_ := fin 0, bypassParam_ := fin 0, inputGainParam_ := fin 0,
           thresholdParam_ := fin (-10), ratioParam_ := fin 2, kneeWidthParam_ := fin 0,
           outputGainParam_ := fin 0, attackTimeParam_ := fin 0, releaseTimeParam_ := fin 100,
           holdTimeParam_ := fin 0, lookaheadTimeParam_ := fin 0,
           compressionCurve_ := { thresholdDb_ := fin (-10), compressionRatio_ := fin 2 },
           delayLines_ := [DelayLine.prepare {} 0, DelayLine.prepare {} 0],
           levelStates_ := [{}, {}],
           inputGainSmoothed_ := (), outputGainSmoothed_ := () } :
          BroadbandCompressorAudioProcessor Unit ℝ)
        { numSamples := 2,
          channels := [[fin (1 / 10), fin (1 / 10)], [fin 1, fin 1]] }).gainDb =
      [[fin (-5), fin (-5)], [fin (-5), fin (-5)]] ∧
    (({} : LevelEstimator ℝ).estimateLevel [fin (1 / 10), fin (1 / 10)] {}).1 =
      [fin (1 / 10), fin (1 / 10)] ∧
    ({ thresholdDb_ := fin (-10), compressionRatio_ := fin 2 } :
      CompressionCurve ℝ).calculateCompressionGainDb (mag2Db realMath (fin (1 / 10))) =
        fin 0 := by
  refine ⟨?_, ?_, ?_⟩
  · norm_num [processCompression, phase1, phase2, applyInputGain, compressChannel,
      LevelEstimator.estimateLevel, fabs_fin, fin_lt_fin]
    rw [mag2Db_real_examples.1]
    norm_num [CompressionCurve.calculateCompressionGainDb,
      CompressionCurve.aboveKneeOutLevelDb, eqB, negativeInfinity, positiveInfinity]
  · norm_num [LevelEstimator.estimateLevel, fabs_fin, fin_lt_fin]
  · rw [mag2Db_real_examples.2]
    norm_num [CompressionCurve.calculateCompressionGainDb, eqB, negativeInfinity]

end BroadbandCompressorAudioProcessor

/-! ## The static curve in binary32 -/

namespace Binary32

/-- The rounding to binary32 at the ends of the range: `2^128` and the midpoint
`2^128 - 2^103` above the largest number overflow, just below the midpoint the largest
number `2^128 - 2^104` is returned; half the smallest subnormal `2^-149` rounds to 0 and
one and a half times it to `2^-148` (ties to even). -/
theorem round_range :
    round (fin (2 ^ 128)) = posInf ∧ round (fin (-(2 ^ 128 - 2 ^ 103))) = negInf ∧
      round (fin (2 ^ 128 - 2 ^ 103 - 1)) = fin (2 ^ 128 - 2 ^ 104) ∧
      round (fin (1 / 2 ^ 150)) = fin 0 ∧ round (fin (3 / 2 ^ 150)) = fin (1 / 2 ^ 148) ∧
      round (fin (1 / 10)) = fin (13421773 / 134217728) := by
  decide!

/-- The end-to-end case of the specification in binary32: threshold -20 dB, ratio 4,
knee 0, input -10 dB give the output level -17.5 dB and the gain -7.5 dB, both exact. -/
theorem endToEnd_exact :
    calculateOutputLevelDb { thresholdDb_ := fin (-20), compressionRatio_ := fin 4 }
        (fin (-10)) = fin (-35 / 2) ∧
      calculateCompressionGainDb { thresholdDb_ := fin (-20), compressionRatio_ := fin 4 }
        (fin (-10)) = fin (-15 / 2) := by
  decide!

end Binary32

namespace CompressionCurve

/-- C2, counterexample: in binary32, with the threshold -95.7f, the ratio 4, the knee 0
and the input 16.2f (above the knee), `calculateOutputLevelDb` returns -67.7250061, which
is neither `thresholdDb + (inputDb - thresholdDb) / ratio` evaluated in binary32
(-67.7249985) nor its exact value (-67.72499752): the source computes
`inputDb + (outLevelDb - inputDb)` and rounds twice more. -/
theorem output_above_knee_binary32 :
    Binary32.round (fin (-957 / 10)) = fin (-6271795 / 65536) ∧
    Binary32.round (fin (162 / 10)) = fin (4246733 / 262144) ∧
    Binary32.calculateOutputLevelDb
        { thresholdDb_ := fin (-6271795 / 65536), compressionRatio_ := fin 4 }
        (fin (4246733 / 262144)) = fin (-2219213 / 32768) ∧
    Binary32.fadd (fin (-6271795 / 65536))
        (Binary32.fdiv (Binary32.fsub (fin (4246733 / 262144)) (fin (-6271795 / 65536)))
          (fin 4)) = fin (-8876851 / 131072) ∧
    (fin (-6271795 / 65536) + (fin (4246733 / 262144) - fin (-6271795 / 65536)) / fin 4 :
      FloatX ℚ) = fin (-71014807 / 1048576) ∧
    Binary32.calculateOutputLevelDb
        { thresholdDb_ := fin (-6271795 / 65536), compressionRatio_ := fin 4 }
        (fin (4246733 / 262144)) ≠
      Binary32.fadd (fin (-6271795 / 65536))
        (Binary32.fdiv (Binary32.fsub (fin (4246733 / 262144)) (fin (-6271795 / 65536)))
          (fin 4)) ∧
    Binary32.calculateOutputLevelDb
        { thresholdDb_ := fin (-6271795 / 65536), compressionRatio_ := fin 4 }
        (fin (4246733 / 262144)) ≠
      fin (-6271795 / 65536) + (fin (4246733 / 262144) - fin (-6271795 / 65536)) / fin 4 := by
  decide!

/-- C3, counterexample: in binary32 and limiting mode, with the threshold -12.3f, the knee
6 and the input -3.9f (above the knee), `calculateOutputLevelDb` returns -12.29999924,
one binary32 step above the threshold -12.30000019. -/
theorem output_above_knee_limiting_binary32 :
    Binary32.round (fin (-123 / 10)) = fin (-12897485 / 1048576) ∧
    Binary32.round (fin (-39 / 10)) = fin (-8178893 / 2097152) ∧
    (fin (-12897485 / 1048576) + fin 6 / fin 2 : FloatX ℚ) ≤ fin (-8178893 / 2097152) ∧
    Binary32.calculateOutputLevelDb
        { thresholdDb_ := fin (-12897485 / 1048576), kneeWidthDb_ := fin 6,
          compressionRatio_ := positiveInfinity }
        (fin (-8178893 / 2097152)) = fin (-3224371 / 262144) ∧
    Binary32.calculateOutputLevelDb
        { thresholdDb_ := fin (-12897485 / 1048576), kneeWidthDb_ := fin 6,
          compressionRatio_ := positiveInfinity }
        (fin (-8178893 / 2097152)) ≠ fin (-12897485 / 1048576) ∧
    fin (-12897485 / 1048576) <
      Binary32.calculateOutputLevelDb
        { thresholdDb_ := fin (-12897485 / 1048576), kneeWidthDb_ := fin 6,
          compressionRatio_ := positiveInfinity }
        (fin (-8178893 / 2097152)) := by
  decide!

/-- C24, counterexample: in binary32, with the threshold -20, the knee 6, the ratio 4 and
the input -22.9f (inside the knee, `2 * 2.9 < 6`), `calculateCompressionGainDb` returns
-6.2561035e-04 (`-41 / 2^16`), while `(1/ratio - 1) * t^2 / (2 * knee)` is -6.2500476e-04,
evaluated in binary32 or exactly: the source returns `(inputDb + q) - inputDb`, and the
sum is rounded at the size of `inputDb`. -/
theorem gain_in_knee_binary32 :
    Binary32.round (fin (-229 / 10)) = fin (-12006195 / 524288) ∧
    (fin 2 * fabs (fin (-12006195 / 524288) - fin (-20)) : FloatX ℚ) < fin 6 ∧
    Binary32.calculateCompressionGainDb
        { thresholdDb_ := fin (-20), kneeWidthDb_ := fin 6, compressionRatio_ := fin 4 }
        (fin (-12006195 / 524288)) = fin (-41 / 65536) ∧
    ((fin 1 / fin 4 - fin 1) * (fin (-12006195 / 524288) - fin (-20) + fin 6 / fin 2) *
        (fin (-12006195 / 524288) - fin (-20) + fin 6 / fin 2) / (fin 2 * fin 6) :
      FloatX ℚ) = fin (-2748800041 / 4398046511104) ∧
    Binary32.fdiv
        (Binary32.fmul
          (Binary32.fmul (Binary32.fsub (Binary32.fdiv (fin 1) (fin 4)) (fin 1))
            (Binary32.fadd (Binary32.fsub (fin (-12006195 / 524288)) (fin (-20)))
              (Binary32.fdiv (fin 6) (fin 2))))
          (Binary32.fadd (Binary32.fsub (fin (-12006195 / 524288)) (fin (-20)))
            (Binary32.fdiv (fin 6) (fin 2))))
        (Binary32.fmul (fin 2) (fin 6)) = fin (-2684375 / 4294967296) := by
  decide!

end CompressionCurve

/-! ## The hold length in binary32 -/

namespace Binary32

/-- The rounding of a number `>= 0` is a number `>= 0` (or `+inf`). -/
theorem round_nonneg (q p : ℚ) (hq : 0 ≤ q) (h : round (fin q) = fin p) : 0 ≤ p := by
  simp only [round] at h
  by_cases h0 : q = 0
  · rw [if_pos h0] at h
    cases h
    exact le_rfl
  · rw [if_neg h0, if_pos (lt_of_le_of_ne hq (Ne.symm h0))] at h
    unfold roundPos at h
    simp only at h
    split_ifs at h
    · cases h
      exact Nat.cast_nonneg _
    · cases h
      exact div_nonneg (Nat.cast_nonneg _) (Nat.cast_nonneg _)

/-- A finite quotient or product of numbers `>= 0`, rounded to binary32, is `>= 0`. -/
theorem holdProduct_nonneg (holdTimeMs fs p : ℚ) (hh : 0 ≤ holdTimeMs) (hfs : 0 ≤ fs)
    (hp : fmul (fdiv (fin holdTimeMs) (fin 1000)) (fin fs) = fin p) : 0 ≤ p := by
  have hne : (1000 : ℚ) ≠ 0 := by norm_num
  unfold fmul fdiv at hp
  rw [fin_div_fin _ hne] at hp
  cases hq : round (fin (holdTimeMs / 1000)) with
  | nan => rw [hq] at hp; cases hp
  | negInf =>
    rw [hq] at hp
    exfalso
    revert hp
    show round (signedInf (-fs)) = fin p → False
    unfold signedInf
    split_ifs <;> intro hp <;> cases hp
  | posInf =>
    rw [hq] at hp
    exfalso
    revert hp
    show round (signedInf fs) = fin p → False
    unfold signedInf
    split_ifs <;> intro hp <;> cases hp
  | fin h =>
    rw [hq, fin_mul_fin] at hp
    have h0 : 0 ≤ h := round_nonneg _ _ (div_nonneg hh (by norm_num)) hq
    exact round_nonneg _ _ (mul_nonneg h0 hfs) hp

end Binary32

namespace LevelEstimator

/-- C13, counterexample: on the default estimator (44100 Hz) `setHoldTimeMs(0.7)` gives a
hold length of 30 samples, in exact arithmetic and in binary32 (`setHoldTimeMs(0.7f)`),
while the product `0.0007 * 44100 = 30.87` rounds to 31. -/
theorem setHoldTimeMs_not_round :
    (setHoldTimeMs ({} : LevelEstimator ℚ) (fin (7 / 10))).holdTimeSamples_ = 30 ∧
      (Binary32.setHoldTimeMs {} (Binary32.round (fin (7 / 10)))).holdTimeSamples_ = 30 ∧
      roundNearest ((7 / 10 : ℚ) / 1000 * 44100) = 31 ∧
      (Binary32.setHoldTimeMs {} (Binary32.round (fin (7 / 10)))).holdTimeSamples_ ≠
        roundNearest ((7 / 10 : ℚ) / 1000 * 44100) := by
  decide!

/-- C13, amended: for a hold time `holdTimeMs >= 0` and a sample rate `fs > 0`, after
`setHoldTimeMs` the hold length in samples is the floor (the truncation toward zero) of
`p`, the product as the code computes it in binary32, `p = fl(fl(holdTimeMs / 1000) * fs)`,
when `p` is finite: the hold length `n` satisfies `n <= p < n + 1`.  After `setSampleRate`
with another rate `fs' > 0` it is the floor of `fl(fl(holdTimeMs / 1000) * fs')`. -/
theorem setHoldTimeMs_floor_binary32 (m : CMath ℚ) (le : LevelEstimator ℚ)
    (holdTimeMs fs : ℚ) (hfs : le.sampleRateHz_ = fin fs) (hfs0 : 0 < fs)
    (hh : 0 ≤ holdTimeMs) :
    (∀ p : ℚ, Binary32.fmul (Binary32.fdiv (fin holdTimeMs) (fin 1000)) (fin fs) = fin p →
      (Binary32.setHoldTimeMs le (fin holdTimeMs)).holdTimeSamples_ = ⌊p⌋₊ ∧
      ((Binary32.setHoldTimeMs le (fin holdTimeMs)).holdTimeSamples_ : ℚ) ≤ p ∧
      p < ((Binary32.setHoldTimeMs le (fin holdTimeMs)).holdTimeSamples_ : ℚ) + 1) ∧
    ∀ fs' : ℚ, 0 < fs' → fs' ≠ fs → ∀ p : ℚ,
      Binary32.fmul (Binary32.fdiv (fin holdTimeMs) (fin 1000)) (fin fs') = fin p →
      (Binary32.setSampleRate m (Binary32.setHoldTimeMs le (fin holdTimeMs))
          (fin fs')).holdTimeSamples_ = ⌊p⌋₊ ∧
      ((Binary32.setSampleRate m (Binary32.setHoldTimeMs le (fin holdTimeMs))
          (fin fs')).holdTimeSamples_ : ℚ) ≤ p ∧
      p < ((Binary32.setSampleRate m (Binary32.setHoldTimeMs le (fin holdTimeMs))
          (fin fs')).holdTimeSamples_ : ℚ) + 1 := by
  have hset : Binary32.setHoldTimeMs le (fin holdTimeMs) =
      { le with
        holdTimeSec_ := Binary32.fdiv (fin holdTimeMs) (fin 1000)
        holdTimeSamples_ :=
          toSizeT (Binary32.fmul (Binary32.fdiv (fin holdTimeMs) (fin 1000)) (fin fs)) } := by
    simp only [Binary32.setHoldTimeMs, fin_lt_fin, not_lt.mpr hh, if_false, hfs]
  constructor
  · intro p hp
    have hp0 := Binary32.holdProduct_nonneg holdTimeMs fs p hh hfs0.le hp
    rw [hset]
    simp only [hp, toSizeT]
    exact ⟨trivial, Nat.floor_le hp0, Nat.lt_floor_add_one p⟩
  · intro fs' h0 hne' p hp
    have hp0 := Binary32.holdProduct_nonneg holdTimeMs fs' p hh h0.le hp
    rw [hset]
    simp only [Binary32.setSampleRate, fin_le_fin, not_le.mpr h0, if_false, hfs, eqB_fin_fin,
      hne', decide_False, Bool.not_false, if_true, Binary32.updateCoefficients, hp, toSizeT]
    exact ⟨trivial, Nat.floor_le hp0, Nat.lt_floor_add_one p⟩

/-- Witness of C13, amended: `setHoldTimeMs(530)` at 44100 Hz.  The binary32 product is
`23372.998` and the hold length is 23372 samples, one less than the floor 23373 of the
exact product `0.53 * 44100`. -/
theorem setHoldTimeMs_floor_binary32_witness :
    Binary32.fmul (Binary32.fdiv (fin 530) (fin 1000)) (fin 44100) = fin (11966975 / 512) ∧
      (Binary32.setHoldTimeMs {} (fin 530)).holdTimeSamples_ = ⌊(11966975 / 512 : ℚ)⌋₊ ∧
      ⌊(11966975 / 512 : ℚ)⌋₊ = 23372 ∧ ⌊(530 / 1000 * 44100 : ℚ)⌋₊ = 23373 :=
  ⟨by decide!,
    ((setHoldTimeMs_floor_binary32 (CMath.mk id id id) {} 530 44100 rfl (by norm_num)
      (by norm_num)).1 (11966975 / 512) (by decide!)).1,
    by decide!, by decide!⟩

end LevelEstimator

namespace LevelEstimator

/-- C14, counterexample: the default estimator (attack and release coefficients 1, no
hold) from the reset state.  On the input buffer `[+inf, 0]` the first sample raises the
estimate to `+inf`; on the second the release step computes `inf + (0 - inf) * 1`, which is
NaN: the estimate written and the state's estimate are NaN, and NaN is not `>= 0`.  In
binary32 finite samples do the same: on the three floats `[3 * 2^103, 2^128 - 2^104, 0]`
(the second is the largest float) the attack step rounds the difference
`2^128 - 2^104 - 3 * 2^103` up to `2^128 - 2^105` and the sum `2^128 - 2^103` up to
`+inf`, and the release step then gives NaN; in exact arithmetic the estimates on this
buffer are the three samples. -/
theorem levelEstimate_nan_of_inf :
    (estimateLevel ({} : LevelEstimator ℚ) [posInf, fin 0] {}).1 = [posInf, nan] ∧
      (estimateLevel ({} : LevelEstimator ℚ) [posInf, fin 0] {}).2.levelEstimate = nan ∧
      ¬ (fin 0 ≤ (estimateLevel ({} : LevelEstimator ℚ) [posInf, fin 0] {}).2.levelEstimate) ∧
      ¬ (fin 0 ≤ (estimateLevelLinked ({} : LevelEstimator ℚ) [posInf, fin 0] [fin 0, fin 0] {}
        false).2.levelEstimate) ∧
      Binary32.round (fin (3 * 2 ^ 103)) = fin (3 * 2 ^ 103) ∧
      Binary32.round (fin (2 ^ 128 - 2 ^ 104)) = fin (2 ^ 128 - 2 ^ 104) ∧
      (Binary32.estimateLevel {} [fin (3 * 2 ^ 103), fin (2 ^ 128 - 2 ^ 104), fin 0] {}).1 =
        [fin (3 * 2 ^ 103), posInf, nan] ∧
      ¬ (fin 0 ≤ (Binary32.estimateLevel {}
        [fin (3 * 2 ^ 103), fin (2 ^ 128 - 2 ^ 104), fin 0] {}).2.levelEstimate) ∧
      (estimateLevel ({} : LevelEstimator ℚ)
          [fin (3 * 2 ^ 103), fin (2 ^ 128 - 2 ^ 104), fin 0] {}).1 =
        [fin (3 * 2 ^ 103), fin (2 ^ 128 - 2 ^ 104), fin 0] := by
  decide!

end LevelEstimator

/-- C17, counterexample: the default estimator, two channels from the reset state on a
block of two samples, channel A `[+inf, 0]` (own envelope `[+inf, NaN]`) and channel B
`[1, 1]` (own envelope `[1, 1]`).  Processed in the order A, B the shared buffer ends as
`[+inf, NaN]`; in the order B, A it ends as `[+inf, 1]`: the comparison
`level > levelOutput[i]` is false whenever one side is NaN, so what was written first
stays. -/
theorem linkedLevelPass_order :
    linkedLevelPass ({} : LevelEstimator ℚ) 0 [([posInf, fin 0], {}), ([fin 1, fin 1], {})]
        [fin 0, fin 0] = [posInf, nan] ∧
      linkedLevelPass ({} : LevelEstimator ℚ) 0 [([fin 1, fin 1], {}), ([posInf, fin 0], {})]
        [fin 0, fin 0] = [posInf, fin 1] ∧
      linkedLevelPass ({} : LevelEstimator ℚ) 0 [([posInf, fin 0], {}), ([fin 1, fin 1], {})]
        [fin 0, fin 0] ≠
      linkedLevelPass ({} : LevelEstimator ℚ) 0 [([fin 1, fin 1], {}), ([posInf, fin 0], {})]
        [fin 0, fin 0] := by
  decide!

/-! ## The samples written by `processCompression` -/

namespace DelayLine

/-- The method `process` returns one output for every input. -/
theorem process_length (d : DelayLine α) (input : List (FloatX α)) :
    (process d input).1.length = input.length := by
  induction input generalizing d with
  | nil => rfl
  | cons x input ih => simp only [process, List.length_cons, ih]

end DelayLine

/-- In `zipWith3` a second list cut at the length of the first, or later, can be taken
whole. -/
theorem zipWith3_take {β γ δ ε : Type} (f : β → γ → δ → ε) (ds : List β) (ls : List γ)
    (os : List δ) (n : Nat) (h : ds.length ≤ n) :
    List.zipWith3 f ds (ls.take n) os = List.zipWith3 f ds ls os := by
  induction ds generalizing ls os n with
  | nil => simp [List.zipWith3]
  | cons d ds ih =>
    cases n with
    | zero => simp at h
    | succ n =>
      cases ls with
      | nil => rfl
      | cons l ls =>
        cases os with
        | nil => simp [List.zipWith3]
        | cons o os =>
          simp only [List.take_succ_cons, List.zipWith3]
          rw [ih ls os n (by simpa using h)]

namespace BroadbandCompressorAudioProcessor

variable {σ : Type}

/-- The sample loop of phase 2 over one channel writes, for every sample, the product of
the delayed sample, the linear gain `db2Mag(gainDb)` of the curve at the shared level of
that sample, and the next value of the output-gain smoother; it leaves the delay line and
the smoother as these calls leave them. -/
theorem compressChannel_outputs (m : CMath α) (J : SmoothedValueOps σ α)
    (curve : CompressionCurve α) (channelData levelData : List (FloatX α))
    (delayLine : DelayLine α) (s : σ) (maxGainReduction maxOutputLevel : FloatX α)
    (hlen : channelData.length ≤ levelData.length) :
    (compressChannel m J curve levelData channelData delayLine s maxGainReduction
        maxOutputLevel).outputs =
      List.zipWith3
        (fun d level o => d * db2Mag m (curve.calculateCompressionGainDb (mag2Db m level)) * o)
        (delayLine.process channelData).1 levelData (J.nextValues channelData.length s).1 ∧
    (compressChannel m J curve levelData channelData delayLine s maxGainReduction
        maxOutputLevel).delayLine = (delayLine.process channelData).2 ∧
    (compressChannel m J curve levelData channelData delayLine s maxGainReduction
        maxOutputLevel).outputGainSmoothed = (J.nextValues channelData.length s).2 := by
  induction channelData generalizing levelData delayLine s maxGainReduction
      maxOutputLevel with
  | nil => cases levelData <;> exact ⟨rfl, rfl, rfl⟩
  | cons x channelData ih =>
    cases levelData with
    | nil => simp at hlen
    | cons level levelData =>
      have hlen2 : channelData.length ≤ levelData.length := by simpa using hlen
      simp only [compressChannel, DelayLine.process, List.length_cons,
        SmoothedValueOps.nextValues, List.zipWith3]
      exact ⟨by rw [(ih _ _ _ _ _ hlen2).1], (ih _ _ _ _ _ hlen2).2.1, (ih _ _ _ _ _ hlen2).2.2⟩

/-- Phase 2 in linked mode writes to every channel, for every sample, the product of the
channel's delayed sample, the linear gain of the curve at the shared level of that sample
and the output gain. -/
theorem phase2_linked_channels (m : CMath α) (J : SmoothedValueOps σ α)
    (le : LevelEstimator α) (curve : CompressionCurve α) (channels : List (List (FloatX α)))
    (ch0 : Nat) (levelStates : List (LevelEstimator.State α)) (levelData : List (FloatX α))
    (delayLines : List (DelayLine α)) (s : σ) (maxGainReduction maxOutputLevel : FloatX α)
    (hlen : ∀ c ∈ channels, c.length ≤ levelData.length) :
    ∀ j, j < channels.length →
      (phase2 m J le curve true ch0 channels levelStates levelData delayLines s
          maxGainReduction maxOutputLevel).channels.getD j [] =
        List.zipWith3
          (fun d level o =>
            d * db2Mag m (curve.calculateCompressionGainDb (mag2Db m level)) * o)
          ((delayLines.getD (ch0 + j) {}).process (channels.getD j [])).1 levelData
          ((outputGainPass J channels s).getD j []) := by
  induction channels generalizing ch0 levelStates delayLines s maxGainReduction
      maxOutputLevel with
  | nil => intro j hj; simp at hj
  | cons c channels ih =>
    intro j hj
    have hc := hlen c (List.mem_cons_self c channels)
    have hout := compressChannel_outputs m J curve c levelData (delayLines.getD ch0 {}) s
      maxGainReduction maxOutputLevel hc
    simp only [phase2, Bool.not_true, Bool.false_and, Bool.false_eq_true, if_false,
      outputGainPass]
    cases j with
    | zero =>
      simp only [List.getD_cons_zero, Nat.add_zero]
      exact hout.1
    | succ j =>
      simp only [List.getD_cons_succ]
      rw [ih (ch0 + 1) _ _ _ _ _ (fun c2 hc2 => hlen c2 (List.mem_cons_of_mem c hc2)) j
        (by simpa using hj), getD_set_other _ _ _ _ _ (by omega), hout.2.2]
      have e : ch0 + 1 + j = ch0 + (j + 1) := by omega
      rw [e]

end BroadbandCompressorAudioProcessor

namespace LevelEstimator

/-- The method `estimateLevel` writes one level for every sample. -/
theorem estimateLevel_length (le : LevelEstimator α) (input : List (FloatX α))
    (state : State α) : (estimateLevel le input state).1.length = input.length := by
  induction input generalizing state with
  | nil => rfl
  | cons x input ih => simp only [estimateLevel, List.length_cons, ih]

/-- The method `estimateLevelLinked` keeps the length of the level buffer. -/
theorem estimateLevelLinked_length (le : LevelEstimator α) (input levelOutput : List (FloatX α))
    (state : State α) (linked : Bool) :
    (estimateLevelLinked le input levelOutput state linked).1.length = levelOutput.length := by
  induction input generalizing levelOutput state with
  | nil => cases levelOutput <;> rfl
  | cons x input ih =>
    cases levelOutput with
    | nil => rfl
    | cons y levelOutput => simp only [estimateLevelLinked, List.length_cons, ih]

end LevelEstimator

namespace BroadbandCompressorAudioProcessor

variable {σ : Type}

/-- Phase 1 keeps the length of the shared level buffer, when the buffer is at least as
long as every channel. -/
theorem phase1_levelData_length (J : SmoothedValueOps σ α) (le : LevelEstimator α)
    (linked : Bool) (channels : List (List (FloatX α))) (ch0 : Nat)
    (levelStates : List (LevelEstimator.State α)) (levelData : List (FloatX α)) (s : σ)
    (maxInputLevel : FloatX α) (hlen : ∀ c ∈ channels, c.length ≤ levelData.length) :
    (phase1 J le linked ch0 channels levelStates levelData s maxInputLevel).levelData.length =
      levelData.length := by
  induction channels generalizing ch0 levelStates levelData s maxInputLevel with
  | nil => rfl
  | cons c channels ih =>
    have hc := hlen c (List.mem_cons_self c channels)
    have hg := applyInputGain_length J c s maxInputLevel
    simp only [phase1]
    cases linked with
    | true =>
      simp only [if_true]
      rw [ih _ _ _ _ _ (fun c2 hc2 => by
        rw [LevelEstimator.estimateLevelLinked_length]
        exact hlen c2 (List.mem_cons_of_mem c hc2)),
        LevelEstimator.estimateLevelLinked_length]
    | false =>
      simp only [Bool.false_eq_true, if_false]
      have hl : ((le.estimateLevel (applyInputGain J c s maxInputLevel).1
            (levelStates.getD ch0 {})).1 ++
          levelData.drop (applyInputGain J c s maxInputLevel).1.length).length =
          levelData.length := by
        rw [List.length_append, LevelEstimator.estimateLevel_length, List.length_drop, hg]
        omega
      rw [ih _ _ _ _ _ (fun c2 hc2 => by
        rw [hl]
        exact hlen c2 (List.mem_cons_of_mem c hc2)), hl]

/-- Every channel the input-gain loops leave has the number of samples of the channels
they were given, when these all have `n` samples. -/
theorem inputGainPass_mem_length (J : SmoothedValueOps σ α) (channels : List (List (FloatX α)))
    (s : σ) (maxInputLevel : FloatX α) (n : Nat) (hn : ∀ c ∈ channels, c.length = n) :
    ∀ c ∈ inputGainPass J channels s maxInputLevel, c.length = n := by
  intro c hc
  have hlen := inputGainPass_length J channels s maxInputLevel
  have hmem : c.length ∈ (inputGainPass J channels s maxInputLevel).map List.length :=
    List.mem_map_of_mem _ hc
  rw [hlen] at hmem
  obtain ⟨c2, hc2, hc3⟩ := List.mem_map.mp hmem
  rw [← hc3]
  exact hn c2 hc2

/-- An entry of a list within its length is a member of the list. -/
theorem getD_mem {β : Type} (l : List β) (i : Nat) (d : β) (h : i < l.length) :
    l.getD i d ∈ l := by
  rw [List.getD_eq_getElem _ _ h]
  exact List.getElem_mem h

end BroadbandCompressorAudioProcessor

/-! ## The gains of every channel and sample -/

namespace BroadbandCompressorAudioProcessor

variable {σ : Type}

/-- Phase 1 in independent mode leaves in the shared level buffer the levels of the last
channel: every channel's `estimateLevel` writes the same first `n` entries. -/
theorem phase1_unlinked_levelData (J : SmoothedValueOps σ α) (le : LevelEstimator α)
    (n : Nat) (channels : List (List (FloatX α))) (hne : channels ≠ [])
    (hn : ∀ c ∈ channels, c.length = n) (ch0 : Nat)
    (levelStates : List (LevelEstimator.State α)) (levelData : List (FloatX α)) (s : σ)
    (maxInputLevel : FloatX α) (hld : n ≤ levelData.length) :
    (phase1 J le false ch0 channels levelStates levelData s maxInputLevel).levelData =
      (le.estimateLevel
          ((inputGainPass J channels s maxInputLevel).getD (channels.length - 1) [])
          (levelStates.getD (ch0 + (channels.length - 1)) {})).1 ++ levelData.drop n := by
  induction channels generalizing ch0 levelStates levelData s maxInputLevel with
  | nil => exact absurd rfl hne
  | cons c channels ih =>
    have hc : c.length = n := hn c (List.mem_cons_self c channels)
    have hg : (applyInputGain J c s maxInputLevel).1.length = n := by
      rw [applyInputGain_length, hc]
    simp only [phase1, Bool.false_eq_true, if_false, inputGainPass, List.length_cons,
      Nat.add_sub_cancel]
    by_cases hrest : channels = []
    · subst hrest
      simp only [phase1, List.length_nil, List.getD_cons_zero, Nat.add_zero, hg]
    · have hpos : 0 < channels.length := List.length_pos.mpr hrest
      have hest : (le.estimateLevel (applyInputGain J c s maxInputLevel).1
          (levelStates.getD ch0 {})).1.length = n := by
        rw [LevelEstimator.estimateLevel_length, hg]
      rw [ih hrest (fun c2 hc2 => hn c2 (List.mem_cons_of_mem c hc2)) (ch0 + 1) _ _ _ _
        (by rw [List.length_append, hest]; omega),
        getD_set_other _ _ _ _ _ (by omega), hg, List.drop_left' hest]
      have e1 : channels.length = (channels.length - 1) + 1 := by omega
      have e2 : ch0 + 1 + (channels.length - 1) = ch0 + channels.length := by omega
      rw [e2]
      nth_rewrite 3 [e1]
      rw [List.getD_cons_succ]

/-- Phase 2 records one list of gains for every channel. -/
theorem phase2_gainDb_length (m : CMath α) (J : SmoothedValueOps σ α)
    (le : LevelEstimator α) (curve : CompressionCurve α) (linked : Bool)
    (channels : List (List (FloatX α))) (ch0 : Nat)
    (levelStates : List (LevelEstimator.State α)) (levelData : List (FloatX α))
    (delayLines : List (DelayLine α)) (s : σ) (maxGainReduction maxOutputLevel : FloatX α) :
    (phase2 m J le curve linked ch0 channels levelStates levelData delayLines s
        maxGainReduction maxOutputLevel).gainDb.length = channels.length := by
  induction channels generalizing ch0 levelStates levelData delayLines s maxGainReduction
      maxOutputLevel with
  | nil => rfl
  | cons c channels ih => simp only [phase2, List.length_cons, ih]

/-- Phase 2 in independent mode: the gains of channel 0 are those of the curve at the
levels the shared buffer holds after phase 1; the gains of every other channel are those
of the curve at the levels of a new run of `estimateLevel` over the channel. -/
theorem phase2_unlinked_gainDb (m : CMath α) (J : SmoothedValueOps σ α)
    (le : LevelEstimator α) (curve : CompressionCurve α) (n : Nat)
    (channels : List (List (FloatX α))) (hn : ∀ c ∈ channels, c.length = n) (ch0 : Nat)
    (levelStates : List (LevelEstimator.State α)) (levelData : List (FloatX α))
    (delayLines : List (DelayLine α)) (s : σ) (maxGainReduction maxOutputLevel : FloatX α)
    (hld : n ≤ levelData.length) :
    ∀ j, j < channels.length →
      (phase2 m J le curve false ch0 channels levelStates levelData delayLines s
          maxGainReduction maxOutputLevel).gainDb.getD j [] =
        (if ch0 + j = 0 then levelData.take n
          else (le.estimateLevel (channels.getD j []) (levelStates.getD (ch0 + j) {})).1).map
          (fun level => curve.calculateCompressionGainDb (mag2Db m level)) := by
  induction channels generalizing ch0 levelStates levelData delayLines s maxGainReduction
      maxOutputLevel with
  | nil => intro j hj; simp at hj
  | cons c channels ih =>
    intro j hj
    have hc : c.length = n := hn c (List.mem_cons_self c channels)
    have hn2 : ∀ c2 ∈ channels, c2.length = n :=
      fun c2 hc2 => hn c2 (List.mem_cons_of_mem c hc2)
    by_cases h0 : ch0 > 0
    · have hest : (le.estimateLevel c (levelStates.getD ch0 {})).1.length = c.length :=
        LevelEstimator.estimateLevel_length le c _
      have hlen : ((le.estimateLevel c (levelStates.getD ch0 {})).1 ++
          levelData.drop c.length).length = levelData.length := by
        rw [List.length_append, hest, List.length_drop]
        omega
      simp only [phase2, Bool.not_false, Bool.true_and, decide_eq_true h0, if_true]
      cases j with
      | zero =>
        rw [List.getD_cons_zero, compressChannel_gainDb m J curve c _ _ _ _ _
          (by rw [hlen]; omega), List.take_left' hest, if_neg (by omega), Nat.add_zero,
          List.getD_cons_zero]
      | succ j =>
        rw [List.getD_cons_succ, ih hn2 (ch0 + 1) _ _ _ _ _ _ (by rw [hlen]; exact hld) j
          (by simpa using hj), if_neg (by omega), if_neg (by omega),
          getD_set_other _ _ _ _ _ (by omega), List.getD_cons_succ]
        have e : ch0 + 1 + j = ch0 + (j + 1) := by omega
        rw [e]
    · have h00 : ch0 = 0 := by omega
      subst h00
      simp only [phase2, Bool.not_false, Bool.true_and, gt_iff_lt, Nat.lt_irrefl,
        decide_False, Bool.false_eq_true, if_false]
      cases j with
      | zero =>
        rw [List.getD_cons_zero, compressChannel_gainDb m J curve c _ _ _ _ _
          (by omega), if_pos rfl, hc]
      | succ j =>
        rw [List.getD_cons_succ, ih hn2 (0 + 1) _ _ _ _ _ _ hld j (by simpa using hj),
          if_neg (by omega), if_neg (by omega), List.getD_cons_succ]
        have e : 0 + 1 + j = 0 + (j + 1) := by omega
        rw [e]

end BroadbandCompressorAudioProcessor

namespace BroadbandCompressorAudioProcessor

variable {σ : Type}

/-- The gains `processCompression` takes, for a block it processes (a delay line and an
envelope state for every channel, `numSamples` samples a channel): one list for every
channel, of one gain for every sample, the gain of the curve at the level read for that
channel and sample.  In linked mode the levels are those of the shared buffer; in
independent mode those of the second run of `estimateLevel` over the channel, but for
channel 0 those the shared buffer holds after phase 1, the levels of the last channel. -/
theorem processCompression_gainDb (m : CMath α) (J : SmoothedValueOps σ α)
    (p : BroadbandCompressorAudioProcessor σ α) (buffer : AudioBuffer α)
    (hdl : buffer.channels.length ≤ p.delayLines_.length)
    (hst : buffer.channels.length ≤ p.levelStates_.length)
    (hn : ∀ c ∈ buffer.channels, c.length = buffer.numSamples) :
    (processCompression m J p buffer).gainDb.length = buffer.channels.length ∧
    ∀ ch, ch < buffer.channels.length →
      ((processCompression m J p buffer).gainDb.getD ch []).length = buffer.numSamples ∧
      (processCompression m J p buffer).gainDb.getD ch [] =
        (if p.linkedParam_ > fin (1 / 2) then
          (processCompression m J p buffer).processor.levelBuffer_.take buffer.numSamples
        else if ch = 0 then
          (p.levelEstimator_.estimateLevel
            ((inputGainPass J buffer.channels p.inputGainSmoothed_ (fin 0)).getD
              (buffer.channels.length - 1) [])
            (p.levelStates_.getD (buffer.channels.length - 1) {})).1
        else
          (p.levelEstimator_.estimateLevel
            ((inputGainPass J buffer.channels p.inputGainSmoothed_ (fin 0)).getD ch [])
            (p.levelEstimator_.estimateLevel
              ((inputGainPass J buffer.channels p.inputGainSmoothed_ (fin 0)).getD ch [])
              (p.levelStates_.getD ch {})).2).1).map
          (fun level => p.compressionCurve_.calculateCompressionGainDb (mag2Db m level)) := by
  have hnot : ¬ (buffer.channels.length > p.delayLines_.length) := by omega
  have hpost : ∀ c ∈ inputGainPass J buffer.channels p.inputGainSmoothed_ (fin 0),
      c.length = buffer.numSamples :=
    inputGainPass_mem_length J _ _ _ buffer.numSamples hn
  have hplen := inputGainPass_channels J buffer.channels p.inputGainSmoothed_ (fin 0)
  have hlb0 : buffer.numSamples ≤
      (if p.levelBuffer_.length < buffer.numSamples then
        List.replicate buffer.numSamples (fin 0 : FloatX α) else p.levelBuffer_).length := by
    split_ifs with h
    · rw [List.length_replicate]
    · omega
  by_cases hl : p.linkedParam_ > fin (1 / 2)
  · have hdec : decide (p.linkedParam_ > fin (1 / 2)) = true := decide_eq_true hl
    simp only [processCompression, if_neg hnot, hdec, if_true, if_pos hl]
    generalize hlbdef : (List.replicate
        (if p.levelBuffer_.length < buffer.numSamples then
          List.replicate buffer.numSamples (fin 0) else p.levelBuffer_).length
        (fin 0 : FloatX α)) = lb
    have hlb : buffer.numSamples ≤ lb.length := by
      rw [← hlbdef, List.length_replicate]
      exact hlb0
    have hp1len := phase1_levelData_length J p.levelEstimator_ true buffer.channels 0
      p.levelStates_ lb p.inputGainSmoothed_ (fin 0) (fun c hc => by rw [hn c hc]; exact hlb)
    have hlen2 : ∀ c ∈ (phase1 J p.levelEstimator_ true 0 buffer.channels p.levelStates_ lb
        p.inputGainSmoothed_ (fin 0)).channels,
        c.length ≤ (phase1 J p.levelEstimator_ true 0 buffer.channels p.levelStates_ lb
          p.inputGainSmoothed_ (fin 0)).levelData.length := by
      intro c hc
      rw [phase1_channels] at hc
      rw [hp1len, hpost c hc]
      exact hlb
    have hp2 := phase2_linked m J p.levelEstimator_ p.compressionCurve_ _ 0
      (phase1 J p.levelEstimator_ true 0 buffer.channels p.levelStates_ lb
        p.inputGainSmoothed_ (fin 0)).levelStates _ p.delayLines_ p.outputGainSmoothed_
      (fin 0) (fin 0) hlen2
    rw [hp2.1, hp2.2, phase1_channels, List.length_map, hplen]
    refine ⟨rfl, fun ch hch => ?_⟩
    have hch2 : ch < (inputGainPass J buffer.channels p.inputGainSmoothed_ (fin 0)).length := by
      rw [hplen]
      exact hch
    rw [List.getD_eq_getElem _ _ (by rw [List.length_map]; exact hch2), List.getElem_map,
      hpost _ (List.getElem_mem hch2), List.length_map, List.length_take, hp1len]
    exact ⟨by omega, rfl⟩
  · have hdec : decide (p.linkedParam_ > fin (1 / 2)) = false := decide_eq_false hl
    simp only [processCompression, if_neg hnot, hdec, Bool.false_eq_true, if_false, if_neg hl]
    generalize hlbdef : (if p.levelBuffer_.length < buffer.numSamples then
        List.replicate buffer.numSamples (fin 0 : FloatX α) else p.levelBuffer_) = lb at hlb0
    have hp1len := phase1_levelData_length J p.levelEstimator_ false buffer.channels 0
      p.levelStates_ lb p.inputGainSmoothed_ (fin 0) (fun c hc => by rw [hn c hc]; exact hlb0)
    have hp1st := phase1_unlinked_states J p.levelEstimator_ buffer.channels 0
      p.levelStates_ lb p.inputGainSmoothed_ (fin 0) (by omega)
    rw [phase2_gainDb_length, phase1_channels, hplen]
    refine ⟨rfl, fun ch hch => ?_⟩
    have hne : buffer.channels ≠ [] := by
      intro h
      rw [h] at hch
      exact Nat.not_lt_zero _ hch
    have hch2 : ch < (inputGainPass J buffer.channels p.inputGainSmoothed_ (fin 0)).length := by
      rw [hplen]
      exact hch
    have hclen := hpost _ (getD_mem _ ch [] hch2)
    have hlast := hpost _ (getD_mem (inputGainPass J buffer.channels p.inputGainSmoothed_
      (fin 0)) (buffer.channels.length - 1) [] (by rw [hplen]; omega))
    have hstate : (phase1 J p.levelEstimator_ false 0 buffer.channels p.levelStates_ lb
        p.inputGainSmoothed_ (fin 0)).levelStates.getD ch {} =
        (p.levelEstimator_.estimateLevel
          ((inputGainPass J buffer.channels p.inputGainSmoothed_ (fin 0)).getD ch [])
          (p.levelStates_.getD ch {})).2 := by
      rw [hp1st.2 ch, if_pos (by omega), Nat.sub_zero]
    rw [phase2_unlinked_gainDb m J p.levelEstimator_ p.compressionCurve_ buffer.numSamples
      (inputGainPass J buffer.channels p.inputGainSmoothed_ (fin 0)) hpost 0 _ _ _ _ _ _
      (by rw [hp1len]; exact hlb0) ch hch2,
      Nat.zero_add, hstate,
      phase1_unlinked_levelData J p.levelEstimator_ buffer.numSamples buffer.channels hne hn
        0 p.levelStates_ lb p.inputGainSmoothed_ (fin 0) hlb0, Nat.zero_add,
      List.take_left' (by rw [LevelEstimator.estimateLevel_length, hlast])]
    by_cases h0 : ch = 0
    · refine ⟨?_, ?_⟩
      · rw [if_pos h0, List.length_map, LevelEstimator.estimateLevel_length, hlast]
      · rw [if_pos h0]
    · refine ⟨?_, ?_⟩
      · rw [if_neg h0, List.length_map, LevelEstimator.estimateLevel_length, hclen]
      · rw [if_neg h0]

end BroadbandCompressorAudioProcessor

namespace BroadbandCompressorAudioProcessor

variable {σ : Type}

/-- The gain-reduction meter after `processCompression`, for a block it processes: the
running minimum, from 0, of the gains of all channels and samples. -/
theorem processCompression_meter (m : CMath α) (J : SmoothedValueOps σ α)
    (p : BroadbandCompressorAudioProcessor σ α) (buffer : AudioBuffer α)
    (hdl : buffer.channels.length ≤ p.delayLines_.length) :
    (processCompression m J p buffer).processor.currentGainReductionDb_ ≤ fin 0 ∧
    ((processCompression m J p buffer).processor.currentGainReductionDb_ = fin 0 ∨
      (processCompression m J p buffer).processor.currentGainReductionDb_ ∈
        (processCompression m J p buffer).gainDb.flatten) ∧
    (∀ g ∈ (processCompression m J p buffer).gainDb.flatten, g ≠ nan →
      (processCompression m J p buffer).processor.currentGainReductionDb_ ≤ g) ∧
    ((∀ c ∈ buffer.channels, c = []) →
      (processCompression m J p buffer).processor.currentGainReductionDb_ = fin 0) := by
  have hnot : ¬ (buffer.channels.length > p.delayLines_.length) := by omega
  have hne : (fin 0 : FloatX α) ≠ nan := fun h => FloatX.noConfusion h
  simp only [processCompression, if_neg hnot]
  rw [(phase2_maxGainReduction m J _ _ _ _ _ _ _ _ _ _ _).1]
  have key := fun G : List (FloatX α) => foldl_min_spec G (fin 0) hne
  refine ⟨(key _).1, (key _).2.2.1, (key _).2.2.2, fun hempty => ?_⟩
  rw [phase2_gainDb_of_empty m J _ _ _ _ ?_]
  · rfl
  · intro c hc
    rw [phase1_channels] at hc
    have h0 := inputGainPass_mem_length J buffer.channels p.inputGainSmoothed_ (fin 0) 0
      (fun c2 hc2 => by rw [hempty c2 hc2]; rfl) c hc
    exact List.length_eq_zero.mp h0

/-- The sample loop of phase 2 over one channel applies the gains it takes: every sample
written is the product of the delayed sample, `db2Mag` of the value of `gainDb` at that
sample, and the next value of the output-gain smoother. -/
theorem compressChannel_applies (m : CMath α) (J : SmoothedValueOps σ α)
    (curve : CompressionCurve α) (channelData levelData : List (FloatX α))
    (delayLine : DelayLine α) (s : σ) (maxGainReduction maxOutputLevel : FloatX α)
    (hlen : channelData.length ≤ levelData.length) :
    (compressChannel m J curve levelData channelData delayLine s maxGainReduction
        maxOutputLevel).outputs =
      List.zipWith3 (fun d g o => d * db2Mag m g * o)
        (delayLine.process channelData).1
        (compressChannel m J curve levelData channelData delayLine s maxGainReduction
          maxOutputLevel).gainDb
        (J.nextValues channelData.length s).1 := by
  induction channelData generalizing levelData delayLine s maxGainReduction
      maxOutputLevel with
  | nil => cases levelData <;> rfl
  | cons x channelData ih =>
    cases levelData with
    | nil => simp at hlen
    | cons level levelData =>
      have hlen2 : channelData.length ≤ levelData.length := by simpa using hlen
      simp only [compressChannel, DelayLine.process, List.length_cons,
        SmoothedValueOps.nextValues, List.zipWith3]
      rw [ih _ _ _ _ _ hlen2]

/-- Phase 2 applies the gains it takes, in either mode: every sample written to a channel
is the product of the channel's delayed sample, `db2Mag` of the value of `gainDb` for that
channel and sample, and the output gain. -/
theorem phase2_applies (m : CMath α) (J : SmoothedValueOps σ α)
    (le : LevelEstimator α) (curve : CompressionCurve α) (linked : Bool) (n : Nat)
    (channels : List (List (FloatX α))) (hn : ∀ c ∈ channels, c.length = n) (ch0 : Nat)
    (levelStates : List (LevelEstimator.State α)) (levelData : List (FloatX α))
    (delayLines : List (DelayLine α)) (s : σ) (maxGainReduction maxOutputLevel : FloatX α)
    (hld : n ≤ levelData.length) :
    ∀ j, j < channels.length →
      (phase2 m J le curve linked ch0 channels levelStates levelData delayLines s
          maxGainReduction maxOutputLevel).channels.getD j [] =
        List.zipWith3 (fun d g o => d * db2Mag m g * o)
          ((delayLines.getD (ch0 + j) {}).process (channels.getD j [])).1
          ((phase2 m J le curve linked ch0 channels levelStates levelData delayLines s
            maxGainReduction maxOutputLevel).gainDb.getD j [])
          ((outputGainPass J channels s).getD j []) := by
  induction channels generalizing ch0 levelStates levelData delayLines s maxGainReduction
      maxOutputLevel with
  | nil => intro j hj; simp at hj
  | cons c channels ih =>
    intro j hj
    have hc : c.length = n := hn c (List.mem_cons_self c channels)
    have hn2 : ∀ c2 ∈ channels, c2.length = n :=
      fun c2 hc2 => hn c2 (List.mem_cons_of_mem c hc2)
    have hest : (le.estimateLevel c (levelStates.getD ch0 {})).1.length = c.length :=
      LevelEstimator.estimateLevel_length le c _
    have hlen : ((le.estimateLevel c (levelStates.getD ch0 {})).1 ++
        levelData.drop c.length).length = levelData.length := by
      rw [List.length_append, hest, List.length_drop]
      omega
    by_cases hcond : (!linked && decide (ch0 > 0)) = true
    · simp only [phase2, hcond, if_true, outputGainPass]
      have hout := compressChannel_outputs m J curve c
        ((le.estimateLevel c (levelStates.getD ch0 {})).1 ++ levelData.drop c.length)
        (delayLines.getD ch0 {}) s maxGainReduction maxOutputLevel (by rw [hlen]; omega)
      cases j with
      | zero =>
        simp only [List.getD_cons_zero, Nat.add_zero]
        exact compressChannel_applies m J curve c _ _ _ _ _ (by rw [hlen]; omega)
      | succ j =>
        simp only [List.getD_cons_succ]
        rw [ih hn2 (ch0 + 1) _ _ _ _ _ _ (by rw [hlen]; exact hld) j (by simpa using hj),
          getD_set_other _ _ _ _ _ (by omega), hout.2.2]
        have e : ch0 + 1 + j = ch0 + (j + 1) := by omega
        rw [e]
    · have hcond2 : (!linked && decide (ch0 > 0)) = false := Bool.eq_false_iff.mpr hcond
      simp only [phase2, hcond2, Bool.false_eq_true, if_false, outputGainPass]
      have hout := compressChannel_outputs m J curve c levelData
        (delayLines.getD ch0 {}) s maxGainReduction maxOutputLevel (by omega)
      cases j with
      | zero =>
        simp only [List.getD_cons_zero, Nat.add_zero]
        exact compressChannel_applies m J curve c _ _ _ _ _ (by omega)
      | succ j =>
        simp only [List.getD_cons_succ]
        rw [ih hn2 (ch0 + 1) _ _ _ _ _ _ hld j (by simpa using hj),
          getD_set_other _ _ _ _ _ (by omega), hout.2.2]
        have e : ch0 + 1 + j = ch0 + (j + 1) := by omega
        rw [e]

/-- For a block it processes, `processCompression` applies the gains it takes: the sample
`i` written to channel `ch` of the buffer is the product of the channel's delayed sample,
`db2Mag` of the value of `gainDb` for that channel and sample, and the output gain. -/
theorem processCompression_applies (m : CMath α) (J : SmoothedValueOps σ α)
    (p : BroadbandCompressorAudioProcessor σ α) (buffer : AudioBuffer α)
    (hdl : buffer.channels.length ≤ p.delayLines_.length)
    (hn : ∀ c ∈ buffer.channels, c.length = buffer.numSamples) :
    ∀ ch, ch < buffer.channels.length →
      (processCompression m J p buffer).buffer.channels.getD ch [] =
        List.zipWith3 (fun delayed gainDb outputGain => delayed * db2Mag m gainDb * outputGain)
          ((p.delayLines_.getD ch {}).process
            ((inputGainPass J buffer.channels p.inputGainSmoothed_ (fin 0)).getD ch [])).1
          ((processCompression m J p buffer).gainDb.getD ch [])
          ((outputGainPass J (inputGainPass J buffer.channels p.inputGainSmoothed_ (fin 0))
            p.outputGainSmoothed_).getD ch []) := by
  intro ch hch
  have hnot : ¬ (buffer.channels.length > p.delayLines_.length) := by omega
  have hpost : ∀ c ∈ inputGainPass J buffer.channels p.inputGainSmoothed_ (fin 0),
      c.length = buffer.numSamples :=
    inputGainPass_mem_length J _ _ _ buffer.numSamples hn
  have hplen := inputGainPass_channels J buffer.channels p.inputGainSmoothed_ (fin 0)
  have hlb0 : buffer.numSamples ≤
      (if p.levelBuffer_.length < buffer.numSamples then
        List.replicate buffer.numSamples (fin 0 : FloatX α) else p.levelBuffer_).length := by
    split_ifs with h
    · rw [List.length_replicate]
    · omega
  simp only [processCompression, if_neg hnot]
  generalize hlbdef : (if decide (p.linkedParam_ > fin (1 / 2)) = true then
      List.replicate
        (if p.levelBuffer_.length < buffer.numSamples then
          List.replicate buffer.numSamples (fin 0) else p.levelBuffer_).length
        (fin 0 : FloatX α)
      else (if p.levelBuffer_.length < buffer.numSamples then
        List.replicate buffer.numSamples (fin 0) else p.levelBuffer_)) = lb
  have hlb : buffer.numSamples ≤ lb.length := by
    rw [← hlbdef]
    split_ifs
    · rw [List.length_replicate, List.length_replicate]
    · rw [List.length_replicate]
      omega
    · rw [List.length_replicate]
    · omega
  have hp1len := phase1_levelData_length J p.levelEstimator_
    (decide (p.linkedParam_ > fin (1 / 2))) buffer.channels 0
    p.levelStates_ lb p.inputGainSmoothed_ (fin 0) (fun c hc => by rw [hn c hc]; exact hlb)
  have h := phase2_applies m J p.levelEstimator_ p.compressionCurve_
    (decide (p.linkedParam_ > fin (1 / 2))) buffer.numSamples
    (phase1 J p.levelEstimator_ (decide (p.linkedParam_ > fin (1 / 2))) 0 buffer.channels
      p.levelStates_ lb p.inputGainSmoothed_ (fin 0)).channels
    (fun c hc => by rw [phase1_channels] at hc; exact hpost c hc) 0
    (phase1 J p.levelEstimator_ (decide (p.linkedParam_ > fin (1 / 2))) 0 buffer.channels
      p.levelStates_ lb p.inputGainSmoothed_ (fin 0)).levelStates
    (phase1 J p.levelEstimator_ (decide (p.linkedParam_ > fin (1 / 2))) 0 buffer.channels
      p.levelStates_ lb p.inputGainSmoothed_ (fin 0)).levelData
    p.delayLines_ p.outputGainSmoothed_ (fin 0) (fin 0) (by rw [hp1len]; exact hlb) ch
    (by rw [phase1_channels, hplen]; exact hch)
  rw [phase1_channels, Nat.zero_add] at h
  rw [phase1_channels]
  exact h

/-- C27: for a block that `processCompression` processes (a delay line and an envelope
state for every channel of the buffer, `numSamples` samples a channel), the loop takes one
gain `gainDb = calculateCompressionGainDb(mag2Db(level))` for every (channel, sample) pair,
at the level read from the level buffer for that pair (in linked mode the shared level;
in independent mode the level of the channel's second `estimateLevel` run, and for channel
0 the level the buffer holds after phase 1), and the published gain reduction is the
minimum of 0 and of these gains: it is `<= 0`, it is 0 or one of the gains, it is `<=`
every one of them (other than NaN), and it is 0 for a block with no samples.  These gains
are the ones applied: the sample `i` written to channel `ch` of the buffer is the product
of the channel's delayed sample, `db2Mag` of the gain of that pair, and the output gain. -/
theorem processCompression_gainReduction (m : CMath α) (J : SmoothedValueOps σ α)
    (p : BroadbandCompressorAudioProcessor σ α) (buffer : AudioBuffer α)
    (hdl : buffer.channels.length ≤ p.delayLines_.length)
    (hst : buffer.channels.length ≤ p.levelStates_.length)
    (hn : ∀ c ∈ buffer.channels, c.length = buffer.numSamples) :
    ((processCompression m J p buffer).gainDb.length = buffer.channels.length ∧
      ∀ ch, ch < buffer.channels.length →
        ((processCompression m J p buffer).gainDb.getD ch []).length = buffer.numSamples ∧
        (processCompression m J p buffer).gainDb.getD ch [] =
          (if p.linkedParam_ > fin (1 / 2) then
            (processCompression m J p buffer).processor.levelBuffer_.take buffer.numSamples
          else if ch = 0 then
            (p.levelEstimator_.estimateLevel
              ((inputGainPass J buffer.channels p.inputGainSmoothed_ (fin 0)).getD
                (buffer.channels.length - 1) [])
              (p.levelStates_.getD (buffer.channels.length - 1) {})).1
          else
            (p.levelEstimator_.estimateLevel
              ((inputGainPass J buffer.channels p.inputGainSmoothed_ (fin 0)).getD ch [])
              (p.levelEstimator_.estimateLevel
                ((inputGainPass J buffer.channels p.inputGainSmoothed_ (fin 0)).getD ch [])
                (p.levelStates_.getD ch {})).2).1).map
            (fun level =>
              p.compressionCurve_.calculateCompressionGainDb (mag2Db m level))) ∧
    (processCompression m J p buffer).processor.currentGainReductionDb_ ≤ fin 0 ∧
    ((processCompression m J p buffer).processor.currentGainReductionDb_ = fin 0 ∨
      (processCompression m J p buffer).processor.currentGainReductionDb_ ∈
        (processCompression m J p buffer).gainDb.flatten) ∧
    (∀ g ∈ (processCompression m J p buffer).gainDb.flatten, g ≠ nan →
      (processCompression m J p buffer).processor.currentGainReductionDb_ ≤ g) ∧
    (buffer.numSamples = 0 →
      (processCompression m J p buffer).processor.currentGainReductionDb_ = fin 0) ∧
    ∀ ch, ch < buffer.channels.length →
      (processCompression m J p buffer).buffer.channels.getD ch [] =
        List.zipWith3 (fun delayed gainDb outputGain => delayed * db2Mag m gainDb * outputGain)
          ((p.delayLines_.getD ch {}).process
            ((inputGainPass J buffer.channels p.inputGainSmoothed_ (fin 0)).getD ch [])).1
          ((processCompression m J p buffer).gainDb.getD ch [])
          ((outputGainPass J (inputGainPass J buffer.channels p.inputGainSmoothed_ (fin 0))
            p.outputGainSmoothed_).getD ch []) := by
  have h := processCompression_meter m J p buffer hdl
  exact ⟨processCompression_gainDb m J p buffer hdl hst hn, h.1, h.2.1, h.2.2.1,
    fun h0 => h.2.2.2 (fun c hc => List.length_eq_zero.mp (by rw [hn c hc, h0])),
    processCompression_applies m J p buffer hdl hn⟩

/-- Witness of C27: an unlinked stereo block of two samples a channel; the published gain
reduction is `<= 0`. -/
theorem processCompression_gainReduction_witness :
    (processCompression realMath
        (SmoothedValueOps.mk (fun _ : Unit => (fin 1, ())) (fun _ _ => ()))
        ({ linkedParam_ := fin 0, bypassParam_ := fin 0, inputGainParam_ := fin 0,
           thresholdParam_ := fin (-20), ratioParam_ := fin 4, kneeWidthParam_ := fin 0,
           outputGainParam_ := fin 0, attackTimeParam_ := fin 0, releaseTimeParam_ := fin 100,
           holdTimeParam_ := fin 0, lookaheadTimeParam_ := fin 0,
           compressionCurve_ := { thresholdDb_ := fin (-20), compressionRatio_ := fin 4 },
           delayLines_ := [DelayLine.prepare {} 0, DelayLine.prepare {} 0],
           levelStates_ := [{}, {}],
           inputGainSmoothed_ := (), outputGainSmoothed_ := () } :
          BroadbandCompressorAudioProcessor Unit ℝ)
        { numSamples := 2, channels := [[fin 1, fin 2], [fin 3, fin 4]] }
      ).gainDb.length = 2 ∧
    (processCompression realMath
        (SmoothedValueOps.mk (fun _ : Unit => (fin 1, ())) (fun _ _ => ()))
        ({ linkedParam_ := fin 0, bypassParam_ := fin 0, inputGainParam_ := fin 0,
           thresholdParam_ := fin (-20), ratioParam_ := fin 4, kneeWidthParam_ := fin 0,
           outputGainParam_ := fin 0, attackTimeParam_ := fin 0, releaseTimeParam_ := fin 100,
           holdTimeParam_ := fin 0, lookaheadTimeParam_ := fin 0,
           compressionCurve_ := { thresholdDb_ := fin (-20), compressionRatio_ := fin 4 },
           delayLines_ := [DelayLine.prepare {} 0, DelayLine.prepare {} 0],
           levelStates_ := [{}, {}],
           inputGainSmoothed_ := (), outputGainSmoothed_ := () } :
          BroadbandCompressorAudioProcessor Unit ℝ)
        { numSamples := 2, channels := [[fin 1, fin 2], [fin 3, fin 4]] }
      ).processor.currentGainReductionDb_ ≤ fin 0 :=
  have h := processCompression_gainReduction realMath
    (SmoothedValueOps.mk (fun _ : Unit => (fin 1, ())) (fun _ _ => ()))
    ({ linkedParam_ := fin 0, bypassParam_ := fin 0, inputGainParam_ := fin 0,
       thresholdParam_ := fin (-20), ratioParam_ := fin 4, kneeWidthParam_ := fin 0,
       outputGainParam_ := fin 0, attackTimeParam_ := fin 0, releaseTimeParam_ := fin 100,
       holdTimeParam_ := fin 0, lookaheadTimeParam_ := fin 0,
       compressionCurve_ := { thresholdDb_ := fin (-20), compressionRatio_ := fin 4 },
       delayLines_ := [DelayLine.prepare {} 0, DelayLine.prepare {} 0],
       levelStates_ := [{}, {}],
       inputGainSmoothed_ := (), outputGainSmoothed_ := () } :
      BroadbandCompressorAudioProcessor Unit ℝ)
    { numSamples := 2, channels := [[fin 1, fin 2], [fin 3, fin 4]] } (by decide) (by decide)
    (by simp)
  ⟨h.1.1, h.2.1⟩

end BroadbandCompressorAudioProcessor

/-! ## Linked level detection on every input -/

namespace FloatX

/-- Two values, each at most the other, are equal. -/
theorem eq_of_mutual_le {a b : FloatX α} (h1 : a ≤ b) (h2 : b ≤ a) : a = b := by
  cases a <;> cases b <;>
    first
      | exact (Bool.false_ne_true h1).elim
      | exact (Bool.false_ne_true h2).elim
      | rfl
      | (rw [fin_le_fin] at h1 h2; rw [le_antisymm h1 h2])

end FloatX

/-- An entry of the buffer after the write at the end of the loop of `estimateLevelLinked`,
from the envelope values `levels` of the channel and the buffer `levelOutput` before the
call. -/
theorem getD_linkedWrite (linked : Bool) (levels levelOutput : List (FloatX α))
    (hlen : levels.length ≤ levelOutput.length) (i : Nat) :
    (List.zipWith (fun level y => if linked then (if level > y then level else y) else level)
        levels levelOutput ++ levelOutput.drop levels.length).getD i nan =
      if i < levels.length then
        (if linked then
          (if levels.getD i nan > levelOutput.getD i nan then levels.getD i nan
            else levelOutput.getD i nan)
          else levels.getD i nan)
      else levelOutput.getD i nan := by
  induction levels generalizing levelOutput i with
  | nil => simp
  | cons l levels ih =>
    cases levelOutput with
    | nil => simp at hlen
    | cons y ys =>
      have hlen2 : levels.length ≤ ys.length := by simpa using hlen
      cases i with
      | zero => simp
      | succ i =>
        simp only [List.zipWith_cons_cons, List.cons_append, List.length_cons,
          List.drop_succ_cons, List.getD_cons_succ, Nat.add_lt_add_iff_right]
        exact ih ys hlen2 i

/-- A pass over the channels `cs` that leaves, for each channel in turn, the buffer that
the write at the end of the loop of `estimateLevelLinked` gives from the channel's own
envelope `E c` (linked from the second call on), when no envelope has a NaN (and the
buffer has none in its first `n` entries when `ch > 0`): the length and the entries past
`n` are kept; each of the first `n` entries is at least every channel's own envelope value
and, for `ch > 0`, at least the entry before; and it is one of these values. -/
theorem linkedWrite_pass_entries {γ : Type} (E : γ → List (FloatX α))
    (pass : Nat → List γ → List (FloatX α) → List (FloatX α))
    (hnil : ∀ ch lo, pass ch [] lo = lo)
    (hcons : ∀ ch c cs lo, (E c).length ≤ lo.length →
      pass ch (c :: cs) lo =
        pass (ch + 1) cs
          (List.zipWith
              (fun level y => if decide (ch > 0) then (if level > y then level else y) else level)
              (E c) lo ++ lo.drop (E c).length))
    (n : Nat) (cs : List γ) (hlen : ∀ c ∈ cs, (E c).length = n)
    (hnan : ∀ c ∈ cs, ∀ i, i < n → (E c).getD i nan ≠ nan)
    (ch : Nat) (lo : List (FloatX α)) (hbuf : n ≤ lo.length)
    (hlo : 0 < ch → ∀ i, i < n → lo.getD i nan ≠ nan) :
    (pass ch cs lo).length = lo.length ∧
      ∀ i, (n ≤ i → (pass ch cs lo).getD i nan = lo.getD i nan) ∧
        (i < n →
          (∀ c ∈ cs, (E c).getD i nan ≤ (pass ch cs lo).getD i nan) ∧
          (0 < ch → lo.getD i nan ≤ (pass ch cs lo).getD i nan) ∧
          (((0 < ch ∨ cs = []) ∧ (pass ch cs lo).getD i nan = lo.getD i nan) ∨
            ∃ c ∈ cs, (pass ch cs lo).getD i nan = (E c).getD i nan)) := by
  induction cs generalizing ch lo with
  | nil =>
    rw [hnil]
    exact ⟨rfl, fun i => ⟨fun _ => rfl, fun hi => ⟨fun c hc => absurd hc (List.not_mem_nil c),
      fun hch => le_self_of_ne_nan (hlo hch i hi), Or.inl ⟨Or.inr rfl, rfl⟩⟩⟩⟩
  | cons c cs ih =>
    have hE : (E c).length = n := hlen c (List.mem_cons_self _ cs)
    have hEnan : ∀ i, i < n → (E c).getD i nan ≠ nan := hnan c (List.mem_cons_self _ cs)
    have hElo : (E c).length ≤ lo.length := by rw [hE]; exact hbuf
    rw [hcons ch c cs lo hElo]
    generalize hlo1 : List.zipWith
      (fun level y => if decide (ch > 0) then (if level > y then level else y) else level)
      (E c) lo ++ lo.drop (E c).length = lo1
    -- the buffer after the call for this channel
    have hlo2 : ∀ i, lo1.getD i nan =
        if i < n then
          (if decide (ch > 0) = true then
            (if (E c).getD i nan > lo.getD i nan then (E c).getD i nan else lo.getD i nan)
            else (E c).getD i nan)
        else lo.getD i nan := by
      intro i
      have h := getD_linkedWrite (decide (ch > 0)) (E c) lo hElo i
      rw [hE] at h
      rw [← hlo1, ← hE]
      rw [hE]
      exact h
    have hlen2 : lo1.length = lo.length := by
      rw [← hlo1, List.length_append, List.length_zipWith, List.length_drop]
      omega
    -- its first entries are not NaN
    have hnan2 : ∀ i, i < n → lo1.getD i nan ≠ nan := by
      intro i hi
      rw [hlo2 i, if_pos hi]
      by_cases hch : 0 < ch
      · have hd : decide (ch > 0) = true := by simpa using hch
        rw [if_pos hd]
        split_ifs
        · exact hEnan i hi
        · exact hlo hch i hi
      · have hd : ¬ decide (ch > 0) = true := by simpa using hch
        rw [if_neg hd]
        exact hEnan i hi
    have h := ih (fun c hc => hlen c (List.mem_cons_of_mem _ hc))
      (fun c hc => hnan c (List.mem_cons_of_mem _ hc)) (ch + 1) lo1
      (by rw [hlen2]; exact hbuf) (fun _ => hnan2)
    rw [hlen2] at h
    refine ⟨h.1, fun i => ⟨fun hi => ?_, fun hi => ?_⟩⟩
    · rw [(h.2 i).1 hi, hlo2 i, if_neg (by omega)]
    · obtain ⟨h1, h2, h3⟩ := (h.2 i).2 hi
      have h2 := h2 (Nat.succ_pos ch)
      rw [hlo2 i, if_pos hi] at h2 h3
      have hEi := hEnan i hi
      refine ⟨fun c2 hc => ?_, fun hch => ?_, ?_⟩
      · rcases List.mem_cons.mp hc with rfl | hc
        · refine le_then_le ?_ h2
          by_cases hch : 0 < ch
          · have hd : decide (ch > 0) = true := by simpa using hch
            rw [if_pos hd]
            split_ifs with hgt
            · exact le_self_of_ne_nan hEi
            · exact le_of_not_below (hlo hch i hi) hEi hgt
          · have hd : ¬ decide (ch > 0) = true := by simpa using hch
            rw [if_neg hd]
            exact le_self_of_ne_nan hEi
        · exact h1 c2 hc
      · refine le_then_le ?_ h2
        have hd : decide (ch > 0) = true := by simpa using hch
        rw [if_pos hd]
        split_ifs with hgt
        · exact lt_then_le hgt (le_self_of_ne_nan hEi)
        · exact le_self_of_ne_nan (hlo hch i hi)
      · rcases h3 with ⟨_, h3⟩ | ⟨c2, hc, h3⟩
        · by_cases hch : 0 < ch
          · have hd : decide (ch > 0) = true := by simpa using hch
            rw [if_pos hd] at h3
            split_ifs at h3 with hgt
            · exact Or.inr ⟨c, List.mem_cons_self _ cs, h3⟩
            · exact Or.inl ⟨Or.inl hch, h3⟩
          · have hd : ¬ decide (ch > 0) = true := by simpa using hch
            rw [if_neg hd] at h3
            exact Or.inr ⟨c, List.mem_cons_self _ cs, h3⟩
        · exact Or.inr ⟨c2, List.mem_cons_of_mem _ hc, h3⟩

/-- Such a pass from the first channel on, over `C >= 1` channels without NaN in their own
envelopes: each of the first `n` entries of the final buffer is the maximum of the
channels' own envelope values, and every order of the channels gives the same buffer. -/
theorem linkedWrite_pass_max {γ : Type} (E : γ → List (FloatX α))
    (pass : Nat → List γ → List (FloatX α) → List (FloatX α))
    (hnil : ∀ ch lo, pass ch [] lo = lo)
    (hcons : ∀ ch c cs lo, (E c).length ≤ lo.length →
      pass ch (c :: cs) lo =
        pass (ch + 1) cs
          (List.zipWith
              (fun level y => if decide (ch > 0) then (if level > y then level else y) else level)
              (E c) lo ++ lo.drop (E c).length))
    (n : Nat) (chans : List γ) (hne : chans ≠ []) (hlen : ∀ c ∈ chans, (E c).length = n)
    (levelOutput : List (FloatX α)) (hbuf : n ≤ levelOutput.length)
    (hnan : ∀ c ∈ chans, ∀ y ∈ E c, y ≠ nan) :
    (∀ i, i < n →
      (∀ c ∈ chans, (E c).getD i nan ≤ (pass 0 chans levelOutput).getD i nan) ∧
      ∃ c ∈ chans, (pass 0 chans levelOutput).getD i nan = (E c).getD i nan) ∧
    ∀ chans2 : List γ, chans2.Perm chans →
      pass 0 chans2 levelOutput = pass 0 chans levelOutput := by
  have hnanD : ∀ cs : List γ, (∀ c ∈ cs, c ∈ chans) →
      ∀ c ∈ cs, ∀ i, i < n → (E c).getD i nan ≠ nan := by
    intro cs hcs c hc i hi
    have hi2 : i < (E c).length := by
      rw [hlen c (hcs c hc)]
      exact hi
    rw [List.getD_eq_getElem _ _ hi2]
    exact hnan c (hcs c hc) _ (List.getElem_mem hi2)
  have hmain := linkedWrite_pass_entries E pass hnil hcons n chans hlen
    (hnanD chans (fun c hc => hc)) 0 levelOutput hbuf (fun h0 => absurd h0 (Nat.lt_irrefl 0))
  have hex : ∀ cs : List γ, cs ≠ [] → ∀ i,
      (((0 < 0 ∨ cs = []) ∧ (pass 0 cs levelOutput).getD i nan = levelOutput.getD i nan) ∨
        ∃ c ∈ cs, (pass 0 cs levelOutput).getD i nan = (E c).getD i nan) →
      ∃ c ∈ cs, (pass 0 cs levelOutput).getD i nan = (E c).getD i nan := by
    intro cs hcs i h3
    rcases h3 with ⟨h0 | h0, _⟩ | h3
    · exact absurd h0 (Nat.lt_irrefl 0)
    · exact absurd h0 hcs
    · exact h3
  refine ⟨fun i hi => ?_, fun chans2 hperm => ?_⟩
  · obtain ⟨h1, _, h3⟩ := (hmain.2 i).2 hi
    exact ⟨h1, hex chans hne i h3⟩
  · have hne2 : chans2 ≠ [] := fun h0 => hne (List.Perm.eq_nil (by rw [← h0]; exact hperm.symm))
    have hmain2 := linkedWrite_pass_entries E pass hnil hcons n chans2
      (fun c hc => hlen c (hperm.mem_iff.mp hc))
      (hnanD chans2 (fun c hc => hperm.mem_iff.mp hc)) 0
      levelOutput hbuf (fun h0 => absurd h0 (Nat.lt_irrefl 0))
    apply ext_getD nan _ _ (by rw [hmain.1, hmain2.1])
    intro i _
    by_cases hi : i < n
    · obtain ⟨h1, _, h3⟩ := (hmain.2 i).2 hi
      obtain ⟨h4, _, h6⟩ := (hmain2.2 i).2 hi
      obtain ⟨c, hc, hc3⟩ := hex chans hne i h3
      obtain ⟨c2, hc2, hc6⟩ := hex chans2 hne2 i h6
      apply eq_of_mutual_le
      · rw [hc6]
        exact h1 c2 (hperm.mem_iff.mp hc2)
      · rw [hc3]
        exact h4 c (hperm.mem_iff.mpr hc)
    · rw [(hmain.2 i).1 (by omega), (hmain2.2 i).1 (by omega)]

/-- One call of the pass `linkedLevelPass`, from the channel's own envelope. -/
theorem linkedLevelPass_cons (le : LevelEstimator α) (ch : Nat)
    (c : List (FloatX α) × LevelEstimator.State α)
    (cs : List (List (FloatX α) × LevelEstimator.State α)) (lo : List (FloatX α))
    (h : (le.estimateLevel c.1 c.2).1.length ≤ lo.length) :
    linkedLevelPass le ch (c :: cs) lo =
      linkedLevelPass le (ch + 1) cs
        (List.zipWith
            (fun level y => if decide (ch > 0) then (if level > y then level else y) else level)
            (le.estimateLevel c.1 c.2).1 lo ++ lo.drop (le.estimateLevel c.1 c.2).1.length) := by
  obtain ⟨input, state⟩ := c
  rw [LevelEstimator.estimateLevel_length] at h ⊢
  show linkedLevelPass le (ch + 1) cs
      (le.estimateLevelLinked input lo state (decide (ch > 0))).1 = _
  rw [LevelEstimator.estimateLevelLinked_eq le _ _ _ _ h]

/-- C17, amended: linked combination.  `C >= 1` channels of `n` samples each are run over
one block on the shared buffer, the first processed channel calling `estimateLevelLinked`
with `linked = false` and every later one with `linked = true`, and no channel's own
envelope (the values `estimateLevel` gives for that channel) has a NaN.  Then at every
index `i < n` the final `levelOutput[i]` is the maximum over the channels of the channel's
own envelope value at `i`: it is at least each of them and equal to one of them.  And the
final buffer is the same for every order in which the channels are processed. -/
theorem linkedLevelPass_max (le : LevelEstimator α) (n : Nat)
    (chans : List (List (FloatX α) × LevelEstimator.State α)) (hne : chans ≠ [])
    (hlen : ∀ c ∈ chans, c.1.length = n) (levelOutput : List (FloatX α))
    (hbuf : n ≤ levelOutput.length)
    (hnan : ∀ c ∈ chans, ∀ y ∈ (le.estimateLevel c.1 c.2).1, y ≠ nan) :
    (∀ i, i < n →
      (∀ c ∈ chans,
        (le.estimateLevel c.1 c.2).1.getD i nan ≤
          (linkedLevelPass le 0 chans levelOutput).getD i nan) ∧
      ∃ c ∈ chans,
        (linkedLevelPass le 0 chans levelOutput).getD i nan =
          (le.estimateLevel c.1 c.2).1.getD i nan) ∧
    ∀ chans2 : List (List (FloatX α) × LevelEstimator.State α), chans2.Perm chans →
      linkedLevelPass le 0 chans2 levelOutput = linkedLevelPass le 0 chans levelOutput :=
  linkedWrite_pass_max (fun c => (le.estimateLevel c.1 c.2).1) (linkedLevelPass le)
    (fun _ _ => rfl) (linkedLevelPass_cons le) n chans hne
    (fun c hc => by rw [LevelEstimator.estimateLevel_length]; exact hlen c hc)
    levelOutput hbuf hnan

/-- Witness of C17: two channels of two samples from reset states, one of them with an
infinite sample (its envelope is `1, +inf`, without NaN); processing them in the other
order gives the same shared buffer. -/
theorem linkedLevelPass_max_witness :
    linkedLevelPass ({} : LevelEstimator ℚ) 0
        [([fin (9 / 10), fin (9 / 10)], {}), ([fin 1, negInf], {})] [fin 0, fin 0] =
      linkedLevelPass ({} : LevelEstimator ℚ) 0
        [([fin 1, negInf], {}), ([fin (9 / 10), fin (9 / 10)], {})] [fin 0, fin 0] :=
  (linkedLevelPass_max ({} : LevelEstimator ℚ) 2
    [([fin 1, negInf], {}), ([fin (9 / 10), fin (9 / 10)], {})] (by simp) (by simp)
    [fin 0, fin 0] (by simp) (by decide!)).2
    [([fin (9 / 10), fin (9 / 10)], {}), ([fin 1, negInf], {})] (List.Perm.swap _ _ _)

namespace Binary32

/-- In binary32 too, `estimateLevel` writes one level for every sample. -/
theorem estimateLevel_length_binary32 (le : LevelEstimator ℚ) (input : List (FloatX ℚ))
    (state : LevelEstimator.State ℚ) :
    (estimateLevel le input state).1.length = input.length := by
  induction input generalizing state with
  | nil => rfl
  | cons x input ih => simp only [estimateLevel, List.length_cons, ih]

/-- In binary32 too, the buffer and state after `estimateLevelLinked` are given by the
channel's own envelope `estimateLevel`. -/
theorem estimateLevelLinked_eq_binary32 (le : LevelEstimator ℚ) (linked : Bool)
    (input levelOutput : List (FloatX ℚ)) (state : LevelEstimator.State ℚ)
    (hlen : input.length ≤ levelOutput.length) :
    estimateLevelLinked le input levelOutput state linked =
      (List.zipWith
          (fun level y => if linked then (if level > y then level else y) else level)
          (estimateLevel le input state).1 levelOutput ++ levelOutput.drop input.length,
        (estimateLevel le input state).2) := by
  induction input generalizing levelOutput state with
  | nil =>
    cases levelOutput <;> simp [estimateLevelLinked, estimateLevel]
  | cons x input ih =>
    cases levelOutput with
    | nil => simp at hlen
    | cons y levelOutput =>
      have hlen2 : input.length ≤ levelOutput.length := by simpa using hlen
      simp only [estimateLevelLinked, estimateLevel, List.zipWith_cons_cons, List.cons_append,
        List.length_cons, List.drop_succ_cons]
      rw [ih _ _ hlen2]

/-- One call of the pass `Binary32.linkedLevelPass`, from the channel's own envelope. -/
theorem linkedLevelPass_cons_binary32 (le : LevelEstimator ℚ) (ch : Nat)
    (c : List (FloatX ℚ) × LevelEstimator.State ℚ)
    (cs : List (List (FloatX ℚ) × LevelEstimator.State ℚ)) (lo : List (FloatX ℚ))
    (h : (estimateLevel le c.1 c.2).1.length ≤ lo.length) :
    linkedLevelPass le ch (c :: cs) lo =
      linkedLevelPass le (ch + 1) cs
        (List.zipWith
            (fun level y => if decide (ch > 0) then (if level > y then level else y) else level)
            (estimateLevel le c.1 c.2).1 lo ++ lo.drop (estimateLevel le c.1 c.2).1.length) := by
  obtain ⟨input, state⟩ := c
  rw [estimateLevel_length_binary32] at h ⊢
  show linkedLevelPass le (ch + 1) cs
      (estimateLevelLinked le input lo state (decide (ch > 0))).1 = _
  rw [estimateLevelLinked_eq_binary32 le _ _ _ _ h]

/-- The linked combination in binary32: with every operation of the envelope rounded to
binary32, the final shared buffer is again the maximum of the channels' own envelope
values at every index, and the same for every order of the channels, when no channel's own
envelope has a NaN. -/
theorem linkedLevelPass_max_binary32 (le : LevelEstimator ℚ) (n : Nat)
    (chans : List (List (FloatX ℚ) × LevelEstimator.State ℚ)) (hne : chans ≠ [])
    (hlen : ∀ c ∈ chans, c.1.length = n) (levelOutput : List (FloatX ℚ))
    (hbuf : n ≤ levelOutput.length)
    (hnan : ∀ c ∈ chans, ∀ y ∈ (estimateLevel le c.1 c.2).1, y ≠ nan) :
    (∀ i, i < n →
      (∀ c ∈ chans,
        (estimateLevel le c.1 c.2).1.getD i nan ≤
          (linkedLevelPass le 0 chans levelOutput).getD i nan) ∧
      ∃ c ∈ chans,
        (linkedLevelPass le 0 chans levelOutput).getD i nan =
          (estimateLevel le c.1 c.2).1.getD i nan) ∧
    ∀ chans2 : List (List (FloatX ℚ) × LevelEstimator.State ℚ), chans2.Perm chans →
      linkedLevelPass le 0 chans2 levelOutput = linkedLevelPass le 0 chans levelOutput :=
  linkedWrite_pass_max (fun c => (estimateLevel le c.1 c.2).1) (linkedLevelPass le)
    (fun _ _ => rfl) (linkedLevelPass_cons_binary32 le) n chans hne
    (fun c hc => by rw [estimateLevel_length_binary32]; exact hlen c hc)
    levelOutput hbuf hnan

end Binary32

/-! ## Envelope non-negativity on every input -/

namespace LevelEstimator

/-- The attack step keeps an estimate that is `>= 0` or NaN so. -/
theorem attack_nonneg_or_nan (a : α) (ha0 : 0 ≤ a) (e x : FloatX α)
    (he : fin 0 ≤ e ∨ e = nan) (hgt : fabs x > e) :
    fin 0 ≤ e + (fabs x - e) * fin a ∨ e + (fabs x - e) * fin a = nan := by
  cases e with
  | nan => exact Or.inr rfl
  | negInf =>
    rcases he with he | he
    · exact (Bool.false_ne_true he).elim
    · cases he
  | posInf => exact (Bool.false_ne_true hgt).elim
  | fin e0 =>
    have he0 : 0 ≤ e0 := by
      rcases he with he | he
      · exact (fin_le_fin _ _).mp he
      · cases he
    cases x with
    | nan => exact (Bool.false_ne_true hgt).elim
    | fin x0 =>
      left
      have hlt : e0 < |x0| := (fin_lt_fin _ _).mp hgt
      simp only [fabs_fin, fin_sub_fin, fin_mul_fin, fin_add_fin, fin_le_fin]
      have : 0 ≤ (|x0| - e0) * a := mul_nonneg (by linarith) ha0
      linarith
    | negInf =>
      show fin 0 ≤ fin e0 + signedInf a ∨ fin e0 + signedInf a = nan
      unfold signedInf
      split_ifs
      · exact Or.inl rfl
      · exact absurd ha0 (not_le.mpr ‹a < 0›)
      · exact Or.inr rfl
    | posInf =>
      show fin 0 ≤ fin e0 + signedInf a ∨ fin e0 + signedInf a = nan
      unfold signedInf
      split_ifs
      · exact Or.inl rfl
      · exact absurd ha0 (not_le.mpr ‹a < 0›)
      · exact Or.inr rfl

/-- The release step keeps an estimate that is `>= 0` or NaN so. -/
theorem release_nonneg_or_nan (r : α) (hr1 : r ≤ 1) (e x : FloatX α)
    (he : fin 0 ≤ e ∨ e = nan) (hgt : ¬ fabs x > e) :
    fin 0 ≤ e + (fabs x - e) * fin r ∨ e + (fabs x - e) * fin r = nan := by
  cases e with
  | nan => exact Or.inr rfl
  | negInf =>
    rcases he with he | he
    · exact (Bool.false_ne_true he).elim
    · cases he
  | posInf =>
    cases x with
    | nan => exact Or.inr rfl
    | negInf => exact Or.inr rfl
    | posInf => exact Or.inr rfl
    | fin x0 =>
      show fin 0 ≤ posInf + signedInf (-r) ∨ posInf + signedInf (-r) = nan
      unfold signedInf
      split_ifs
      · exact Or.inl rfl
      · exact Or.inr rfl
      · exact Or.inr rfl
  | fin e0 =>
    have he0 : 0 ≤ e0 := by
      rcases he with he | he
      · exact (fin_le_fin _ _).mp he
      · cases he
    cases x with
    | nan => exact Or.inr rfl
    | negInf => exact absurd rfl hgt
    | posInf => exact absurd rfl hgt
    | fin x0 =>
      left
      have hle : |x0| ≤ e0 := by
        have h1 : ¬ e0 < |x0| := fun h => hgt ((fin_lt_fin _ _).mpr h)
        exact not_lt.mp h1
      simp only [fabs_fin, fin_sub_fin, fin_mul_fin, fin_add_fin, fin_le_fin]
      have h4 : 0 ≤ |x0| := abs_nonneg x0
      clear hgt he
      nlinarith

/-- The estimate kept by `estimateLevel` and the values it writes are `>= 0` or NaN, on
every input buffer. -/
theorem estimateLevel_nonneg_or_nan (le : LevelEstimator α) (a r : α)
    (ha : le.attackCoefficient_ = fin a) (hr : le.releaseCoefficient_ = fin r)
    (ha0 : 0 ≤ a) (hr1 : r ≤ 1) (input : List (FloatX α)) (state : State α)
    (he : fin 0 ≤ state.levelEstimate ∨ state.levelEstimate = nan) :
    (fin 0 ≤ (estimateLevel le input state).2.levelEstimate ∨
        (estimateLevel le input state).2.levelEstimate = nan) ∧
      ∀ y ∈ (estimateLevel le input state).1, fin 0 ≤ y ∨ y = nan := by
  induction input generalizing state with
  | nil => exact ⟨he, fun y hy => absurd hy (List.not_mem_nil y)⟩
  | cons x input ih =>
    simp only [estimateLevel, ha, hr]
    split_ifs with h1 h2
    · have h := ih { levelEstimate :=
          state.levelEstimate + (fabs x - state.levelEstimate) * fin a, holdCount := 0 }
        (attack_nonneg_or_nan a ha0 _ x he h1)
      refine ⟨h.1, fun y hy => ?_⟩
      rcases List.mem_cons.mp hy with rfl | hy
      · exact attack_nonneg_or_nan a ha0 _ x he h1
      · exact h.2 y hy
    · have h := ih { state with holdCount := state.holdCount + 1 } he
      refine ⟨h.1, fun y hy => ?_⟩
      rcases List.mem_cons.mp hy with rfl | hy
      · exact he
      · exact h.2 y hy
    · have h := ih { state with levelEstimate :=
          state.levelEstimate + (fabs x - state.levelEstimate) * fin r }
        (release_nonneg_or_nan r hr1 _ x he h1)
      refine ⟨h.1, fun y hy => ?_⟩
      rcases List.mem_cons.mp hy with rfl | hy
      · exact release_nonneg_or_nan r hr1 _ x he h1
      · exact h.2 y hy

/-- The entries that the write at the end of the loop of `estimateLevelLinked` leaves in
the buffer: each has the property `P` of the envelope values, or the call is linked and
the entry is the one that was there. -/
theorem linkedWrite_forall (P : FloatX α → Prop) (linked : Bool)
    (levels levelOutput : List (FloatX α)) (hP : ∀ y ∈ levels, P y)
    (hlen : levels.length ≤ levelOutput.length) :
    List.Forall₂ (fun o y => P o ∨ (linked = true ∧ o = y))
      ((List.zipWith (fun level y => if linked then (if level > y then level else y) else level)
        levels levelOutput ++ levelOutput.drop levels.length).take levels.length)
      (levelOutput.take levels.length) := by
  induction levels generalizing levelOutput with
  | nil => simp
  | cons l levels ih =>
    cases levelOutput with
    | nil => simp at hlen
    | cons y ys =>
      have hlen2 : levels.length ≤ ys.length := by simpa using hlen
      simp only [List.zipWith_cons_cons, List.cons_append, List.length_cons,
        List.drop_succ_cons, List.take_succ_cons]
      refine List.Forall₂.cons ?_
        (ih ys (fun y hy => hP y (List.mem_cons_of_mem l hy)) hlen2)
      have hl : P l := hP l (List.mem_cons_self l levels)
      cases linked with
      | false => exact Or.inl (by simpa using hl)
      | true =>
        by_cases hgt : l > y
        · exact Or.inl (by simpa [hgt] using hl)
        · exact Or.inr ⟨rfl, by simp [hgt]⟩

/-- A list of finite values is the image of a list of numbers. -/
theorem exists_map_fin {β : Type} (input : List (FloatX β)) (h : ∀ x ∈ input, IsFinite x) :
    ∃ xs : List β, input = xs.map fin := by
  induction input with
  | nil => exact ⟨[], rfl⟩
  | cons x input ih =>
    obtain ⟨xs, hxs⟩ := ih (fun y hy => h y (List.mem_cons_of_mem x hy))
    have hx := h x (List.mem_cons_self x input)
    cases x with
    | fin x0 => exact ⟨x0 :: xs, by rw [hxs]; rfl⟩
    | nan => exact hx.elim
    | negInf => exact hx.elim
    | posInf => exact hx.elim

/-- C14, amended: for an estimator whose attack and release coefficients lie in `[0, 1]`, a
state with `levelEstimate >= 0` and every input buffer, after `estimateLevel` and after
`estimateLevelLinked` the state's `levelEstimate` is `>= 0` or NaN, never negative; every
value `estimateLevel` writes to `levelOutput` is `>= 0` or NaN, and each of the `numSamples`
entries of the buffer after `estimateLevelLinked` is `>= 0` or NaN unless the call is linked
and left the entry as it was (nothing was written there).  Over the reals (every
operation exact), when every sample and the estimate are finite, all of them are `>= 0`. -/
theorem levelEstimate_nonneg_or_nan (le : LevelEstimator α) (a r : α)
    (ha : le.attackCoefficient_ = fin a) (hr : le.releaseCoefficient_ = fin r)
    (ha01 : 0 ≤ a ∧ a ≤ 1) (hr01 : 0 ≤ r ∧ r ≤ 1) (state : State α)
    (he : fin 0 ≤ state.levelEstimate)
    (input levelOutput : List (FloatX α)) (linked : Bool)
    (hlen : input.length ≤ levelOutput.length) :
    (((fin 0 ≤ (estimateLevel le input state).2.levelEstimate ∨
            (estimateLevel le input state).2.levelEstimate = nan) ∧
          ∀ y ∈ (estimateLevel le input state).1, fin 0 ≤ y ∨ y = nan) ∧
        (fin 0 ≤ (estimateLevelLinked le input levelOutput state linked).2.levelEstimate ∨
            (estimateLevelLinked le input levelOutput state linked).2.levelEstimate = nan) ∧
          List.Forall₂ (fun o y => (fin 0 ≤ o ∨ o = nan) ∨ (linked = true ∧ o = y))
            ((estimateLevelLinked le input levelOutput state linked).1.take input.length)
            (levelOutput.take input.length)) ∧
      ((∀ x ∈ input, IsFinite x) → IsFinite state.levelEstimate →
        (fin 0 ≤ (estimateLevel le input state).2.levelEstimate ∧
          ∀ y ∈ (estimateLevel le input state).1, fin 0 ≤ y) ∧
        fin 0 ≤ (estimateLevelLinked le input levelOutput state linked).2.levelEstimate ∧
          List.Forall₂ (fun o y => fin 0 ≤ o ∨ (linked = true ∧ o = y))
            ((estimateLevelLinked le input levelOutput state linked).1.take input.length)
            (levelOutput.take input.length)) := by
  have hgen := estimateLevel_nonneg_or_nan le a r ha hr ha01.1 hr01.2 input state (Or.inl he)
  refine ⟨⟨hgen, ?_, ?_⟩, fun hfin hst => ?_⟩
  · rw [estimateLevelLinked_eq le linked _ _ _ hlen]
    exact hgen.1
  · rw [estimateLevelLinked_eq le linked _ _ _ hlen]
    have h := linkedWrite_forall (fun o => fin 0 ≤ o ∨ o = nan) linked
      (estimateLevel le input state).1 levelOutput hgen.2
      (by rw [estimateLevel_length]; exact hlen)
    rwa [estimateLevel_length] at h
  · obtain ⟨xs, rfl⟩ := exists_map_fin input hfin
    obtain ⟨e, h⟩ := state
    cases e with
    | fin e0 =>
      have he0 : 0 ≤ e0 := (fin_le_fin _ _).mp he
      have hlen2 : xs.length ≤ levelOutput.length := by simpa using hlen
      have hold := levelEstimate_nonneg le a r ha hr ha01 hr01 e0 h he0 xs levelOutput linked
        hlen2
      rw [List.length_map]
      exact hold
    | nan => exact hst.elim
    | negInf => exact hst.elim
    | posInf => exact hst.elim

/-- Witness of C14: instant attack, release coefficient 1/2, one hold sample, from the
reset state.  On the samples 1, -inf, 0, 0 the estimates written are `1`, `+inf`, `+inf`
(hold) and NaN (release), each `>= 0` or NaN; on the finite samples 1, -2, 0 they are
`>= 0`. -/
theorem levelEstimate_nonneg_or_nan_witness :
    ((fin 0 ≤
            (estimateLevel
              ({ releaseCoefficient_ := fin (1 / 2), holdTimeSamples_ := 1 } : LevelEstimator ℚ)
              [fin 1, negInf, fin 0, fin 0] {}).2.levelEstimate ∨
          (estimateLevel
              ({ releaseCoefficient_ := fin (1 / 2), holdTimeSamples_ := 1 } : LevelEstimator ℚ)
              [fin 1, negInf, fin 0, fin 0] {}).2.levelEstimate = nan) ∧
        ∀ y ∈ (estimateLevel
            ({ releaseCoefficient_ := fin (1 / 2), holdTimeSamples_ := 1 } : LevelEstimator ℚ)
            [fin 1, negInf, fin 0, fin 0] {}).1,
          fin 0 ≤ y ∨ y = nan) ∧
      (fin 0 ≤
          (estimateLevel
            ({ releaseCoefficient_ := fin (1 / 2), holdTimeSamples_ := 1 } : LevelEstimator ℚ)
            [fin 1, fin (-2), fin 0] {}).2.levelEstimate ∧
        ∀ y ∈ (estimateLevel
            ({ releaseCoefficient_ := fin (1 / 2), holdTimeSamples_ := 1 } : LevelEstimator ℚ)
            [fin 1, fin (-2), fin 0] {}).1,
          fin 0 ≤ y) :=
  ⟨(levelEstimate_nonneg_or_nan
      ({ releaseCoefficient_ := fin (1 / 2), holdTimeSamples_ := 1 } : LevelEstimator ℚ)
      1 (1 / 2) rfl rfl (by norm_num) (by norm_num) {} ((fin_le_fin 0 0).mpr le_rfl)
      [fin 1, negInf, fin 0, fin 0] [fin (-1), fin 3, fin 0, fin 0] true (by decide)).1.1,
    ((levelEstimate_nonneg_or_nan
      ({ releaseCoefficient_ := fin (1 / 2), holdTimeSamples_ := 1 } : LevelEstimator ℚ)
      1 (1 / 2) rfl rfl (by norm_num) (by norm_num) {} ((fin_le_fin 0 0).mpr le_rfl)
      [fin 1, fin (-2), fin 0] [fin (-1), fin 3, fin 0] true (by decide)).2
        (fun x hx => by
          simp only [List.mem_cons, List.mem_singleton, List.not_mem_nil, or_false] at hx
          rcases hx with rfl | rfl | rfl <;> trivial)
        trivial).1⟩

end LevelEstimator

/-! ## Linked mode on every block -/

/-- An entry of the first `n` entries of a list. -/
theorem getD_take_of_lt {β : Type} (l : List β) (n i : Nat) (d : β) (h : i < n) :
    (l.take n).getD i d = l.getD i d := by
  simp only [List.getD_eq_getElem?_getD, List.getElem?_take_of_lt h]

namespace BroadbandCompressorAudioProcessor

variable {σ : Type}

/-- Phases 1 and 2 in linked mode, on a block without NaN in the channels' own envelopes:
every channel gets the gains of the curve at the shared levels, and the shared level at
each index is the largest of the channels' own envelope values. -/
theorem linked_phases_of_no_nan (m : CMath α) (J : SmoothedValueOps σ α)
    (le : LevelEstimator α) (curve : CompressionCurve α) (n : Nat)
    (channels : List (List (FloatX α))) (hne : channels ≠ [])
    (hn : ∀ c ∈ channels, c.length = n) (S : List (LevelEstimator.State α))
    (hS : channels.length ≤ S.length) (lb : List (FloatX α)) (hlb : n ≤ lb.length)
    (s0 so : σ) (dls : List (DelayLine α))
    (hnan : ∀ cs ∈ List.zip (inputGainPass J channels s0 (fin 0)) S,
      ∀ y ∈ (le.estimateLevel cs.1 cs.2).1, y ≠ nan) :
    ∃ shared : List (FloatX α), shared.length = n ∧
      shared =
        (phase2 m J le curve true 0
          (phase1 J le true 0 channels S lb s0 (fin 0)).channels
          (phase1 J le true 0 channels S lb s0 (fin 0)).levelStates
          (phase1 J le true 0 channels S lb s0 (fin 0)).levelData
          dls so (fin 0) (fin 0)).levelData.take n ∧
      (phase2 m J le curve true 0
          (phase1 J le true 0 channels S lb s0 (fin 0)).channels
          (phase1 J le true 0 channels S lb s0 (fin 0)).levelStates
          (phase1 J le true 0 channels S lb s0 (fin 0)).levelData
          dls so (fin 0) (fin 0)).gainDb =
        List.replicate channels.length
          (shared.map (fun level => curve.calculateCompressionGainDb (mag2Db m level))) ∧
      ∀ i, i < n →
        (∀ cs ∈ List.zip (inputGainPass J channels s0 (fin 0)) S,
          (le.estimateLevel cs.1 cs.2).1.getD i nan ≤ shared.getD i nan) ∧
        ∃ cs ∈ List.zip (inputGainPass J channels s0 (fin 0)) S,
          shared.getD i nan = (le.estimateLevel cs.1 cs.2).1.getD i nan := by
  have hpostn : ∀ c ∈ inputGainPass J channels s0 (fin 0), c.length = n :=
    inputGainPass_mem_length J channels s0 (fin 0) n hn
  have hpostlen : (inputGainPass J channels s0 (fin 0)).length = channels.length :=
    inputGainPass_channels J channels s0 (fin 0)
  have hp1 := phase1_linked J le channels S 0 S lb s0 (fin 0) rfl hS
  have hzlen : (List.zip (inputGainPass J channels s0 (fin 0)) S).length = channels.length := by
    rw [List.length_zip, hpostlen]
    omega
  have hzne : List.zip (inputGainPass J channels s0 (fin 0)) S ≠ [] := by
    intro h0
    rw [h0] at hzlen
    exact hne (List.length_eq_zero.mp hzlen.symm)
  have hzn : ∀ c ∈ List.zip (inputGainPass J channels s0 (fin 0)) S, c.1.length = n := by
    intro c hc
    have hc2 : (c.1, c.2) ∈ List.zip (inputGainPass J channels s0 (fin 0)) S := hc
    exact hpostn c.1 (List.of_mem_zip hc2).1
  have hmax := (linkedWrite_pass_max (fun c => (le.estimateLevel c.1 c.2).1)
    (linkedLevelPass le) (fun _ _ => rfl) (linkedLevelPass_cons le) n
    (List.zip (inputGainPass J channels s0 (fin 0)) S) hzne
    (fun c hc => by rw [LevelEstimator.estimateLevel_length]; exact hzn c hc)
    lb hlb hnan).1
  have hp1len := phase1_levelData_length J le true channels 0 S lb s0 (fin 0)
    (fun c hc => by rw [hn c hc]; exact hlb)
  have hlen2 : ∀ c ∈ (phase1 J le true 0 channels S lb s0 (fin 0)).channels,
      c.length ≤ (phase1 J le true 0 channels S lb s0 (fin 0)).levelData.length := by
    intro c hc
    rw [hp1.2] at hc
    rw [hp1len, hpostn c hc]
    exact hlb
  have hp2 := phase2_linked m J le curve
    (phase1 J le true 0 channels S lb s0 (fin 0)).channels 0
    (phase1 J le true 0 channels S lb s0 (fin 0)).levelStates
    (phase1 J le true 0 channels S lb s0 (fin 0)).levelData dls so (fin 0) (fin 0) hlen2
  refine ⟨(phase1 J le true 0 channels S lb s0 (fin 0)).levelData.take n, ?_, ?_, ?_,
    fun i hi => ?_⟩
  · rw [List.length_take, hp1len]
    omega
  · rw [hp2.2]
  · rw [hp2.1, List.eq_replicate_iff]
    refine ⟨by rw [List.length_map, hp1.2, hpostlen], fun b hb => ?_⟩
    obtain ⟨c, hc, rfl⟩ := List.mem_map.mp hb
    rw [hp1.2] at hc
    rw [hpostn c hc]
  · rw [getD_take_of_lt _ _ _ _ hi, hp1.1]
    exact hmax i hi

/-- C18, amended: in linked mode (`linked > 0.5`), on a block of `C >= 1` channels that
`processCompression` processes (a delay line and an envelope state for every channel)
and in which no channel's own envelope has a NaN (the envelope `estimateLevel` gives on
the channel after the input gain, from the channel's state), `processCompression` takes
for every channel the same list of gains: at sample `i` the gain
`calculateCompressionGainDb(mag2Db(shared[i]))`, where `shared` is the shared level buffer;
`shared[i]` is the maximum over the channels of the channel's own envelope value at `i`;
and the gain is applied: the sample `i` written to channel `ch` of the buffer is the
product of the channel's delayed sample, of `db2Mag` of that gain, and of the output
gain. -/
theorem processCompression_linked (m : CMath α) (J : SmoothedValueOps σ α)
    (p : BroadbandCompressorAudioProcessor σ α) (buffer : AudioBuffer α)
    (hlinked : p.linkedParam_ > fin (1 / 2)) (hne : buffer.channels ≠ [])
    (hn : ∀ c ∈ buffer.channels, c.length = buffer.numSamples)
    (hdl : buffer.channels.length ≤ p.delayLines_.length)
    (hst : buffer.channels.length ≤ p.levelStates_.length)
    (hnan : ∀ cs ∈ List.zip (inputGainPass J buffer.channels p.inputGainSmoothed_ (fin 0))
        p.levelStates_,
      ∀ y ∈ (p.levelEstimator_.estimateLevel cs.1 cs.2).1, y ≠ nan) :
    ∃ shared : List (FloatX α), shared.length = buffer.numSamples ∧
      shared = (processCompression m J p buffer).processor.levelBuffer_.take
        buffer.numSamples ∧
      (processCompression m J p buffer).gainDb =
        List.replicate buffer.channels.length (shared.map
          (fun level => p.compressionCurve_.calculateCompressionGainDb (mag2Db m level))) ∧
      (∀ i, i < buffer.numSamples →
        (∀ cs ∈ List.zip (inputGainPass J buffer.channels p.inputGainSmoothed_ (fin 0))
            p.levelStates_,
          (p.levelEstimator_.estimateLevel cs.1 cs.2).1.getD i nan ≤ shared.getD i nan) ∧
        ∃ cs ∈ List.zip (inputGainPass J buffer.channels p.inputGainSmoothed_ (fin 0))
            p.levelStates_,
          shared.getD i nan = (p.levelEstimator_.estimateLevel cs.1 cs.2).1.getD i nan) ∧
      ∀ ch, ch < buffer.channels.length →
        (processCompression m J p buffer).buffer.channels.getD ch [] =
          List.zipWith3
            (fun delayed level outputGain =>
              delayed *
                db2Mag m (p.compressionCurve_.calculateCompressionGainDb (mag2Db m level)) *
                outputGain)
            ((p.delayLines_.getD ch {}).process
              ((inputGainPass J buffer.channels p.inputGainSmoothed_ (fin 0)).getD ch [])).1
            shared
            ((outputGainPass J (inputGainPass J buffer.channels p.inputGainSmoothed_ (fin 0))
              p.outputGainSmoothed_).getD ch []) := by
  have hnot : ¬ (buffer.channels.length > p.delayLines_.length) := by omega
  have hdec : decide (p.linkedParam_ > fin (1 / 2)) = true := decide_eq_true hlinked
  have hlb : buffer.numSamples ≤ (List.replicate
      (if p.levelBuffer_.length < buffer.numSamples then
        List.replicate buffer.numSamples (fin 0) else p.levelBuffer_).length
      (fin 0 : FloatX α)).length := by
    rw [List.length_replicate]
    split_ifs with h
    · rw [List.length_replicate]
    · omega
  simp only [processCompression, if_neg hnot, hdec, if_true]
  generalize (List.replicate
      (if p.levelBuffer_.length < buffer.numSamples then
        List.replicate buffer.numSamples (fin 0) else p.levelBuffer_).length
      (fin 0 : FloatX α)) = lb at hlb ⊢
  obtain ⟨shared, h1, h2, h3, h4⟩ :=
    linked_phases_of_no_nan m J p.levelEstimator_ p.compressionCurve_
      buffer.numSamples buffer.channels hne hn p.levelStates_ hst lb hlb p.inputGainSmoothed_
      p.outputGainSmoothed_ p.delayLines_ hnan
  refine ⟨shared, h1, h2, h3, h4, fun ch hch => ?_⟩
  have hpost : ∀ c ∈ inputGainPass J buffer.channels p.inputGainSmoothed_ (fin 0),
      c.length = buffer.numSamples :=
    inputGainPass_mem_length J _ _ _ buffer.numSamples hn
  have hplen : (inputGainPass J buffer.channels p.inputGainSmoothed_
      (fin 0)).length = buffer.channels.length := inputGainPass_channels J _ _ _
  have hp1len := phase1_levelData_length J p.levelEstimator_ true buffer.channels 0
    p.levelStates_ lb p.inputGainSmoothed_ (fin 0) (fun c hc => by
      rw [hn c hc]
      exact hlb)
  have hlen2 : ∀ c ∈ (phase1 J p.levelEstimator_ true 0 buffer.channels
      p.levelStates_ lb p.inputGainSmoothed_ (fin 0)).channels,
      c.length ≤ (phase1 J p.levelEstimator_ true 0 buffer.channels
        p.levelStates_ lb p.inputGainSmoothed_ (fin 0)).levelData.length := by
    intro c hc
    rw [phase1_channels] at hc
    rw [hp1len, hpost c hc]
    exact hlb
  rw [h2, (phase2_linked m J _ _ _ _ _ _ _ _ _ _ hlen2).2,
    phase2_linked_channels m J _ _ _ 0 _ _ _ _ _ _ hlen2 ch
      (by rw [phase1_channels, hplen]; exact hch),
    phase1_channels, Nat.zero_add]
  rw [zipWith3_take]
  rw [DelayLine.process_length]
  exact (hpost _ (getD_mem _ ch [] (by rw [hplen]; exact hch))).le

/-- On finite data no channel's own envelope has a NaN: with finite input gains, finite
samples, finite estimates and finite coefficients, every envelope value is finite. -/
theorem linked_no_nan_of_fin (J : SmoothedValueOps σ α) (le : LevelEstimator α) (a r : α)
    (ha : le.attackCoefficient_ = fin a) (hr : le.releaseCoefficient_ = fin r)
    (hgain : ∀ s : σ, IsFinite (J.getNextValue s).1) (n : Nat) (chans : List (List α))
    (hn : ∀ c ∈ chans, c.length = n) (sts : List (α × Nat)) (s0 : σ) :
    ∀ cs ∈ List.zip (inputGainPass J (chans.map (List.map fin)) s0 (fin 0))
        (sts.map finState),
      ∀ y ∈ (le.estimateLevel cs.1 cs.2).1, y ≠ nan := by
  obtain ⟨post, hpost, _, _⟩ := inputGainPass_fin J hgain n chans hn s0 (fin 0)
  intro cs hcs y hy
  rw [hpost, List.zip_map] at hcs
  obtain ⟨c, _, rfl⟩ := List.mem_map.mp hcs
  have h1 : (le.estimateLevel (c.1.map fin) { levelEstimate := fin c.2.1, holdCount := c.2.2 }).1
      = (LevelEstimator.envelopeRun a r le.holdTimeSamples_ c.1 (c.2.1, c.2.2)).1.map fin := by
    rw [LevelEstimator.estimateLevel_fin le a r ha hr]
  have hy2 : y ∈ (LevelEstimator.envelopeRun a r le.holdTimeSamples_ c.1 (c.2.1, c.2.2)).1.map
      fin := by
    rw [← h1]
    exact hy
  obtain ⟨z, _, rfl⟩ := List.mem_map.mp hy2
  exact fun h => FloatX.noConfusion h

/-- Witness of C18, the linked-mode scenario of the specification: channel A constant at
the level 0.1 and channel B constant at 0.9 (unit input and output gain, instant attack,
reset states, no delay).  Both channels get, at both samples, the gain of the curve at
B's level 0.9, and every sample written is the input sample times `db2Mag` of that gain
times the output gain 1. -/
theorem processCompression_linked_witness :
    (processCompression realMath
        (SmoothedValueOps.mk (fun _ : Unit => (fin 1, ())) (fun _ _ => ()))
        ({ linkedParam_ := fin 1, bypassParam_ := fin 0, inputGainParam_ := fin 0,
           thresholdParam_ := fin (-20), ratioParam_ := fin 4, kneeWidthParam_ := fin 0,
           outputGainParam_ := fin 0, attackTimeParam_ := fin 0, releaseTimeParam_ := fin 100,
           holdTimeParam_ := fin 0, lookaheadTimeParam_ := fin 0,
           compressionCurve_ := { thresholdDb_ := fin (-20), compressionRatio_ := fin 4 },
           delayLines_ := [DelayLine.prepare {} 0, DelayLine.prepare {} 0],
           levelStates_ := [finState (0, 0), finState (0, 0)],
           inputGainSmoothed_ := (), outputGainSmoothed_ := () } :
          BroadbandCompressorAudioProcessor Unit ℝ)
        { numSamples := 2,
          channels := [[1 / 10, 1 / 10], [9 / 10, 9 / 10]].map (List.map fin) }).gainDb =
      List.replicate 2 (List.replicate 2
        (({ thresholdDb_ := fin (-20), compressionRatio_ := fin 4 } :
          CompressionCurve ℝ).calculateCompressionGainDb (mag2Db realMath (fin (9 / 10))))) ∧
    (processCompression realMath
        (SmoothedValueOps.mk (fun _ : Unit => (fin 1, ())) (fun _ _ => ()))
        ({ linkedParam_ := fin 1, bypassParam_ := fin 0, inputGainParam_ := fin 0,
           thresholdParam_ := fin (-20), ratioParam_ := fin 4, kneeWidthParam_ := fin 0,
           outputGainParam_ := fin 0, attackTimeParam_ := fin 0, releaseTimeParam_ := fin 100,
           holdTimeParam_ := fin 0, lookaheadTimeParam_ := fin 0,
           compressionCurve_ := { thresholdDb_ := fin (-20), compressionRatio_ := fin 4 },
           delayLines_ := [DelayLine.prepare {} 0, DelayLine.prepare {} 0],
           levelStates_ := [finState (0, 0), finState (0, 0)],
           inputGainSmoothed_ := (), outputGainSmoothed_ := () } :
          BroadbandCompressorAudioProcessor Unit ℝ)
        { numSamples := 2,
          channels := [[1 / 10, 1 / 10], [9 / 10, 9 / 10]].map (List.map fin)
        }).buffer.channels.getD 0 [] =
      List.replicate 2
        (fin (1 / 10) *
          db2Mag realMath
            (({ thresholdDb_ := fin (-20), compressionRatio_ := fin 4 } :
              CompressionCurve ℝ).calculateCompressionGainDb
                (mag2Db realMath (fin (9 / 10)))) *
          fin 1) := by
  obtain ⟨shared, _, hshared, hgains, _, hout⟩ := processCompression_linked realMath
    (SmoothedValueOps.mk (fun _ : Unit => (fin 1, ())) (fun _ _ => ()))
    ({ linkedParam_ := fin 1, bypassParam_ := fin 0, inputGainParam_ := fin 0,
       thresholdParam_ := fin (-20), ratioParam_ := fin 4, kneeWidthParam_ := fin 0,
       outputGainParam_ := fin 0, attackTimeParam_ := fin 0, releaseTimeParam_ := fin 100,
       holdTimeParam_ := fin 0, lookaheadTimeParam_ := fin 0,
       compressionCurve_ := { thresholdDb_ := fin (-20), compressionRatio_ := fin 4 },
       delayLines_ := [DelayLine.prepare {} 0, DelayLine.prepare {} 0],
       levelStates_ := [finState (0, 0), finState (0, 0)],
       inputGainSmoothed_ := (), outputGainSmoothed_ := () } :
      BroadbandCompressorAudioProcessor Unit ℝ)
    { numSamples := 2, channels := [[1 / 10, 1 / 10], [9 / 10, 9 / 10]].map (List.map fin) }
    (by norm_num) (by simp) (by simp) (by simp) (by simp)
    (linked_no_nan_of_fin (SmoothedValueOps.mk (fun _ : Unit => (fin 1, ())) (fun _ _ => ()))
      ({} : LevelEstimator ℝ) 1 1 rfl rfl (fun _ => trivial) 2
      [[1 / 10, 1 / 10], [9 / 10, 9 / 10]] (by simp) [(0, 0), (0, 0)] ())
  have hs : shared = [fin (9 / 10), fin (9 / 10)] := by
    rw [hshared]
    norm_num [processCompression, phase1_linked, phase2_linked, phase1, applyInputGain,
      LevelEstimator.estimateLevelLinked, finState, phase2]
    rw [abs_of_pos (by norm_num : (0 : ℝ) < 1 / 10), abs_of_pos (by norm_num : (0 : ℝ) < 9 / 10),
      if_pos (by norm_num)]
  refine ⟨by rw [hgains, hs]; rfl, ?_⟩
  rw [hout 0 (by decide), hs]
  simp [inputGainPass, applyInputGain, outputGainPass, SmoothedValueOps.nextValues,
    DelayLine.process, DelayLine.processSample, DelayLine.prepare, DelayLine.reset,
    DelayLine.resize, DelayLine.readIndex, sizeModulus, List.zipWith3]

/-- C18, counterexample: a linked stereo block of two samples, channel A `[+inf, 0]` and
channel B `[1, 1]`, default estimator (attack and release coefficients 1, no hold), reset
states, unit gains.  Channel A's own envelope is `[+inf, NaN]`, channel B's is `[1, 1]`.
After `processCompression` the shared level buffer is `[+inf, NaN]`: at sample 1 it is not
at least channel B's envelope value `1`, so it is not the maximum of the channels'
envelopes; with the two channels in the other order the buffer ends as `[+inf, 1]`.  Both
channels get the gain of the curve at these shared levels, NaN at both samples. -/
theorem processCompression_linked_nan :
    (processCompression realMath
        (SmoothedValueOps.mk (fun _ : Unit => (fin 1, ())) (fun _ _ => ()))
        ({ linkedParam_ := fin 1, bypassParam_ := fin 0, inputGainParam_ := fin 0,
           thresholdParam_ := fin (-20), ratioParam_ := fin 4, kneeWidthParam_ := fin 0,
           outputGainParam_ := fin 0, attackTimeParam_ := fin 0, releaseTimeParam_ := fin 100,
           holdTimeParam_ := fin 0, lookaheadTimeParam_ := fin 0,
           compressionCurve_ := { thresholdDb_ := fin (-20), compressionRatio_ := fin 4 },
           delayLines_ := [DelayLine.prepare {} 0, DelayLine.prepare {} 0],
           levelStates_ := [{}, {}],
           inputGainSmoothed_ := (), outputGainSmoothed_ := () } :
          BroadbandCompressorAudioProcessor Unit ℝ)
        { numSamples := 2,
          channels := [[posInf, fin 0], [fin 1, fin 1]] }).processor.levelBuffer_ =
      [posInf, nan] ∧
    (({} : LevelEstimator ℝ).estimateLevel [posInf, fin 0] {}).1 = [posInf, nan] ∧
    (({} : LevelEstimator ℝ).estimateLevel [fin 1, fin 1] {}).1 = [fin 1, fin 1] ∧
    ¬ ((fin 1 : FloatX ℝ) ≤ nan) ∧
    (processCompression realMath
        (SmoothedValueOps.mk (fun _ : Unit => (fin 1, ())) (fun _ _ => ()))
        ({ linkedParam_ := fin 1, bypassParam_ := fin 0, inputGainParam_ := fin 0,
           thresholdParam_ := fin (-20), ratioParam_ := fin 4, kneeWidthParam_ := fin 0,
           outputGainParam_ := fin 0, attackTimeParam_ := fin 0, releaseTimeParam_ := fin 100,
           holdTimeParam_ := fin 0, lookaheadTimeParam_ := fin 0,
           compressionCurve_ := { thresholdDb_ := fin (-20), compressionRatio_ := fin 4 },
           delayLines_ := [DelayLine.prepare {} 0, DelayLine.prepare {} 0],
           levelStates_ := [{}, {}],
           inputGainSmoothed_ := (), outputGainSmoothed_ := () } :
          BroadbandCompressorAudioProcessor Unit ℝ)
        { numSamples := 2,
          channels := [[fin 1, fin 1], [posInf, fin 0]] }).processor.levelBuffer_ =
      [posInf, fin 1] ∧
    (processCompression realMath
        (SmoothedValueOps.mk (fun _ : Unit => (fin 1, ())) (fun _ _ => ()))
        ({ linkedParam_ := fin 1, bypassParam_ := fin 0, inputGainParam_ := fin 0,
           thresholdParam_ := fin (-20), ratioParam_ := fin 4, kneeWidthParam_ := fin 0,
           outputGainParam_ := fin 0, attackTimeParam_ := fin 0, releaseTimeParam_ := fin 100,
           holdTimeParam_ := fin 0, lookaheadTimeParam_ := fin 0,
           compressionCurve_ := { thresholdDb_ := fin (-20), compressionRatio_ := fin 4 },
           delayLines_ := [DelayLine.prepare {} 0, DelayLine.prepare {} 0],
           levelStates_ := [{}, {}],
           inputGainSmoothed_ := (), outputGainSmoothed_ := () } :
          BroadbandCompressorAudioProcessor Unit ℝ)
        { numSamples := 2,
          channels := [[posInf, fin 0], [fin 1, fin 1]] }).gainDb =
      [[nan, nan], [nan, nan]] := by
  have e1 : (posInf : FloatX ℝ) * fin 1 = posInf := by
    show signedInf (1 : ℝ) = posInf
    simp [signedInf]
  have e2 : (negInf : FloatX ℝ) * fin 1 = negInf := by
    show signedInf (-(1 : ℝ)) = negInf
    simp [signedInf]
  have e3 : ∀ x : ℝ, (fin x : FloatX ℝ) - posInf = negInf := fun _ => rfl
  have e4 : (posInf : FloatX ℝ) + negInf = nan := rfl
  have e5 : ∀ x : ℝ, (posInf : FloatX ℝ) - fin x = posInf := fun _ => rfl
  have e6 : ∀ x : ℝ, (fin x : FloatX ℝ) + posInf = posInf := fun _ => rfl
  have e7 : ∀ x : ℝ, (fin x : FloatX ℝ) < posInf := fun _ => rfl
  have e8 : ∀ x : FloatX ℝ, ¬ (posInf < x) := fun _ h => Bool.false_ne_true h
  have g1 : mag2Db realMath posInf = posInf := by
    simp [mag2Db, eqB, e8]
  have g2 : mag2Db realMath nan = nan := by
    simp only [mag2Db, not_nan_lt, if_false, eqB, Bool.false_eq_true]
    rfl
  have e9 : (fin 2 : FloatX ℝ) * posInf = posInf := by
    show signedInf (2 : ℝ) = posInf
    simp [signedInf]
  have e10 : (posInf : FloatX ℝ) / fin 4 = posInf := by
    show (if (4 : ℝ) < 0 then negInf else posInf) = posInf
    norm_num
  have e11 : (posInf : FloatX ℝ) - posInf = nan := rfl
  have n1 : ∀ x : FloatX ℝ, nan - x = nan := fun _ => rfl
  have n2 : ∀ x : ℝ, (fin x : FloatX ℝ) * nan = nan := fun _ => rfl
  have n3 : ∀ x : FloatX ℝ, (nan : FloatX ℝ) / x = nan := fun _ => rfl
  have n4 : ∀ x : ℝ, (fin x : FloatX ℝ) + nan = nan := fun _ => rfl
  have g3 : ({ thresholdDb_ := fin (-20), compressionRatio_ := fin 4 } :
      CompressionCurve ℝ).calculateCompressionGainDb posInf = nan := by
    norm_num [CompressionCurve.calculateCompressionGainDb,
      CompressionCurve.aboveKneeOutLevelDb, eqB, negativeInfinity, positiveInfinity, e5, e6,
      e8, e9, e10, e11, not_posInf_le_fin, fabs]
  have g4 : ({ thresholdDb_ := fin (-20), compressionRatio_ := fin 4 } :
      CompressionCurve ℝ).calculateCompressionGainDb nan = nan := by
    norm_num [CompressionCurve.calculateCompressionGainDb,
      CompressionCurve.aboveKneeOutLevelDb, eqB, negativeInfinity, positiveInfinity, n1, n2,
      n3, n4, not_nan_le, not_nan_lt, fabs]
  refine ⟨?_, ?_, ?_, not_le_nan _, ?_, ?_⟩
  · norm_num [processCompression, phase1, phase2, applyInputGain, compressChannel,
      LevelEstimator.estimateLevelLinked, fabs_fin, fin_lt_fin, e1, e2, e3, e4, e5, e6, e7, e8,
      fabs, not_lt_nan, not_nan_lt]
  · norm_num [LevelEstimator.estimateLevel, fabs_fin, fin_lt_fin, e1, e2, e3, e4, e5, e6, e7,
      e8, fabs]
  · norm_num [LevelEstimator.estimateLevel, fabs_fin, fin_lt_fin]
  · norm_num [processCompression, phase1, phase2, applyInputGain, compressChannel,
      LevelEstimator.estimateLevelLinked, fabs_fin, fin_lt_fin, e1, e2, e3, e4, e5, e6, e7, e8,
      fabs, not_lt_nan, not_nan_lt]
  · norm_num [processCompression, phase1, phase2, applyInputGain, compressChannel,
      LevelEstimator.estimateLevelLinked, fabs_fin, fin_lt_fin, e1, e2, e3, e4, e5, e6, e7, e8,
      fabs, not_lt_nan, not_nan_lt, g1, g2, g3, g4]

end BroadbandCompressorAudioProcessor

end DSP
